import Mathlib

/-!
# MiniEngine dynamic descriptor heap

A shallow embedding of `MiniEngine/Core/DynamicDescriptorHeap.cpp`: the descriptor
handle cache (staging, default filling, staged-size computation, the batched
copy-and-bind), the process-wide heap pool and the per-context heap instance.

Conventions of the embedding.

* `uint32_t`, `UINT` and `unsigned long` values are naturals below `2 ^ 32`; `uint64_t`
  and pointer values are naturals below `2 ^ 64`. Arithmetic that can leave the word
  is reduced explicitly.
* A shift of a 32-bit operand takes its count modulo 32, as the shift instruction of
  the x86-64 target does (C++ leaves counts of 32 and more undefined).
* `ASSERT` failures are fatal: the operation returns `Fault.assertion`.
* A `while` loop is run with fuel; running out of fuel is `Fault.nontermination`.
* An array together with its element count (`pDestDescriptorRangeStarts` and
  `NumDestDescriptorRanges`, ...) is the list of its first `count` entries.
* Calls into the device and the command list are recorded in a trace.
-/

namespace MiniEngine

/-! ## Machine words and bit scans -/

/-- Left shift `x << n` of a 32-bit operand; the count is taken modulo 32. -/
def shl32 (x n : Nat) : Nat := (x <<< (n % 32)) % 2 ^ 32

/-- Subtraction `x - y` of 32-bit operands with wrap-around. -/
def sub32 (x y : Nat) : Nat := (x % 2 ^ 32 + (2 ^ 32 - y % 2 ^ 32)) % 2 ^ 32

/-- Right shift `x >> n` of a 32-bit operand; the count is taken modulo 32. -/
def shr32 (x n : Nat) : Nat := x >>> (n % 32)

/-- Complement `~x` of a 32-bit operand. -/
def not32 (x : Nat) : Nat := 2 ^ 32 - 1 - x % 2 ^ 32

/-- Complement `~x` of a 64-bit operand. -/
def not64 (x : Nat) : Nat := 2 ^ 64 - 1 - x % 2 ^ 64

/-- Search for the lowest set bit among bits `i, i+1, ..., i+fuel-1`. -/
def bitScanUp (mask : Nat) : Nat → Nat → Option Nat
  | _, 0 => none
  | i, fuel + 1 => if mask.testBit i then some i else bitScanUp mask (i + 1) fuel

/-- Search for the highest set bit among bits `i-1, ..., 0`. -/
def bitScanDown (mask : Nat) : Nat → Option Nat
  | 0 => none
  | i + 1 => if mask.testBit i then some i else bitScanDown mask i

/-- The intrinsic `_BitScanForward(&Index, Mask)` on a 32-bit mask: `none` when the
intrinsic returns 0, else the index of the lowest set bit. -/
def _BitScanForward (Mask : Nat) : Option Nat := bitScanUp Mask 0 32

/-- The intrinsic `_BitScanReverse(&Index, Mask)` on a 32-bit mask: `none` when the
intrinsic returns 0, else the index of the highest set bit. -/
def _BitScanReverse (Mask : Nat) : Option Nat := bitScanDown Mask 32

/-- The intrinsic `_BitScanForward64(&Index, Mask)` on a 64-bit mask. -/
def _BitScanForward64 (Mask : Nat) : Option Nat := bitScanUp Mask 0 64

/-- How an operation can fail to return. -/
inductive Fault where
  | assertion
  | nontermination
  deriving DecidableEq, Repr

/-! ## Constants of `d3d12.h` -/

/-- Value of `D3D12_DESCRIPTOR_HEAP_TYPE_SAMPLER`. -/
def D3D12_DESCRIPTOR_HEAP_TYPE_SAMPLER : Nat := 1

/-- Value of `D3D12_DESCRIPTOR_RANGE_TYPE_SRV`. -/
def D3D12_DESCRIPTOR_RANGE_TYPE_SRV : Nat := 0

/-- Value of `D3D12_DESCRIPTOR_RANGE_TYPE_UAV`. -/
def D3D12_DESCRIPTOR_RANGE_TYPE_UAV : Nat := 1

/-- Value of `D3D12_DESCRIPTOR_RANGE_TYPE_CBV`. -/
def D3D12_DESCRIPTOR_RANGE_TYPE_CBV : Nat := 2

/-- Value of `D3D12_DESCRIPTOR_RANGE_TYPE_SAMPLER`. -/
def D3D12_DESCRIPTOR_RANGE_TYPE_SAMPLER : Nat := 3

/-- Value of `D3D12_ROOT_PARAMETER_TYPE_DESCRIPTOR_TABLE`. -/
def D3D12_ROOT_PARAMETER_TYPE_DESCRIPTOR_TABLE : Nat := 0

/-! ## Descriptor handle cache -/

/-- The struct `DescriptorTableCache`. `TableStart` is the index in `m_HandleCache`
the table's pointer refers to; `ParamType` is the source field `Type`. -/
structure DescriptorTableCache where
  AssignedHandlesBitMap : Nat
  TableStart : Nat
  TableSize : Nat
  ParamType : Nat
  RangeType : Nat

/-- The struct `DescriptorHandleCache`: the two bitmaps, the table records indexed by
root index and the staging array `m_HandleCache` of CPU handles. -/
structure DescriptorHandleCache where
  m_RootDescriptorTablesBitMap : Nat
  m_StaleRootParamsBitMap : Nat
  m_MaxCachedDescriptors : Nat
  m_RootDescriptorTable : Nat → DescriptorTableCache
  m_HandleCache : Nat → Nat

/-- Modelled from the spec: the constant `kMaxNumDescriptorTables` of the missing header
`DynamicDescriptorHeap.h`, the number of table records of a handle cache (root
parameter slots 0..15). -/
def kMaxNumDescriptorTables : Nat := 16

/-- The part of a root signature `ParseRootSignature` reads (the class `RootSignature`
is declared outside the translated sources). -/
structure RootSignature where
  m_NumParameters : Nat
  m_DescriptorTableBitMap : Nat
  m_SamplerTableBitMap : Nat
  m_DescriptorTableSize : Nat → Nat
  GetType : Nat → Nat
  GetRangeType : Nat → Nat

/-- The loop `for (i = 0; i < NumHandles; ++i) CopyDest[i] = Handles[i]`. -/
def copyHandles (cache : Nat → Nat) (CopyDest : Nat) (Handles : Nat → Nat) :
    Nat → Nat → Nat
  | 0 => cache
  | i + 1 => Function.update (copyHandles cache CopyDest Handles i) (CopyDest + i) (Handles i)

/-- The operation `DescriptorHandleCache::StageDescriptorHandles`. -/
def StageDescriptorHandles (c : DescriptorHandleCache) (RootIndex Offset NumHandles : Nat)
    (Handles : Nat → Nat) : Except Fault DescriptorHandleCache :=
  if shl32 1 RootIndex &&& c.m_RootDescriptorTablesBitMap = 0 then .error .assertion
  else if ¬ ((Offset + NumHandles) % 2 ^ 32 ≤ (c.m_RootDescriptorTable RootIndex).TableSize) then
    .error .assertion
  else
    let TableCache := c.m_RootDescriptorTable RootIndex
    let CopyDest := TableCache.TableStart + Offset
    .ok { c with
      m_HandleCache := copyHandles c.m_HandleCache CopyDest Handles NumHandles
      m_RootDescriptorTable := Function.update c.m_RootDescriptorTable RootIndex
        { TableCache with
          AssignedHandlesBitMap :=
            TableCache.AssignedHandlesBitMap ||| shl32 (sub32 (shl32 1 NumHandles) 1) Offset }
      m_StaleRootParamsBitMap := c.m_StaleRootParamsBitMap ||| shl32 1 RootIndex }

/-- The `while (_BitScanForward(&RootIndex, TableParams))` loop of `ParseRootSignature`;
the state is `TableParams`, the table records and `CurrentOffset`. -/
def ParseRootSignatureLoop (RootSig : RootSignature) :
    Nat → Nat → (Nat → DescriptorTableCache) → Nat →
      Except Fault ((Nat → DescriptorTableCache) × Nat)
  | 0, _, _, _ => .error .nontermination
  | fuel + 1, TableParams, tables, CurrentOffset =>
    match _BitScanForward TableParams with
    | none => .ok (tables, CurrentOffset)
    | some RootIndex =>
      let TableParams := TableParams ^^^ shl32 1 RootIndex
      let TableSize := RootSig.m_DescriptorTableSize RootIndex
      if ¬ (TableSize > 0) then .error .assertion
      else
        ParseRootSignatureLoop RootSig fuel TableParams
          (Function.update tables RootIndex
            { AssignedHandlesBitMap := 0
              TableStart := CurrentOffset
              TableSize := TableSize
              ParamType := RootSig.GetType RootIndex
              RangeType := RootSig.GetRangeType RootIndex })
          ((CurrentOffset + TableSize) % 2 ^ 32)

/-- The operation `DescriptorHandleCache::ParseRootSignature`; `kMaxNumDescriptors` is the capacity of
the staging array, a constant of the missing header. -/
def ParseRootSignature (kMaxNumDescriptors : Nat) (c : DescriptorHandleCache)
    (HeapType : Nat) (RootSig : RootSignature) : Except Fault DescriptorHandleCache :=
  if ¬ (RootSig.m_NumParameters ≤ 16) then .error .assertion
  else
    let bitmap :=
      if HeapType = D3D12_DESCRIPTOR_HEAP_TYPE_SAMPLER then RootSig.m_SamplerTableBitMap
      else RootSig.m_DescriptorTableBitMap
    match ParseRootSignatureLoop RootSig 33 bitmap c.m_RootDescriptorTable 0 with
    | .error e => .error e
    | .ok (tables, CurrentOffset) =>
      if ¬ (CurrentOffset ≤ kMaxNumDescriptors) then .error .assertion
      else
        .ok { c with
          m_StaleRootParamsBitMap := 0
          m_RootDescriptorTablesBitMap := bitmap
          m_RootDescriptorTable := tables
          m_MaxCachedDescriptors := CurrentOffset }

/-- The loop of `DescriptorHandleCache::UnbindAllValid`; the state is `TableParams` and
`m_StaleRootParamsBitMap`. -/
def UnbindAllValidLoop (tables : Nat → DescriptorTableCache) :
    Nat → Nat → Nat → Except Fault Nat
  | 0, _, _ => .error .nontermination
  | fuel + 1, TableParams, stale =>
    match _BitScanForward TableParams with
    | none => .ok stale
    | some RootIndex =>
      let TableParams := TableParams ^^^ shl32 1 RootIndex
      if (tables RootIndex).AssignedHandlesBitMap ≠ 0 then
        UnbindAllValidLoop tables fuel TableParams (stale ||| shl32 1 RootIndex)
      else UnbindAllValidLoop tables fuel TableParams stale

/-- The operation `DescriptorHandleCache::UnbindAllValid`. -/
def DescriptorHandleCache.UnbindAllValid (c : DescriptorHandleCache) :
    Except Fault DescriptorHandleCache :=
  match UnbindAllValidLoop c.m_RootDescriptorTable 33 c.m_RootDescriptorTablesBitMap 0 with
  | .error e => .error e
  | .ok stale => .ok { c with m_StaleRootParamsBitMap := stale }

/-- The loop of `DescriptorHandleCache::ComputeStagedSize`; the state is `StaleParams`
and `NeededSpace`. -/
def ComputeStagedSizeLoop (tables : Nat → DescriptorTableCache) :
    Nat → Nat → Nat → Except Fault Nat
  | 0, _, _ => .error .nontermination
  | fuel + 1, StaleParams, NeededSpace =>
    match _BitScanForward StaleParams with
    | none => .ok NeededSpace
    | some RootIndex =>
      let StaleParams := StaleParams ^^^ shl32 1 RootIndex
      match _BitScanReverse (tables RootIndex).AssignedHandlesBitMap with
      | none => .error .assertion
      | some MaxSetHandle =>
        ComputeStagedSizeLoop tables fuel StaleParams ((NeededSpace + (MaxSetHandle + 1)) % 2 ^ 32)

/-- The operation `DescriptorHandleCache::ComputeStagedSize`. -/
def ComputeStagedSize (c : DescriptorHandleCache) : Except Fault Nat :=
  ComputeStagedSizeLoop c.m_RootDescriptorTable 33 c.m_StaleRootParamsBitMap 0

/-! ## Null descriptors and `SetDefaults` -/

/-- The struct `DefaultResources`: the four null descriptors. -/
structure DefaultResources where
  mSrvNullDescriptor : Nat
  mUavNullDescriptor : Nat
  mCbvNullDescriptor : Nat
  mSamplerNullDescriptor : Nat

/-- The operation `DefaultResources::GetType`. -/
def DefaultResources.GetType (r : DefaultResources) (type : Nat) : Nat :=
  if type = D3D12_DESCRIPTOR_RANGE_TYPE_SRV then r.mSrvNullDescriptor
  else if type = D3D12_DESCRIPTOR_RANGE_TYPE_UAV then r.mUavNullDescriptor
  else if type = D3D12_DESCRIPTOR_RANGE_TYPE_CBV then r.mCbvNullDescriptor
  else r.mSamplerNullDescriptor

/-- The inner `while (_BitScanForward64(&UnsetCount, SetHandles ^ InverseTableMask) &&
Offset < RootDescTable.TableSize)` loop of `SetDefaults`; the state is `SetHandles`,
`InverseTableMask`, `Offset` and the cache. `DescriptorCount` is read as 0 when the
second scan finds no bit. -/
def SetDefaultsFill (NullResource RootIndex : Nat) :
    Nat → Nat → Nat → Nat → DescriptorHandleCache → Except Fault DescriptorHandleCache
  | 0, _, _, _, _ => .error .nontermination
  | fuel + 1, SetHandles, InverseTableMask, Offset, c =>
    match _BitScanForward64 (SetHandles ^^^ InverseTableMask) with
    | none => .ok c
    | some UnsetCount =>
      if ¬ (Offset < (c.m_RootDescriptorTable RootIndex).TableSize) then .ok c
      else
        let SetHandles := SetHandles >>> UnsetCount
        let InverseTableMask := shr32 InverseTableMask UnsetCount
        let staged :=
          if UnsetCount > 0 then
            StageDescriptorHandles c RootIndex Offset UnsetCount (fun _ => NullResource)
          else .ok c
        match staged with
        | .error e => .error e
        | .ok c =>
          let Offset := if UnsetCount > 0 then (Offset + UnsetCount) % 2 ^ 32 else Offset
          let DescriptorCount := (_BitScanForward64 (not64 SetHandles)).getD 0
          if DescriptorCount > 0 then
            SetDefaultsFill NullResource RootIndex fuel (SetHandles >>> DescriptorCount)
              (shr32 InverseTableMask DescriptorCount) ((Offset + DescriptorCount) % 2 ^ 32) c
          else SetDefaultsFill NullResource RootIndex fuel SetHandles InverseTableMask Offset c

/-- The outer `while (_BitScanForward(&RootIndex, TableParams))` loop of `SetDefaults`. -/
def SetDefaultsLoop (sm_DefaultResources : DefaultResources) :
    Nat → Nat → DescriptorHandleCache → Except Fault DescriptorHandleCache
  | 0, _, _ => .error .nontermination
  | fuel + 1, TableParams, c =>
    match _BitScanForward TableParams with
    | none => .ok c
    | some RootIndex =>
      let TableParams := TableParams ^^^ shl32 1 RootIndex
      let RootDescTable := c.m_RootDescriptorTable RootIndex
      if RootDescTable.TableSize = 0 then SetDefaultsLoop sm_DefaultResources fuel TableParams c
      else
        let TableMask := sub32 (shl32 1 RootDescTable.TableSize) 1
        if RootDescTable.AssignedHandlesBitMap = TableMask then
          SetDefaultsLoop sm_DefaultResources fuel TableParams c
        else if RootDescTable.ParamType ≠ D3D12_ROOT_PARAMETER_TYPE_DESCRIPTOR_TABLE then
          SetDefaultsLoop sm_DefaultResources fuel TableParams c
        else
          let SetHandles := RootDescTable.AssignedHandlesBitMap
          if D3D12_DESCRIPTOR_RANGE_TYPE_SRV ≤ RootDescTable.RangeType ∧
              RootDescTable.RangeType ≤ D3D12_DESCRIPTOR_RANGE_TYPE_SAMPLER then
            let NullResource := sm_DefaultResources.GetType RootDescTable.RangeType
            let InverseTableMask := not32 TableMask
            match SetDefaultsFill NullResource RootIndex 65 SetHandles InverseTableMask 0 c with
            | .error e => .error e
            | .ok c => SetDefaultsLoop sm_DefaultResources fuel TableParams c
          else SetDefaultsLoop sm_DefaultResources fuel TableParams c

/-- The operation `DescriptorHandleCache::SetDefaults`. -/
def SetDefaults (sm_DefaultResources : DefaultResources) (c : DescriptorHandleCache) :
    Except Fault DescriptorHandleCache :=
  SetDefaultsLoop sm_DefaultResources 33 c.m_RootDescriptorTablesBitMap c

/-! ## `CopyAndBindStaleTables` -/

/-- The class `DescriptorHandle`: a CPU address and a GPU address of one slot. -/
structure DescriptorHandle where
  m_CpuHandle : Nat
  m_GpuHandle : Nat
  deriving DecidableEq, Repr

/-- Modelled from the spec: `DescriptorHandle::operator+=` of the missing header
`DescriptorHeap.h`; advancing a handle by a byte offset advances both addresses. -/
def DescriptorHandle.advance (h : DescriptorHandle) (OffsetScaledByDescriptorSize : Nat) :
    DescriptorHandle :=
  { m_CpuHandle := (h.m_CpuHandle + OffsetScaledByDescriptorSize) % 2 ^ 64
    m_GpuHandle := (h.m_GpuHandle + OffsetScaledByDescriptorSize) % 2 ^ 64 }

/-- A recorded call into the device, the command list or the owning context. A range
is the pair of its start and its size. -/
inductive DeviceCall where
  | SetFunc (RootIndex : Nat) (BaseDescriptor : Nat)
  | CopyDescriptors (dest : List (Nat × Nat)) (src : List (Nat × Nat)) (HeapType : Nat)
  | CopyDescriptorsSimple (NumDescriptors dest src HeapType : Nat)
  | SetDescriptorHeap (HeapType heap : Nat)
  deriving DecidableEq, Repr

/-- The constant `kMaxDescriptorsPerCopy`. -/
def kMaxDescriptorsPerCopy : Nat := 16

/-- The local state of the copy phase of `CopyAndBindStaleTables`: the destination range
arrays with `NumDestDescriptorRanges`, the source range arrays with
`NumSrcDescriptorRanges`, the calls issued so far, and whether a 16-entry array was
written at index 16 or beyond. -/
structure CopyBatch where
  pDestDescriptorRanges : List (Nat × Nat)
  pSrcDescriptorRanges : List (Nat × Nat)
  calls : List DeviceCall
  overrun : Bool
  deriving DecidableEq, Repr

/-- The stores `pDestDescriptorRangeStarts[n] = start; pDestDescriptorRangeSizes[n] = size;
++NumDestDescriptorRanges`. A store at index 16 or above goes past the 16-entry array and
raises `overrun`, as for `pushSrc`. -/
def CopyBatch.pushDest (b : CopyBatch) (range : Nat × Nat) : CopyBatch :=
  { b with
    pDestDescriptorRanges := b.pDestDescriptorRanges ++ [range]
    overrun := b.overrun || decide (kMaxDescriptorsPerCopy ≤ b.pDestDescriptorRanges.length) }

/-- The stores `pSrcDescriptorRangeStarts[n] = start; pSrcDescriptorRangeSizes[n] = size;
++NumSrcDescriptorRanges`. A store at index 16 or above goes past the 16-entry array: it
raises `overrun`, and from then on the lists stand for the run of the code no longer
(the store overwrites other locals there), so results about a batch are meaningful only
together with `overrun = false`. -/
def CopyBatch.pushSrc (b : CopyBatch) (range : Nat × Nat) : CopyBatch :=
  { b with
    pSrcDescriptorRanges := b.pSrcDescriptorRanges ++ [range]
    overrun := b.overrun || decide (kMaxDescriptorsPerCopy ≤ b.pSrcDescriptorRanges.length) }

/-- The call `g_Device->CopyDescriptors(...)` on the current arrays. -/
def CopyBatch.copyDescriptors (b : CopyBatch) (HeapType : Nat) : CopyBatch :=
  { b with
    calls := b.calls ++
      [DeviceCall.CopyDescriptors b.pDestDescriptorRanges b.pSrcDescriptorRanges HeapType] }

/-- The flush inside the loop: the copy call, then both counts are reset to 0. -/
def CopyBatch.flush (b : CopyBatch) (HeapType : Nat) : CopyBatch :=
  { b.copyDescriptors HeapType with pDestDescriptorRanges := [], pSrcDescriptorRanges := [] }

/-- The first loop of `CopyAndBindStaleTables`; the state is `StaleParams`, the arrays
`RootIndices` and `TableSize` (with `StaleParamCount` their length) and `NeededSpace`. -/
def CollectStaleLoop (tables : Nat → DescriptorTableCache) :
    Nat → Nat → List Nat → List Nat → Nat → Except Fault (List Nat × List Nat × Nat)
  | 0, _, _, _, _ => .error .nontermination
  | fuel + 1, StaleParams, RootIndices, TableSize, NeededSpace =>
    match _BitScanForward StaleParams with
    | none => .ok (RootIndices, TableSize, NeededSpace)
    | some RootIndex =>
      let StaleParams := StaleParams ^^^ shl32 1 RootIndex
      match _BitScanReverse (tables RootIndex).AssignedHandlesBitMap with
      | none => .error .assertion
      | some MaxSetHandle =>
        CollectStaleLoop tables fuel StaleParams (RootIndices ++ [RootIndex])
          (TableSize ++ [MaxSetHandle + 1]) ((NeededSpace + (MaxSetHandle + 1)) % 2 ^ 32)

/-- The body of the copy loop once a run of `DescriptorCount` assigned slots starting
at staging index `SrcHandles` and destination `CurDest` is known: the flush when the
source array would run out of room, the store of the destination range, and the
`for (j = 0; j < DescriptorCount; ++j)` loop storing one source range per slot. -/
def CopyBatch.addRun (b : CopyBatch) (HeapType : Nat) (m_HandleCache : Nat → Nat)
    (SrcHandles CurDest DescriptorCount : Nat) : CopyBatch :=
  let b :=
    if b.pSrcDescriptorRanges.length + DescriptorCount > kMaxDescriptorsPerCopy then
      b.flush HeapType
    else b
  let b := b.pushDest (CurDest, DescriptorCount)
  (List.range DescriptorCount).foldl
    (fun b j => b.pushSrc (m_HandleCache (SrcHandles + j), 1)) b

/-- The `while (_BitScanForward64(&SkipCount, SetHandles))` loop of
`CopyAndBindStaleTables` for one table; the state is `SetHandles`, `SrcHandles` (an
index in the staging array), `CurDest.ptr` and the batch. `DescriptorCount` is read as
0 when the second scan finds no bit. -/
def CopyTableLoop (HeapType DescriptorSize : Nat) (m_HandleCache : Nat → Nat) :
    Nat → Nat → Nat → Nat → CopyBatch → Except Fault CopyBatch
  | 0, _, _, _, _ => .error .nontermination
  | fuel + 1, SetHandles, SrcHandles, CurDest, b =>
    match _BitScanForward64 SetHandles with
    | none => .ok b
    | some SkipCount =>
      let SetHandles := SetHandles >>> SkipCount
      let SrcHandles := SrcHandles + SkipCount
      let CurDest := (CurDest + (SkipCount * DescriptorSize) % 2 ^ 32) % 2 ^ 64
      let DescriptorCount := (_BitScanForward64 (not64 SetHandles)).getD 0
      let SetHandles := SetHandles >>> DescriptorCount
      CopyTableLoop HeapType DescriptorSize m_HandleCache fuel SetHandles
        (SrcHandles + DescriptorCount)
        ((CurDest + (DescriptorCount * DescriptorSize) % 2 ^ 32) % 2 ^ 64)
        (b.addRun HeapType m_HandleCache SrcHandles CurDest DescriptorCount)

/-- The `for (i = 0; i < StaleParamCount; ++i)` loop of `CopyAndBindStaleTables` over the
entries `(RootIndices[i], TableSize[i])`. -/
def CopyAndBindLoop (HeapType DescriptorSize : Nat) (c : DescriptorHandleCache) :
    List (Nat × Nat) → DescriptorHandle → CopyBatch → Except Fault CopyBatch
  | [], _, b => .ok b
  | (RootIndex, TableSize) :: rest, DestHandleStart, b =>
    let b := { b with calls := b.calls ++ [DeviceCall.SetFunc RootIndex DestHandleStart.m_GpuHandle] }
    let RootDescTable := c.m_RootDescriptorTable RootIndex
    match CopyTableLoop HeapType DescriptorSize c.m_HandleCache 65
        RootDescTable.AssignedHandlesBitMap RootDescTable.TableStart
        DestHandleStart.m_CpuHandle b with
    | .error e => .error e
    | .ok b =>
      CopyAndBindLoop HeapType DescriptorSize c rest
        (DestHandleStart.advance ((TableSize * DescriptorSize) % 2 ^ 32)) b

/-- The operation `DescriptorHandleCache::CopyAndBindStaleTables`: the cache afterwards and the final
batch state, whose `calls` are the bind and copy calls in the order issued. -/
def CopyAndBindStaleTables (c : DescriptorHandleCache) (HeapType DescriptorSize : Nat)
    (DestHandleStart : DescriptorHandle) : Except Fault (DescriptorHandleCache × CopyBatch) :=
  match CollectStaleLoop c.m_RootDescriptorTable 33 c.m_StaleRootParamsBitMap [] [] 0 with
  | .error e => .error e
  | .ok (RootIndices, TableSize, _) =>
    if ¬ (RootIndices.length ≤ kMaxNumDescriptorTables) then .error .assertion
    else
      let c := { c with m_StaleRootParamsBitMap := 0 }
      match CopyAndBindLoop HeapType DescriptorSize c (RootIndices.zip TableSize)
          DestHandleStart ⟨[], [], [], false⟩ with
      | .error e => .error e
      | .ok b => .ok (c, b.copyDescriptors HeapType)

/-! ## Heap pool -/

/-- What the pool and the heap instances consume from the device and the command
manager: the fence poll, the handles of a heap's first slot, and the constant
`kNumDescriptorsPerHeap` of the missing header. -/
structure Collaborators where
  IsFenceComplete : Nat → Bool
  GetCPUDescriptorHandleForHeapStart : Nat → Nat
  GetGPUDescriptorHandleForHeapStart : Nat → Nat
  kNumDescriptorsPerHeap : Nat

/-- The static members `sm_DescriptorHeapPool`, `sm_RetiredDescriptorHeaps` and
`sm_AvailableDescriptorHeaps`, each indexed by `idx` (0 or 1), and the heaps the device
has created so far as pairs of heap type and `NumDescriptors`. A heap pointer is the
position of the heap in `g_DeviceHeaps`; a queue is a list with its front first. -/
structure HeapPool where
  sm_DescriptorHeapPool : Nat → List Nat
  sm_RetiredDescriptorHeaps : Nat → List (Nat × Nat)
  sm_AvailableDescriptorHeaps : Nat → List Nat
  g_DeviceHeaps : List (Nat × Nat)

/-- The index of the pool of a heap type,
`HeapType == D3D12_DESCRIPTOR_HEAP_TYPE_SAMPLER ? 1 : 0`. -/
def poolIndex (HeapType : Nat) : Nat :=
  if HeapType = D3D12_DESCRIPTOR_HEAP_TYPE_SAMPLER then 1 else 0

/-- The `while` loop of `RequestDescriptorHeap` over the retired queue and the
available queue. -/
def drainRetired (IsFenceComplete : Nat → Bool) :
    List (Nat × Nat) → List Nat → List (Nat × Nat) × List Nat
  | [], available => ([], available)
  | (fence, heap) :: rest, available =>
    if IsFenceComplete fence then drainRetired IsFenceComplete rest (available ++ [heap])
    else ((fence, heap) :: rest, available)

/-- The operation `DynamicDescriptorHeap::RequestDescriptorHeap`: the heap returned and the pool
afterwards. The device's `CreateDescriptorHeap` returns a heap it has not returned
before. -/
def RequestDescriptorHeap (env : Collaborators) (pool : HeapPool) (HeapType : Nat) :
    Nat × HeapPool :=
  let idx := poolIndex HeapType
  let drained := drainRetired env.IsFenceComplete (pool.sm_RetiredDescriptorHeaps idx)
    (pool.sm_AvailableDescriptorHeaps idx)
  let pool := { pool with
    sm_RetiredDescriptorHeaps := Function.update pool.sm_RetiredDescriptorHeaps idx drained.1
    sm_AvailableDescriptorHeaps := Function.update pool.sm_AvailableDescriptorHeaps idx drained.2 }
  match pool.sm_AvailableDescriptorHeaps idx with
  | HeapPtr :: rest =>
    (HeapPtr, { pool with
      sm_AvailableDescriptorHeaps := Function.update pool.sm_AvailableDescriptorHeaps idx rest })
  | [] =>
    let HeapPtr := pool.g_DeviceHeaps.length
    (HeapPtr, { pool with
      g_DeviceHeaps := pool.g_DeviceHeaps ++ [(HeapType, env.kNumDescriptorsPerHeap)]
      sm_DescriptorHeapPool :=
        Function.update pool.sm_DescriptorHeapPool idx (pool.sm_DescriptorHeapPool idx ++ [HeapPtr]) })

/-- The operation `DynamicDescriptorHeap::DiscardDescriptorHeaps`. -/
def DiscardDescriptorHeaps (pool : HeapPool) (HeapType FenceValue : Nat) (UsedHeaps : List Nat) :
    HeapPool :=
  let idx := poolIndex HeapType
  { pool with
    sm_RetiredDescriptorHeaps := Function.update pool.sm_RetiredDescriptorHeaps idx
      (pool.sm_RetiredDescriptorHeaps idx ++ UsedHeaps.map (fun heap => (FenceValue, heap))) }

/-! ## The per-context heap instance -/

/-- The members of a `DynamicDescriptorHeap` instance; `m_CurrentHeapPtr = none` is the
null pointer. -/
structure DynamicDescriptorHeap where
  m_DescriptorType : Nat
  m_CurrentHeapPtr : Option Nat
  m_CurrentOffset : Nat
  m_DescriptorSize : Nat
  m_FirstDescriptor : DescriptorHandle
  m_RetiredHeaps : List Nat
  m_GraphicsHandleCache : DescriptorHandleCache
  m_ComputeHandleCache : DescriptorHandleCache

/-- The constructor `DynamicDescriptorHeap::DynamicDescriptorHeap`; the members the
constructor leaves to their own constructors are passed in. -/
def DynamicDescriptorHeap.new (HeapType DescriptorSize : Nat) (first : DescriptorHandle)
    (graphics compute : DescriptorHandleCache) : DynamicDescriptorHeap :=
  { m_DescriptorType := HeapType
    m_CurrentHeapPtr := none
    m_CurrentOffset := 0
    m_DescriptorSize := DescriptorSize
    m_FirstDescriptor := first
    m_RetiredHeaps := []
    m_GraphicsHandleCache := graphics
    m_ComputeHandleCache := compute }

/-- The operation `DynamicDescriptorHeap::RetireCurrentHeap`. -/
def RetireCurrentHeap (h : DynamicDescriptorHeap) : Except Fault DynamicDescriptorHeap :=
  if h.m_CurrentOffset = 0 then
    if h.m_CurrentHeapPtr = none then .ok h else .error .assertion
  else
    match h.m_CurrentHeapPtr with
    | none => .error .assertion
    | some HeapPtr =>
      .ok { h with
        m_RetiredHeaps := h.m_RetiredHeaps ++ [HeapPtr]
        m_CurrentHeapPtr := none
        m_CurrentOffset := 0 }

/-- The operation `DynamicDescriptorHeap::RetireUsedHeaps`. -/
def RetireUsedHeaps (pool : HeapPool) (h : DynamicDescriptorHeap) (fenceValue : Nat) :
    HeapPool × DynamicDescriptorHeap :=
  (DiscardDescriptorHeaps pool h.m_DescriptorType fenceValue h.m_RetiredHeaps,
    { h with m_RetiredHeaps := [] })

/-- Modelled from the spec: `DescriptorHandleCache::ClearCache` of the missing header
`DynamicDescriptorHeap.h`; it puts the cache in its unstaged, non-stale state. -/
def DescriptorHandleCache.ClearCache (c : DescriptorHandleCache) : DescriptorHandleCache :=
  { c with
    m_StaleRootParamsBitMap := 0
    m_RootDescriptorTable := fun i => { c.m_RootDescriptorTable i with AssignedHandlesBitMap := 0 } }

/-- The operation `DynamicDescriptorHeap::CleanupUsedHeaps`. -/
def CleanupUsedHeaps (pool : HeapPool) (h : DynamicDescriptorHeap) (fenceValue : Nat) :
    Except Fault (HeapPool × DynamicDescriptorHeap) :=
  match RetireCurrentHeap h with
  | .error e => .error e
  | .ok h =>
    let (pool, h) := RetireUsedHeaps pool h fenceValue
    .ok (pool, { h with
      m_GraphicsHandleCache := h.m_GraphicsHandleCache.ClearCache
      m_ComputeHandleCache := h.m_ComputeHandleCache.ClearCache })

/-- The operation `DynamicDescriptorHeap::GetHeapPointer`: the pointer returned, the pool and the
instance afterwards. -/
def GetHeapPointer (env : Collaborators) (pool : HeapPool) (h : DynamicDescriptorHeap) :
    Except Fault (Nat × HeapPool × DynamicDescriptorHeap) :=
  match h.m_CurrentHeapPtr with
  | none =>
    if ¬ (h.m_CurrentOffset = 0) then .error .assertion
    else
      let (HeapPtr, pool) := RequestDescriptorHeap env pool h.m_DescriptorType
      .ok (HeapPtr, pool, { h with
        m_CurrentHeapPtr := some HeapPtr
        m_FirstDescriptor :=
          { m_CpuHandle := env.GetCPUDescriptorHandleForHeapStart HeapPtr
            m_GpuHandle := env.GetGPUDescriptorHandleForHeapStart HeapPtr } })
  | some HeapPtr => .ok (HeapPtr, pool, h)

/-- Modelled from the spec: `DynamicDescriptorHeap::HasSpace` of the missing header;
true iff `current_write_offset + n ≤ heap_capacity`. -/
def HasSpace (env : Collaborators) (h : DynamicDescriptorHeap) (Count : Nat) : Bool :=
  decide (h.m_CurrentOffset + Count ≤ env.kNumDescriptorsPerHeap)

/-- Modelled from the spec: `DynamicDescriptorHeap::Allocate` of the missing header; it
reserves `Count` slots starting at the current offset, advances the offset and returns
the starting handle pair. -/
def Allocate (h : DynamicDescriptorHeap) (Count : Nat) : DescriptorHandle × DynamicDescriptorHeap :=
  (h.m_FirstDescriptor.advance (h.m_CurrentOffset * h.m_DescriptorSize),
    { h with m_CurrentOffset := h.m_CurrentOffset + Count })

/-- The operation `DynamicDescriptorHeap::UnbindAllValid`. -/
def DynamicDescriptorHeap.UnbindAllValid (h : DynamicDescriptorHeap) :
    Except Fault DynamicDescriptorHeap :=
  match h.m_GraphicsHandleCache.UnbindAllValid with
  | .error e => .error e
  | .ok graphics =>
    match h.m_ComputeHandleCache.UnbindAllValid with
    | .error e => .error e
    | .ok compute => .ok { h with m_GraphicsHandleCache := graphics, m_ComputeHandleCache := compute }

/-- The handle cache an instance method was passed by reference: the graphics cache
of the instance or its compute cache. -/
def DynamicDescriptorHeap.cache (h : DynamicDescriptorHeap) (graphics : Bool) :
    DescriptorHandleCache :=
  if graphics then h.m_GraphicsHandleCache else h.m_ComputeHandleCache

/-- Store through the handle cache reference. -/
def DynamicDescriptorHeap.setCache (h : DynamicDescriptorHeap) (graphics : Bool)
    (c : DescriptorHandleCache) : DynamicDescriptorHeap :=
  if graphics then { h with m_GraphicsHandleCache := c } else { h with m_ComputeHandleCache := c }

/-- The operation `DynamicDescriptorHeap::CopyAndBindStagedTables` on the graphics or the compute
handle cache of the instance: the pool, the instance and the calls issued. -/
def CopyAndBindStagedTables (env : Collaborators) (pool : HeapPool) (h : DynamicDescriptorHeap)
    (graphics : Bool) : Except Fault (HeapPool × DynamicDescriptorHeap × List DeviceCall) :=
  match ComputeStagedSize (h.cache graphics) with
  | .error e => .error e
  | .ok NeededSize =>
    let rotated : Except Fault (DynamicDescriptorHeap × Nat) :=
      if ¬ HasSpace env h NeededSize then
        match RetireCurrentHeap h with
        | .error e => .error e
        | .ok h =>
          match h.UnbindAllValid with
          | .error e => .error e
          | .ok h =>
            match ComputeStagedSize (h.cache graphics) with
            | .error e => .error e
            | .ok NeededSize => .ok (h, NeededSize)
      else .ok (h, NeededSize)
    match rotated with
    | .error e => .error e
    | .ok (h, NeededSize) =>
      match GetHeapPointer env pool h with
      | .error e => .error e
      | .ok (HeapPtr, pool, h) =>
        let (DestHandleStart, h) := Allocate h NeededSize
        match CopyAndBindStaleTables (h.cache graphics) h.m_DescriptorType h.m_DescriptorSize
            DestHandleStart with
        | .error e => .error e
        | .ok (c, b) =>
          .ok (pool, h.setCache graphics c,
            DeviceCall.SetDescriptorHeap h.m_DescriptorType HeapPtr :: b.calls)

/-- The operation `DynamicDescriptorHeap::UploadDirect`: the GPU handle returned, the pool, the
instance and the calls issued. -/
def UploadDirect (env : Collaborators) (pool : HeapPool) (h : DynamicDescriptorHeap)
    (Handle : Nat) : Except Fault (Nat × HeapPool × DynamicDescriptorHeap × List DeviceCall) :=
  let rotated : Except Fault DynamicDescriptorHeap :=
    if ¬ HasSpace env h 1 then
      match RetireCurrentHeap h with
      | .error e => .error e
      | .ok h => h.UnbindAllValid
    else .ok h
  match rotated with
  | .error e => .error e
  | .ok h =>
    match GetHeapPointer env pool h with
    | .error e => .error e
    | .ok (HeapPtr, pool, h) =>
      let DestHandle :=
        h.m_FirstDescriptor.advance ((h.m_CurrentOffset * h.m_DescriptorSize) % 2 ^ 32)
      let h := { h with m_CurrentOffset := (h.m_CurrentOffset + 1) % 2 ^ 32 }
      .ok (DestHandle.m_GpuHandle, pool, h,
        [DeviceCall.SetDescriptorHeap h.m_DescriptorType HeapPtr,
         DeviceCall.CopyDescriptorsSimple 1 DestHandle.m_CpuHandle Handle h.m_DescriptorType])


/-! ## Specification vocabulary -/

/-- The indices below `n` of the bits set in `mask`, in increasing order. -/
def setBits (mask n : Nat) : List Nat := (List.range n).filter (fun k => mask.testBit k)

/-- The index of the highest of the low 32 bits set in `mask` (0 when there is none). -/
def highestSetBit (mask : Nat) : Nat := (setBits mask 32).getLastD 0

/-- The bind calls of a trace, as pairs of root index and GPU address, in order. -/
def binds (calls : List DeviceCall) : List (Nat × Nat) :=
  calls.filterMap (fun call =>
    match call with
    | DeviceCall.SetFunc RootIndex BaseDescriptor => some (RootIndex, BaseDescriptor)
    | _ => none)

/-- The slot addresses of a range `(start, size)` of descriptors `DescriptorSize` bytes
apart. -/
def rangeSlots (DescriptorSize : Nat) (range : Nat × Nat) : List Nat :=
  (List.range range.2).map (fun j => range.1 + j * DescriptorSize)

/-- The meaning of the Direct3D 12 device call `CopyDescriptors`: the descriptors of the
source ranges, taken in order, are written to the slots of the destination ranges,
taken in order. A write is the pair of the destination address and the source handle. -/
def copyWrites (DescriptorSize : Nat) : DeviceCall → List (Nat × Nat)
  | DeviceCall.CopyDescriptors dest src _ =>
    (dest.flatMap (rangeSlots DescriptorSize)).zip (src.flatMap (rangeSlots DescriptorSize))
  | _ => []

/-- The writes of the copy calls of a trace, in order. -/
def traceWrites (DescriptorSize : Nat) (calls : List DeviceCall) : List (Nat × Nat) :=
  calls.flatMap (copyWrites DescriptorSize)

/-- The bind calls of the second loop of `CopyAndBindStaleTables` on the entries
`(RootIndices[i], TableSize[i])` when the GPU address starts at `gpu`. -/
def bindAddrs (DescriptorSize : Nat) : List (Nat × Nat) → Nat → List (Nat × Nat)
  | [], _ => []
  | (RootIndex, TableSize) :: rest, gpu =>
    (RootIndex, gpu) :: bindAddrs DescriptorSize rest (gpu + TableSize * DescriptorSize)

/-- The number of slots `CopyAndBindStaleTables` reserves in front of the table at root
index `r`: the sum of (highest assigned bit + 1) over the stale tables of smaller root
index. -/
def slotsBefore (c : DescriptorHandleCache) (r : Nat) : Nat :=
  (((setBits c.m_StaleRootParamsBitMap 32).filter (fun j => decide (j < r))).map
    (fun j => highestSetBit (c.m_RootDescriptorTable j).AssignedHandlesBitMap + 1)).sum

/-- The number of slots of all stale tables: the sum of (highest assigned bit + 1). -/
def stagedSlots (c : DescriptorHandleCache) : Nat :=
  ((setBits c.m_StaleRootParamsBitMap 32).map
    (fun j => highestSetBit (c.m_RootDescriptorTable j).AssignedHandlesBitMap + 1)).sum

/-- The writes the ranges stored in the arrays stand for, once they are copied. -/
def pendingWrites (DescriptorSize : Nat) (b : CopyBatch) : List (Nat × Nat) :=
  (b.pDestDescriptorRanges.flatMap (rangeSlots DescriptorSize)).zip
    (b.pSrcDescriptorRanges.flatMap (rangeSlots DescriptorSize))

/-- The writes of the copy calls issued so far followed by those still in the arrays. -/
def allWrites (DescriptorSize : Nat) (b : CopyBatch) : List (Nat × Nat) :=
  traceWrites DescriptorSize b.calls ++ pendingWrites DescriptorSize b

/-- The state of the range arrays between two runs: no store went past the 16 entries,
at most as many destination ranges as source ranges, and as many destination slots as
source descriptors. -/
def BatchInv (DescriptorSize : Nat) (b : CopyBatch) : Prop :=
  b.overrun = false ∧ b.pSrcDescriptorRanges.length ≤ kMaxDescriptorsPerCopy ∧
  b.pDestDescriptorRanges.length ≤ b.pSrcDescriptorRanges.length ∧
  (b.pDestDescriptorRanges.flatMap (rangeSlots DescriptorSize)).length =
    (b.pSrcDescriptorRanges.flatMap (rangeSlots DescriptorSize)).length

/-- No 17 consecutive bits of `mask` are set: every run of contiguously assigned slots
has at most 16 slots. -/
def RunsAtMost16 (mask : Nat) : Prop :=
  ∀ k, k < 32 → ∃ j, j < 17 ∧ mask.testBit (k + j) = false

/-- The writes of the second loop of `CopyAndBindStaleTables` on the entries
`(RootIndices[i], TableSize[i])` when the CPU address starts at `cpu`: every assigned
slot `k` of a table receives the handle staged at `TableStart + k`. -/
def entryWrites (DescriptorSize : Nat) (tables : Nat → DescriptorTableCache)
    (m_HandleCache : Nat → Nat) : List (Nat × Nat) → Nat → List (Nat × Nat)
  | [], _ => []
  | (RootIndex, TableSize) :: rest, cpu =>
    (setBits (tables RootIndex).AssignedHandlesBitMap 32).map
        (fun k => (cpu + k * DescriptorSize, m_HandleCache ((tables RootIndex).TableStart + k))) ++
      entryWrites DescriptorSize tables m_HandleCache rest (cpu + TableSize * DescriptorSize)

/-- Root index `r` is a declared table slot of the cache. -/
def Declared (c : DescriptorHandleCache) (r : Nat) : Prop :=
  r < 32 ∧ c.m_RootDescriptorTablesBitMap.testBit r = true

/-- Cache `c1` is cache `c` after the unassigned slots `lo, ..., hi - 1` of table `r` were
staged with the handle `NullResource`: these bits are now assigned, the unassigned
slots among them hold `NullResource`, and the other staging slots, the other fields of
the table, the other tables and the table bitmap are as in `c`. -/
def Filled (NullResource r lo hi : Nat) (c c1 : DescriptorHandleCache) : Prop :=
  (∀ k, (c1.m_RootDescriptorTable r).AssignedHandlesBitMap.testBit k =
    ((c.m_RootDescriptorTable r).AssignedHandlesBitMap.testBit k ||
      (decide (lo ≤ k) && decide (k < hi)))) ∧
  (c1.m_RootDescriptorTable r).TableStart = (c.m_RootDescriptorTable r).TableStart ∧
  (c1.m_RootDescriptorTable r).TableSize = (c.m_RootDescriptorTable r).TableSize ∧
  (c1.m_RootDescriptorTable r).ParamType = (c.m_RootDescriptorTable r).ParamType ∧
  (c1.m_RootDescriptorTable r).RangeType = (c.m_RootDescriptorTable r).RangeType ∧
  (∀ r', r' ≠ r → c1.m_RootDescriptorTable r' = c.m_RootDescriptorTable r') ∧
  c1.m_RootDescriptorTablesBitMap = c.m_RootDescriptorTablesBitMap ∧
  c1.m_MaxCachedDescriptors = c.m_MaxCachedDescriptors ∧
  (∀ a, c1.m_HandleCache a =
    if (c.m_RootDescriptorTable r).TableStart + lo ≤ a ∧
        a < (c.m_RootDescriptorTable r).TableStart + hi ∧
        (c.m_RootDescriptorTable r).AssignedHandlesBitMap.testBit
          (a - (c.m_RootDescriptorTable r).TableStart) = false
    then NullResource else c.m_HandleCache a)

/-- Cache `c'` is cache `c` after the tables of the listed root indices were filled with
their null descriptors one after the other. -/
def FilledAll (res : DefaultResources) : List Nat → DescriptorHandleCache → DescriptorHandleCache → Prop
  | [], c, c' => c' = c
  | r :: rest, c, c' =>
    ∃ c1, Filled (res.GetType (c.m_RootDescriptorTable r).RangeType) r 0
      (c.m_RootDescriptorTable r).TableSize c c1 ∧ FilledAll res rest c1 c'

/-- What `SetDefaults` needs of a declared table to fill it: the declared size is one
the 32-bit shifts can express, no assigned bit lies at or above it, and the parameter
and range kinds are the ones `SetDefaults` accepts. -/
def TableOK (c : DescriptorHandleCache) (r : Nat) : Prop :=
  (c.m_RootDescriptorTable r).TableSize ≤ 31 ∧
  (c.m_RootDescriptorTable r).AssignedHandlesBitMap < 2 ^ (c.m_RootDescriptorTable r).TableSize ∧
  (c.m_RootDescriptorTable r).ParamType = D3D12_ROOT_PARAMETER_TYPE_DESCRIPTOR_TABLE ∧
  (c.m_RootDescriptorTable r).RangeType ≤ D3D12_DESCRIPTOR_RANGE_TYPE_SAMPLER

/-- The cache states obtained from `ParseRootSignature` followed by calls of
`StageDescriptorHandles` that satisfy its preconditions: the root index is a declared
table slot and `Offset + NumHandles` is at most the declared size. -/
inductive StagedFrom (kMaxNumDescriptors : Nat) : DescriptorHandleCache → Prop
  | parse {c0 c : DescriptorHandleCache} {HeapType : Nat} {RootSig : RootSignature} :
      ParseRootSignature kMaxNumDescriptors c0 HeapType RootSig = .ok c →
      StagedFrom kMaxNumDescriptors c
  | stage {c c' : DescriptorHandleCache} {RootIndex Offset NumHandles : Nat}
      {Handles : Nat → Nat} :
      StagedFrom kMaxNumDescriptors c → Declared c RootIndex →
      Offset + NumHandles ≤ (c.m_RootDescriptorTable RootIndex).TableSize →
      StageDescriptorHandles c RootIndex Offset NumHandles Handles = .ok c' →
      StagedFrom kMaxNumDescriptors c'

/-- The heaps queued in the pool of index `idx`: the available queue followed by the
heaps of the retired queue. -/
def queuedHeaps (pool : HeapPool) (idx : Nat) : List Nat :=
  pool.sm_AvailableDescriptorHeaps idx ++ (pool.sm_RetiredDescriptorHeaps idx).map Prod.snd

/-- The queues of the pool of index `idx` hold heaps the device created, each at most
once. -/
def QueuesDistinct (pool : HeapPool) (idx : Nat) : Prop :=
  (queuedHeaps pool idx).Nodup ∧ ∀ heap ∈ queuedHeaps pool idx, heap < pool.g_DeviceHeaps.length

/-- The pool shared by all contexts together with the heap instances of the contexts. -/
structure World where
  pool : HeapPool
  contexts : List DynamicDescriptorHeap

/-- The heaps an instance holds: its current heap, if any, and its heaps pending
retirement. -/
def heapsOf (d : DynamicDescriptorHeap) : List Nat :=
  d.m_CurrentHeapPtr.toList ++ d.m_RetiredHeaps

/-- Every occurrence of a heap in the available queues, the retired queues, the
current-heap fields and the pending lists. -/
def allHeaps (w : World) : List Nat :=
  queuedHeaps w.pool 0 ++ queuedHeaps w.pool 1 ++ w.contexts.flatMap heapsOf

/-- One operation of one context, run to completion under the pool lock. The
operations are the constructor, the operations of the handle caches (which change
nothing but the two caches), and the instance operations `GetHeapPointer`,
`RetireCurrentHeap`, `RetireUsedHeaps`, `CleanupUsedHeaps`, `UploadDirect` and
`CopyAndBindStagedTables`; `RequestDescriptorHeap` and `DiscardDescriptorHeaps` take part
as the code calls them, from `GetHeapPointer` and from `RetireUsedHeaps`. An operation
that fails an assertion has no successor state. -/
inductive Step : World → World → Prop
  | construct (w : World) (HeapType DescriptorSize : Nat) (first : DescriptorHandle)
      (graphics compute : DescriptorHandleCache) :
      Step w ⟨w.pool, w.contexts ++
        [DynamicDescriptorHeap.new HeapType DescriptorSize first graphics compute]⟩
  | cacheOp (w : World) (i : Nat) (d : DynamicDescriptorHeap)
      (graphics compute : DescriptorHandleCache) :
      w.contexts[i]? = some d →
      Step w ⟨w.pool, w.contexts.set i
        { d with m_GraphicsHandleCache := graphics, m_ComputeHandleCache := compute }⟩
  | getHeapPointer (env : Collaborators) (w : World) (i : Nat) (d d' : DynamicDescriptorHeap)
      (HeapPtr : Nat) (pool' : HeapPool) :
      w.contexts[i]? = some d →
      GetHeapPointer env w.pool d = .ok (HeapPtr, pool', d') →
      Step w ⟨pool', w.contexts.set i d'⟩
  | retireCurrentHeap (w : World) (i : Nat) (d d' : DynamicDescriptorHeap) :
      w.contexts[i]? = some d →
      RetireCurrentHeap d = .ok d' →
      Step w ⟨w.pool, w.contexts.set i d'⟩
  | retireUsedHeaps (w : World) (i : Nat) (d : DynamicDescriptorHeap) (fenceValue : Nat) :
      w.contexts[i]? = some d →
      Step w ⟨(RetireUsedHeaps w.pool d fenceValue).1,
        w.contexts.set i (RetireUsedHeaps w.pool d fenceValue).2⟩
  | cleanupUsedHeaps (w : World) (i : Nat) (d d' : DynamicDescriptorHeap) (fenceValue : Nat)
      (pool' : HeapPool) :
      w.contexts[i]? = some d →
      CleanupUsedHeaps w.pool d fenceValue = .ok (pool', d') →
      Step w ⟨pool', w.contexts.set i d'⟩
  | uploadDirect (env : Collaborators) (w : World) (i : Nat) (d d' : DynamicDescriptorHeap)
      (Handle gpu : Nat) (pool' : HeapPool) (calls : List DeviceCall) :
      w.contexts[i]? = some d →
      UploadDirect env w.pool d Handle = .ok (gpu, pool', d', calls) →
      Step w ⟨pool', w.contexts.set i d'⟩
  | copyAndBindStagedTables (env : Collaborators) (w : World) (i : Nat)
      (d d' : DynamicDescriptorHeap) (graphics : Bool) (pool' : HeapPool)
      (calls : List DeviceCall) :
      w.contexts[i]? = some d →
      CopyAndBindStagedTables env w.pool d graphics = .ok (pool', d', calls) →
      Step w ⟨pool', w.contexts.set i d'⟩

/-- The states the system reaches from a start without heaps: empty queues and no heap
created, the contexts holding no heap. -/
inductive Reachable : World → Prop
  | start (w : World) :
      w.pool.g_DeviceHeaps = [] →
      (∀ idx, w.pool.sm_AvailableDescriptorHeaps idx = [] ∧
        w.pool.sm_RetiredDescriptorHeaps idx = []) →
      (∀ d ∈ w.contexts, d.m_CurrentHeapPtr = none ∧ d.m_RetiredHeaps = []) →
      Reachable w
  | step {w w' : World} : Reachable w → Step w w' → Reachable w'

/-- The heaps of pool `p'` and of instance state `hs'` are those of pool `p` and of
instance state `hs` together with the heaps `fresh` the device created in between. -/
def Moves (p : HeapPool) (hs : List Nat) (p' : HeapPool) (hs' : List Nat) : Prop :=
  ∃ fresh : List Nat,
    (queuedHeaps p' 0 ++ queuedHeaps p' 1 ++ hs').Perm
      (fresh ++ (queuedHeaps p 0 ++ queuedHeaps p 1 ++ hs)) ∧
    fresh.Nodup ∧ (∀ x ∈ fresh, p.g_DeviceHeaps.length ≤ x ∧ x < p'.g_DeviceHeaps.length) ∧
    p.g_DeviceHeaps.length ≤ p'.g_DeviceHeaps.length

/-- Each heap occurs at most once in the system and was created by the device. -/
def HeapsExclusive (w : World) : Prop :=
  (allHeaps w).Nodup ∧ ∀ heap ∈ allHeaps w, heap < w.pool.g_DeviceHeaps.length

/-- The cache states obtained from `ParseRootSignature` followed by any number of calls
of `StageDescriptorHandles` that satisfy its preconditions (the root index is a
declared table slot and `Offset + NumHandles` is at most the declared size, a count of
0 included), of `SetDefaults`, of `UnbindAllValid` and of `CopyAndBindStaleTables`. -/
inductive CacheReachable : DescriptorHandleCache → Prop
  | parse {kMaxNumDescriptors : Nat} {c0 c : DescriptorHandleCache} {HeapType : Nat}
      {RootSig : RootSignature} :
      ParseRootSignature kMaxNumDescriptors c0 HeapType RootSig = .ok c → CacheReachable c
  | stage {c c' : DescriptorHandleCache} {RootIndex Offset NumHandles : Nat}
      {Handles : Nat → Nat} :
      CacheReachable c → Declared c RootIndex →
      Offset + NumHandles ≤ (c.m_RootDescriptorTable RootIndex).TableSize →
      StageDescriptorHandles c RootIndex Offset NumHandles Handles = .ok c' →
      CacheReachable c'
  | setDefaults {c c' : DescriptorHandleCache} {sm_DefaultResources : DefaultResources} :
      CacheReachable c → SetDefaults sm_DefaultResources c = .ok c' → CacheReachable c'
  | unbindAllValid {c c' : DescriptorHandleCache} :
      CacheReachable c → c.UnbindAllValid = .ok c' → CacheReachable c'
  | copyAndBind {c c' : DescriptorHandleCache} {HeapType DescriptorSize : Nat}
      {DestHandleStart : DescriptorHandle} {b : CopyBatch} :
      CacheReachable c →
      CopyAndBindStaleTables c HeapType DescriptorSize DestHandleStart = .ok (c', b) →
      CacheReachable c'

/-- No assigned bit of a declared table lies at or above the table's declared size. -/
def AssignedWithinSize (c : DescriptorHandleCache) : Prop :=
  ∀ r, Declared c r → ∀ k, (c.m_RootDescriptorTable r).TableSize ≤ k →
    (c.m_RootDescriptorTable r).AssignedHandlesBitMap.testBit k = false

/-- The sum of the declared sizes of the descriptor tables a root signature has for the
heap category `HeapType`. -/
def declaredTotal (RootSig : RootSignature) (HeapType : Nat) : Nat :=
  ((setBits
      (if HeapType = D3D12_DESCRIPTOR_HEAP_TYPE_SAMPLER then RootSig.m_SamplerTableBitMap
        else RootSig.m_DescriptorTableBitMap) 32).map RootSig.m_DescriptorTableSize).sum

/-! ## Concrete states -/

/-- A handle cache before any root signature was parsed. -/
def blankCache : DescriptorHandleCache :=
  { m_RootDescriptorTablesBitMap := 0
    m_StaleRootParamsBitMap := 0
    m_MaxCachedDescriptors := 0
    m_RootDescriptorTable := fun _ => ⟨0, 0, 0, 0, 0⟩
    m_HandleCache := fun _ => 0 }

/-- A root signature whose parameter 0 is a descriptor table of `size` SRV descriptors. -/
def tableSignature (size : Nat) : RootSignature :=
  { m_NumParameters := 1
    m_DescriptorTableBitMap := 1
    m_SamplerTableBitMap := 0
    m_DescriptorTableSize := fun _ => size
    GetType := fun _ => D3D12_ROOT_PARAMETER_TYPE_DESCRIPTOR_TABLE
    GetRangeType := fun _ => D3D12_DESCRIPTOR_RANGE_TYPE_SRV }

/-- Four distinct null descriptors. -/
def nullDescriptors : DefaultResources := ⟨9000, 9001, 9002, 9003⟩

/-- The handles `Handles[i] = 100 + i` a caller stages. -/
def someHandles : Nat → Nat := fun i => 100 + i

/-- The cache after `ParseRootSignature` on a signature with one table of 8 slots. -/
def parsedExample : DescriptorHandleCache :=
  match ParseRootSignature 256 blankCache 0 (tableSignature 8) with
  | .ok c => c
  | .error _ => blankCache

/-- The cache after 5 handles were staged into slots 0..4 of the table of
`parsedExample`. -/
def stagedExample : DescriptorHandleCache :=
  match StageDescriptorHandles parsedExample 0 0 5 someHandles with
  | .ok c => c
  | .error _ => blankCache

/-- A cache with two stale tables, at root indices 0 and 2, with unassigned slots below
their highest assigned ones. -/
def twoTableCache : DescriptorHandleCache :=
  { m_RootDescriptorTablesBitMap := 5
    m_StaleRootParamsBitMap := 5
    m_MaxCachedDescriptors := 16
    m_RootDescriptorTable := fun r => if r = 0 then ⟨11, 0, 8, 0, 0⟩ else ⟨6, 8, 8, 0, 0⟩
    m_HandleCache := someHandles }

/-- The collaborators of the examples: fences up to 5 are complete, a heap's first slot
has CPU address `4096 * (heap + 1)` and GPU address `65536 * (heap + 1)`, and a heap has
1024 slots. -/
def exampleEnv : Collaborators :=
  { IsFenceComplete := fun fence => decide (fence ≤ 5)
    GetCPUDescriptorHandleForHeapStart := fun heap => 4096 * (heap + 1)
    GetGPUDescriptorHandleForHeapStart := fun heap => 65536 * (heap + 1)
    kNumDescriptorsPerHeap := 1024 }

/-- A pool without heaps. -/
def emptyPool : HeapPool :=
  { sm_DescriptorHeapPool := fun _ => []
    sm_RetiredDescriptorHeaps := fun _ => []
    sm_AvailableDescriptorHeaps := fun _ => []
    g_DeviceHeaps := [] }

/-- A pool whose first category has two retired heaps, heap 0 with fence value 5 and
heap 1 with fence value 9. -/
def retiredPool : HeapPool :=
  { sm_DescriptorHeapPool := fun idx => if idx = 0 then [0, 1] else []
    sm_RetiredDescriptorHeaps := fun idx => if idx = 0 then [(5, 0), (9, 1)] else []
    sm_AvailableDescriptorHeaps := fun _ => []
    g_DeviceHeaps := [(0, 1024), (0, 1024)] }

/-- A freshly constructed heap instance of the CBV/SRV/UAV category. -/
def freshHeap : DynamicDescriptorHeap :=
  DynamicDescriptorHeap.new 0 32 ⟨0, 0⟩ blankCache blankCache

/-- Two contexts, none of which has used a heap yet. -/
def startWorld : World := ⟨emptyPool, [freshHeap, freshHeap]⟩

/-- A root signature whose parameter 0 is in the table bitmap, with 8 slots, and has the
given parameter and range kinds. -/
def kindSignature (paramType rangeType : Nat) : RootSignature :=
  { m_NumParameters := 1
    m_DescriptorTableBitMap := 1
    m_SamplerTableBitMap := 0
    m_DescriptorTableSize := fun _ => 8
    GetType := fun _ => paramType
    GetRangeType := fun _ => rangeType }

/-- The state after context `i` ran `UploadDirect` (the state itself when the call
fails). -/
def uploadIn (env : Collaborators) (w : World) (i Handle : Nat) : World :=
  match w.contexts[i]? with
  | some d =>
    match UploadDirect env w.pool d Handle with
    | .ok (_, pool', d', _) => ⟨pool', w.contexts.set i d'⟩
    | .error _ => w
  | none => w

/-- The state after the first context of `startWorld` uploaded one descriptor. -/
def worldAfterOne : World := uploadIn exampleEnv startWorld 0 7

/-- The state after the second context uploaded one descriptor as well. -/
def worldAfterTwo : World := uploadIn exampleEnv worldAfterOne 1 8

/-- A root signature with three descriptor tables, at parameters 0, 1 and 2, of
`0xFFFFFFFF`, 1 and 5 descriptors; the first is the size of a table with an unbounded
range. -/
def wrapSignature : RootSignature :=
  { m_NumParameters := 3
    m_DescriptorTableBitMap := 7
    m_SamplerTableBitMap := 0
    m_DescriptorTableSize := fun r => if r = 0 then 4294967295 else if r = 1 then 1 else 5
    GetType := fun _ => D3D12_ROOT_PARAMETER_TYPE_DESCRIPTOR_TABLE
    GetRangeType := fun _ => D3D12_DESCRIPTOR_RANGE_TYPE_SRV }

/-- A heap instance that wrote 3 slots of heap 0 and has heap 4 pending retirement. -/
def usedHeap : DynamicDescriptorHeap :=
  { freshHeap with m_CurrentHeapPtr := some 0, m_CurrentOffset := 3, m_RetiredHeaps := [4] }

/-- A heap instance of the CBV/SRV/UAV category that holds heap 0, whose first slot has
CPU address 4096 and GPU address 65536, and that wrote all of its 1024 slots. -/
def fullHeap : DynamicDescriptorHeap :=
  { freshHeap with
    m_CurrentHeapPtr := some 0
    m_CurrentOffset := 1024
    m_FirstDescriptor := ⟨4096, 65536⟩
    m_GraphicsHandleCache := stagedExample }

/-- A pool in which the device has created heap 0 and no heap is queued. -/
def oneHeapPool : HeapPool :=
  { sm_DescriptorHeapPool := fun idx => if idx = 0 then [0] else []
    sm_RetiredDescriptorHeaps := fun _ => []
    sm_AvailableDescriptorHeaps := fun _ => []
    g_DeviceHeaps := [(0, 1024)] }

/-- A staging call the 32-bit assigned bitmap can express: between 1 and 31 handles, all
of them at slots below 32. -/
def InWord (Offset NumHandles : Nat) : Prop :=
  1 ≤ NumHandles ∧ NumHandles ≤ 31 ∧ Offset + NumHandles ≤ 32

/-- The cache states reached from the state `cp` by any number of calls of
`StageDescriptorHandles` that satisfy its preconditions and the condition `calls` on
their offset and count, of `SetDefaults`, of `UnbindAllValid` and of
`CopyAndBindStaleTables`. -/
inductive ReachableBy (calls : Nat → Nat → Prop) (cp : DescriptorHandleCache) :
    DescriptorHandleCache → Prop
  | start : ReachableBy calls cp cp
  | stage {c c' : DescriptorHandleCache} {RootIndex Offset NumHandles : Nat}
      {Handles : Nat → Nat} :
      ReachableBy calls cp c → Declared c RootIndex →
      Offset + NumHandles ≤ (c.m_RootDescriptorTable RootIndex).TableSize →
      calls Offset NumHandles →
      StageDescriptorHandles c RootIndex Offset NumHandles Handles = .ok c' →
      ReachableBy calls cp c'
  | setDefaults {c c' : DescriptorHandleCache} {sm_DefaultResources : DefaultResources} :
      ReachableBy calls cp c → SetDefaults sm_DefaultResources c = .ok c' →
      ReachableBy calls cp c'
  | unbindAllValid {c c' : DescriptorHandleCache} :
      ReachableBy calls cp c → c.UnbindAllValid = .ok c' → ReachableBy calls cp c'
  | copyAndBind {c c' : DescriptorHandleCache} {HeapType DescriptorSize : Nat}
      {DestHandleStart : DescriptorHandle} {b : CopyBatch} :
      ReachableBy calls cp c →
      CopyAndBindStaleTables c HeapType DescriptorSize DestHandleStart = .ok (c', b) →
      ReachableBy calls cp c'

/-- Cache `c` has the table layout of cache `cp`: the same table bitmap, the same
`m_MaxCachedDescriptors`, and table records that differ at most in their assigned
bitmaps. -/
def SameLayout (cp c : DescriptorHandleCache) : Prop :=
  c.m_RootDescriptorTablesBitMap = cp.m_RootDescriptorTablesBitMap ∧
  c.m_MaxCachedDescriptors = cp.m_MaxCachedDescriptors ∧
  ∀ r, (c.m_RootDescriptorTable r).TableStart = (cp.m_RootDescriptorTable r).TableStart ∧
    (c.m_RootDescriptorTable r).TableSize = (cp.m_RootDescriptorTable r).TableSize ∧
    (c.m_RootDescriptorTable r).ParamType = (cp.m_RootDescriptorTable r).ParamType ∧
    (c.m_RootDescriptorTable r).RangeType = (cp.m_RootDescriptorTable r).RangeType

/-- The assigned bitmap of every declared table is a 32-bit word. -/
def WordSized (c : DescriptorHandleCache) : Prop :=
  ∀ r, Declared c r → (c.m_RootDescriptorTable r).AssignedHandlesBitMap < 2 ^ 32

/-- Every root index set in the stale bitmap is a declared table whose assigned bitmap
is non-zero. -/
def StaleAssigned (c : DescriptorHandleCache) : Prop :=
  ∀ r, r < 32 → c.m_StaleRootParamsBitMap.testBit r = true →
    Declared c r ∧ (c.m_RootDescriptorTable r).AssignedHandlesBitMap ≠ 0

/-- The sum of the declared sizes of the tables of the root indices set in `mask`. -/
def declaredSlots (c : DescriptorHandleCache) (mask : Nat) : Nat :=
  ((setBits mask 32).map (fun r => (c.m_RootDescriptorTable r).TableSize)).sum

/-! # Lemmas and theorems -/

/-! ## Bit scans -/

theorem bitScanUp_some {mask : Nat} : ∀ {fuel i k : Nat}, bitScanUp mask i fuel = some k →
    i ≤ k ∧ k < i + fuel ∧ mask.testBit k = true ∧ ∀ j, i ≤ j → j < k → mask.testBit j = false := by
  intro fuel
  induction fuel with
  | zero => intro i k h; simp [bitScanUp] at h
  | succ n ih =>
    intro i k h
    unfold bitScanUp at h
    by_cases hb : mask.testBit i = true
    · simp only [hb, if_true, Option.some.injEq] at h
      subst h
      exact ⟨le_refl _, by omega, hb, fun j h1 h2 => by omega⟩
    · simp only [hb] at h
      obtain ⟨h1, h2, h3, h4⟩ := ih h
      refine ⟨by omega, by omega, h3, fun j hj1 hj2 => ?_⟩
      by_cases hji : j = i
      · subst hji; simpa using hb
      · exact h4 j (by omega) hj2

theorem bitScanUp_none {mask : Nat} : ∀ {fuel i : Nat}, bitScanUp mask i fuel = none →
    ∀ j, i ≤ j → j < i + fuel → mask.testBit j = false := by
  intro fuel
  induction fuel with
  | zero => intro i _ j h1 h2; omega
  | succ n ih =>
    intro i h j h1 h2
    unfold bitScanUp at h
    by_cases hb : mask.testBit i = true
    · simp [hb] at h
    · simp only [hb] at h
      by_cases hji : j = i
      · subst hji; simpa using hb
      · exact ih h j (by omega) (by omega)

theorem bitScanUp_of_testBit {mask : Nat} {fuel i k : Nat} (h1 : i ≤ k) (h2 : k < i + fuel)
    (hk : mask.testBit k = true) (hlow : ∀ j, i ≤ j → j < k → mask.testBit j = false) :
    bitScanUp mask i fuel = some k := by
  cases h : bitScanUp mask i fuel with
  | none => have := bitScanUp_none h k h1 h2; simp [hk] at this
  | some k' =>
    obtain ⟨a1, a2, a3, a4⟩ := bitScanUp_some h
    congr 1
    by_contra hne
    rcases Nat.lt_or_gt_of_ne hne with hlt | hgt
    · have := hlow k' a1 hlt; simp [a3] at this
    · have := a4 k h1 hgt; simp [hk] at this

theorem bitScanDown_some {mask : Nat} : ∀ {i k : Nat}, bitScanDown mask i = some k →
    k < i ∧ mask.testBit k = true ∧ ∀ j, k < j → j < i → mask.testBit j = false := by
  intro i
  induction i with
  | zero => intro k h; simp [bitScanDown] at h
  | succ n ih =>
    intro k h
    unfold bitScanDown at h
    by_cases hb : mask.testBit n = true
    · simp only [hb, if_true, Option.some.injEq] at h
      subst h
      exact ⟨by omega, hb, fun j h1 h2 => by omega⟩
    · simp only [hb] at h
      obtain ⟨h1, h2, h3⟩ := ih h
      refine ⟨by omega, h2, fun j hj1 hj2 => ?_⟩
      by_cases hji : j = n
      · subst hji; simpa using hb
      · exact h3 j hj1 (by omega)

theorem bitScanDown_none {mask : Nat} : ∀ {i : Nat}, bitScanDown mask i = none →
    ∀ j, j < i → mask.testBit j = false := by
  intro i
  induction i with
  | zero => intro _ j h; omega
  | succ n ih =>
    intro h j hj
    unfold bitScanDown at h
    by_cases hb : mask.testBit n = true
    · simp [hb] at h
    · simp only [hb] at h
      by_cases hji : j = n
      · subst hji; simpa using hb
      · exact ih h j (by omega)

theorem shl32_one {i : Nat} (h : i < 32) : shl32 1 i = 2 ^ i := by
  unfold shl32
  rw [Nat.mod_eq_of_lt h, Nat.one_shiftLeft]
  exact Nat.mod_eq_of_lt (Nat.pow_lt_pow_right (by norm_num) h)

theorem testBit_not64 (x i : Nat) : (not64 x).testBit i = (decide (i < 64) && !x.testBit i) := by
  have h : not64 x = 2 ^ 64 - (x % 2 ^ 64 + 1) := by unfold not64; omega
  rw [h, Nat.testBit_two_pow_sub_succ (Nat.mod_lt _ (by norm_num)), Nat.testBit_mod_two_pow]
  by_cases hi : i < 64 <;> simp [hi]

theorem testBit_not32 (x i : Nat) : (not32 x).testBit i = (decide (i < 32) && !x.testBit i) := by
  have h : not32 x = 2 ^ 32 - (x % 2 ^ 32 + 1) := by unfold not32; omega
  rw [h, Nat.testBit_two_pow_sub_succ (Nat.mod_lt _ (by norm_num)), Nat.testBit_mod_two_pow]
  by_cases hi : i < 32 <;> simp [hi]

theorem testBit_false_of_lt {x n i : Nat} (hx : x < 2 ^ n) (hi : n ≤ i) : x.testBit i = false :=
  Nat.testBit_lt_two_pow (lt_of_lt_of_le hx (Nat.pow_le_pow_right (by norm_num) hi))

/-! ## The list of set bits -/

theorem mem_setBits {mask n k : Nat} : k ∈ setBits mask n ↔ k < n ∧ mask.testBit k = true := by
  simp [setBits]

theorem setBits_sorted (mask n : Nat) : (setBits mask n).Sorted (· < ·) :=
  List.Sorted.filter _ (List.sorted_lt_range n)

theorem setBits_add (mask a b : Nat) :
    setBits mask (a + b) = setBits mask a ++ (setBits (mask >>> a) b).map (fun k => a + k) := by
  unfold setBits
  rw [List.range_add, List.filter_append, List.filter_map]
  congr 2
  apply List.filter_congr
  intro k _
  simp [Nat.testBit_shiftRight]

theorem setBits_eq_nil {mask n : Nat} (h : ∀ j, j < n → mask.testBit j = false) :
    setBits mask n = [] := by
  unfold setBits
  rw [List.filter_eq_nil_iff]
  intro a ha
  simp [h a (List.mem_range.1 ha)]

theorem setBits_eq_range {mask n : Nat} (h : ∀ j, j < n → mask.testBit j = true) :
    setBits mask n = List.range n := by
  unfold setBits
  rw [List.filter_eq_self]
  intro a ha
  exact h a (List.mem_range.1 ha)

theorem setBits_congr {m1 m2 n : Nat} (h : ∀ j, j < n → m1.testBit j = m2.testBit j) :
    setBits m1 n = setBits m2 n := by
  unfold setBits
  apply List.filter_congr
  intro k hk
  exact h k (List.mem_range.1 hk)

/-- Clearing the lowest set bit removes the head of the list of set bits. -/
theorem setBits_of_scan {mask i : Nat} (h : _BitScanForward mask = some i) :
    i < 32 ∧ mask.testBit i = true ∧ setBits mask 32 = i :: setBits (mask ^^^ shl32 1 i) 32 := by
  obtain ⟨_, h2, h3, h4⟩ := bitScanUp_some h
  have hi : i < 32 := by omega
  refine ⟨hi, h3, ?_⟩
  rw [shl32_one hi]
  have e : 32 = i + (1 + (32 - i - 1)) := by omega
  have key : ∀ m : Nat, setBits m 32 =
      setBits m i ++ ((setBits (m >>> i) 1).map (fun k => i + k) ++
        ((setBits (m >>> i >>> 1) (32 - i - 1)).map (fun k => 1 + k)).map (fun k => i + k)) := by
    intro m
    conv_lhs => rw [e]
    rw [setBits_add, setBits_add, List.map_append]
  rw [key mask, key (mask ^^^ 2 ^ i)]
  have a1 : setBits mask i = [] := setBits_eq_nil (fun j hj => h4 j (Nat.zero_le _) hj)
  have a2 : setBits (mask ^^^ 2 ^ i) i = [] := by
    apply setBits_eq_nil
    intro j hj
    rw [Nat.testBit_xor, h4 j (Nat.zero_le _) hj, Nat.testBit_two_pow]
    simp; omega
  have a3 : setBits (mask >>> i) 1 = [0] := by
    rw [setBits_eq_range]; · rfl
    intro j hj
    have : j = 0 := by omega
    subst this
    simpa [Nat.testBit_shiftRight] using h3
  have a4 : setBits ((mask ^^^ 2 ^ i) >>> i) 1 = [] := by
    apply setBits_eq_nil
    intro j hj
    have : j = 0 := by omega
    subst this
    simp [Nat.testBit_shiftRight, Nat.testBit_xor, h3, Nat.testBit_two_pow]
  have a5 : setBits ((mask ^^^ 2 ^ i) >>> i >>> 1) (32 - i - 1) =
      setBits (mask >>> i >>> 1) (32 - i - 1) := by
    apply setBits_congr
    intro j _
    simp only [Nat.testBit_shiftRight, Nat.testBit_xor, Nat.testBit_two_pow]
    have : ¬ (i = i + (1 + j)) := by omega
    simp [this]
  rw [a1, a2, a3, a4, a5]
  simp

theorem setBits_of_scan_none {mask : Nat} (h : _BitScanForward mask = none) :
    setBits mask 32 = [] :=
  setBits_eq_nil (fun j hj => bitScanUp_none h j (Nat.zero_le _) (by omega))


theorem highestSetBit_of_scan {mask m : Nat} (h : _BitScanReverse mask = some m) :
    m < 32 ∧ mask.testBit m = true ∧ highestSetBit mask = m := by
  obtain ⟨h1, h2, h3⟩ := bitScanDown_some h
  refine ⟨h1, h2, ?_⟩
  unfold highestSetBit
  have e : 32 = m + (1 + (32 - m - 1)) := by omega
  have key : setBits mask 32 =
      setBits mask m ++ ((setBits (mask >>> m) 1).map (fun k => m + k) ++
        ((setBits (mask >>> m >>> 1) (32 - m - 1)).map (fun k => 1 + k)).map (fun k => m + k)) := by
    conv_lhs => rw [e]
    rw [setBits_add, setBits_add, List.map_append]
  have a3 : setBits (mask >>> m) 1 = [0] := by
    rw [setBits_eq_range]; · rfl
    intro j hj
    have : j = 0 := by omega
    subst this
    simpa [Nat.testBit_shiftRight] using h2
  have a5 : setBits (mask >>> m >>> 1) (32 - m - 1) = [] := by
    apply setBits_eq_nil
    intro j hj
    simp only [Nat.testBit_shiftRight]
    exact h3 _ (by omega) (by omega)
  rw [key, a3, a5]
  simp [List.getLastD_eq_getLast?]

theorem scanReverse_isSome {mask : Nat} (h : setBits mask 32 ≠ []) :
    ∃ m, _BitScanReverse mask = some m := by
  cases hs : _BitScanReverse mask with
  | some m => exact ⟨m, rfl⟩
  | none =>
    exfalso
    apply h
    exact setBits_eq_nil (fun j hj => bitScanDown_none hs j hj)

theorem setBits_ne_nil {mask : Nat} (h0 : mask ≠ 0) (h : mask < 2 ^ 32) : setBits mask 32 ≠ [] := by
  intro hnil
  apply h0
  apply Nat.eq_of_testBit_eq
  intro i
  rw [Nat.zero_testBit]
  by_cases hi : i < 32
  · by_contra hb
    have : i ∈ setBits mask 32 := mem_setBits.2 ⟨hi, by simpa using hb⟩
    rw [hnil] at this
    simp at this
  · exact testBit_false_of_lt h (by omega)

theorem highestSetBit_lt (mask : Nat) : highestSetBit mask < 32 := by
  unfold highestSetBit
  rcases List.eq_nil_or_concat (setBits mask 32) with h | ⟨l, a, h⟩
  · rw [h]; simp
  · have ha : a ∈ setBits mask 32 := by rw [h]; simp
    rw [h]
    simp [List.getLastD_eq_getLast?]
    exact (mem_setBits.1 ha).1

/-! ## The first loop of `CopyAndBindStaleTables` -/

theorem CollectStaleLoop_ok (tables : Nat → DescriptorTableCache) :
    ∀ (fuel mask : Nat) (R T : List Nat) (N : Nat), (setBits mask 32).length < fuel →
      (∀ r ∈ setBits mask 32, setBits (tables r).AssignedHandlesBitMap 32 ≠ []) → N < 2 ^ 32 →
      CollectStaleLoop tables fuel mask R T N =
        .ok (R ++ setBits mask 32,
          T ++ (setBits mask 32).map (fun r => highestSetBit (tables r).AssignedHandlesBitMap + 1),
          (N + ((setBits mask 32).map
            (fun r => highestSetBit (tables r).AssignedHandlesBitMap + 1)).sum) % 2 ^ 32) := by
  intro fuel
  induction fuel with
  | zero => intro mask R T N h; omega
  | succ n ih =>
    intro mask R T N hlen hne hN
    unfold CollectStaleLoop
    cases hs : _BitScanForward mask with
    | none =>
      simp only [setBits_of_scan_none hs, List.append_nil, List.map_nil, List.sum_nil,
        Nat.add_zero, Nat.mod_eq_of_lt hN]
    | some i =>
      obtain ⟨_, _, hcons⟩ := setBits_of_scan hs
      have hi : i ∈ setBits mask 32 := by rw [hcons]; simp
      obtain ⟨m, hm⟩ := scanReverse_isSome (hne i hi)
      obtain ⟨_, _, hhigh⟩ := highestSetBit_of_scan hm
      simp only [hm]
      rw [ih _ _ _ _ (by rw [hcons] at hlen; simpa using hlen)
        (fun r hr => hne r (by rw [hcons]; exact List.mem_cons_of_mem _ hr))
        (Nat.mod_lt _ (by norm_num))]
      rw [hcons]
      simp only [List.map_cons, List.sum_cons, hhigh, List.append_assoc, List.singleton_append]
      congr 2
      rw [Nat.mod_add_mod]
      congr 1
      omega


/-! ## The copy batch -/

theorem foldl_pushSrc (f : Nat → Nat) : ∀ (n : Nat) (b : CopyBatch),
    ((List.range n).foldl (fun b j => b.pushSrc (f j, 1)) b).pSrcDescriptorRanges =
        b.pSrcDescriptorRanges ++ (List.range n).map (fun j => (f j, 1)) ∧
    ((List.range n).foldl (fun b j => b.pushSrc (f j, 1)) b).pDestDescriptorRanges =
        b.pDestDescriptorRanges ∧
    ((List.range n).foldl (fun b j => b.pushSrc (f j, 1)) b).calls = b.calls ∧
    (b.pSrcDescriptorRanges.length + n ≤ kMaxDescriptorsPerCopy →
      ((List.range n).foldl (fun b j => b.pushSrc (f j, 1)) b).overrun = b.overrun) := by
  intro n
  induction n with
  | zero => intro b; simp
  | succ k ih =>
    intro b
    have hb := ih b
    rw [List.range_succ, List.foldl_append]
    simp only [List.foldl_cons, List.foldl_nil]
    generalize List.foldl (fun b j => b.pushSrc (f j, 1)) b (List.range k) = X at hb ⊢
    obtain ⟨h1, h2, h3, h4⟩ := hb
    simp only [CopyBatch.pushSrc, h1, h2, h3, List.map_append,
      List.map_cons, List.map_nil, List.append_assoc, true_and]
    intro hlen
    rw [h4 (by omega)]
    have : ¬ (kMaxDescriptorsPerCopy ≤ (b.pSrcDescriptorRanges ++
        List.map (fun j => (f j, 1)) (List.range k)).length) := by
      simp only [List.length_append, List.length_map, List.length_range]
      omega
    simp only [List.length_append, List.length_map, List.length_range] at this
    simp [this]

theorem binds_append (xs ys : List DeviceCall) : binds (xs ++ ys) = binds xs ++ binds ys := by
  simp [binds, List.filterMap_append]

theorem addRun_calls_binds (b : CopyBatch) (HeapType : Nat) (hc : Nat → Nat) (s d n : Nat) :
    binds (b.addRun HeapType hc s d n).calls = binds b.calls := by
  unfold CopyBatch.addRun
  simp only [(foldl_pushSrc _ n _).2.2.1, CopyBatch.pushDest]
  split
  · simp [CopyBatch.flush, CopyBatch.copyDescriptors, binds_append, binds]
  · rfl

/-! ## The scans of the copy loop -/

theorem shiftRight_lt_two_pow {x n k : Nat} (h : x < 2 ^ n) : x >>> k < 2 ^ (n - k) := by
  rw [Nat.shiftRight_eq_div_pow]
  by_cases hk : k ≤ n
  · rw [Nat.div_lt_iff_lt_mul (Nat.two_pow_pos k), ← Nat.pow_add]
    have : n - k + k = n := by omega
    rwa [this]
  · have h1 : x < 2 ^ k := lt_of_lt_of_le h (Nat.pow_le_pow_right (by norm_num) (by omega))
    rw [Nat.div_eq_of_lt h1]
    exact Nat.two_pow_pos _

theorem scan64_skip {S skip : Nat} (h : _BitScanForward64 S = some skip) :
    skip < 64 ∧ S.testBit skip = true ∧ (∀ j, j < skip → S.testBit j = false) ∧
      (S >>> skip).testBit 0 = true := by
  obtain ⟨_, h2, h3, h4⟩ := bitScanUp_some h
  refine ⟨by omega, h3, fun j hj => h4 j (Nat.zero_le _) hj, ?_⟩
  simpa [Nat.testBit_shiftRight] using h3

theorem scan64_count {S n : Nat} (h0 : S.testBit 0 = true) (hlt : S < 2 ^ n) (hn : n ≤ 63) :
    ∃ count, _BitScanForward64 (not64 S) = some count ∧ 1 ≤ count ∧ count ≤ n ∧
      (∀ j, j < count → S.testBit j = true) ∧ S.testBit count = false := by
  have hbit : (not64 S).testBit n = true := by
    rw [testBit_not64, testBit_false_of_lt hlt (le_refl _)]
    simp; omega
  cases hs : _BitScanForward64 (not64 S) with
  | none =>
    have := bitScanUp_none hs n (Nat.zero_le _) (by omega)
    rw [hbit] at this
    exact absurd this (by simp)
  | some count =>
    obtain ⟨_, h2, h3, h4⟩ := bitScanUp_some hs
    rw [testBit_not64] at h3
    have hc : S.testBit count = false := by
      cases hb : S.testBit count <;> simp [hb] at h3 ⊢
    have hlow : ∀ j, j < count → S.testBit j = true := by
      intro j hj
      have := h4 j (Nat.zero_le _) hj
      rw [testBit_not64] at this
      have hj64 : j < 64 := by omega
      cases hb : S.testBit j <;> simp [hb, hj64] at this ⊢
    refine ⟨count, rfl, ?_, ?_, hlow, hc⟩
    · by_contra hlt1
      have : count = 0 := by omega
      subst this
      rw [h0] at hc
      exact absurd hc (by simp)
    · by_contra hgt
      have := h4 n (Nat.zero_le _) (by omega)
      rw [hbit] at this
      exact absurd this (by simp)

theorem scan64_lt {S n skip : Nat} (h : _BitScanForward64 S = some skip) (hlt : S < 2 ^ n) :
    skip < n := by
  obtain ⟨_, h2, _, _⟩ := scan64_skip h
  by_contra hge
  rw [testBit_false_of_lt hlt (by omega)] at h2
  exact absurd h2 (by simp)

/-- The copy loop of one table returns for every bitmap below `2 ^ 63` and issues no bind
call. -/
theorem CopyTableLoop_binds (HeapType D : Nat) (hc : Nat → Nat) :
    ∀ (fuel n S s d : Nat) (b : CopyBatch), S < 2 ^ n → n ≤ 63 → n < fuel →
      ∃ b', CopyTableLoop HeapType D hc fuel S s d b = .ok b' ∧ binds b'.calls = binds b.calls := by
  intro fuel
  induction fuel with
  | zero => intro n S s d b _ _ h; omega
  | succ f ih =>
    intro n S s d b hS hn hf
    unfold CopyTableLoop
    cases hs : _BitScanForward64 S with
    | none => exact ⟨b, rfl, rfl⟩
    | some skip =>
      have hskip := scan64_lt hs hS
      obtain ⟨_, _, _, h0⟩ := scan64_skip hs
      have hS1 : S >>> skip < 2 ^ (n - skip) := shiftRight_lt_two_pow hS
      obtain ⟨count, hcnt, hc1, hc2, _, _⟩ := scan64_count h0 hS1 (by omega)
      simp only [hcnt, Option.getD_some]
      have hS2 : S >>> skip >>> count < 2 ^ (n - skip - count) := shiftRight_lt_two_pow hS1
      obtain ⟨b', hb', hbinds⟩ := ih (n - skip - count) (S >>> skip >>> count)
        (s + skip + count)
        (((d + skip * D % 2 ^ 32) % 2 ^ 64 + count * D % 2 ^ 32) % 2 ^ 64)
        (b.addRun HeapType hc (s + skip) ((d + skip * D % 2 ^ 32) % 2 ^ 64) count)
        hS2 (by omega) (by omega)
      exact ⟨b', hb', by rw [hbinds, addRun_calls_binds]⟩


/-! ## The bind calls of `CopyAndBindStaleTables` -/

theorem CopyAndBindLoop_binds (HeapType D : Nat) (c : DescriptorHandleCache) (hD : 32 * D < 2 ^ 31) :
    ∀ (es : List (Nat × Nat)) (dest : DescriptorHandle) (b : CopyBatch),
      (∀ e ∈ es, (c.m_RootDescriptorTable e.1).AssignedHandlesBitMap < 2 ^ 32 ∧ e.2 ≤ 32) →
      dest.m_GpuHandle + (es.map (fun e => e.2)).sum * D < 2 ^ 64 →
      ∃ b', CopyAndBindLoop HeapType D c es dest b = .ok b' ∧
        binds b'.calls = binds b.calls ++ bindAddrs D es dest.m_GpuHandle := by
  intro es
  induction es with
  | nil => intro dest b _ _; exact ⟨b, rfl, by simp [bindAddrs]⟩
  | cons e rest ih =>
    intro dest b hes hfit
    obtain ⟨r, sz⟩ := e
    have he := hes (r, sz) (List.mem_cons_self _ _)
    simp only [List.map_cons, List.sum_cons] at hfit
    unfold CopyAndBindLoop
    obtain ⟨b1, hb1, hbinds1⟩ := CopyTableLoop_binds HeapType D c.m_HandleCache 65 32
      (c.m_RootDescriptorTable r).AssignedHandlesBitMap (c.m_RootDescriptorTable r).TableStart
      dest.m_CpuHandle
      { b with calls := b.calls ++ [DeviceCall.SetFunc r dest.m_GpuHandle] }
      he.1 (by norm_num) (by norm_num)
    simp only [hb1]
    have hsz : sz * D < 2 ^ 32 := by
      have : sz * D ≤ 32 * D := Nat.mul_le_mul_right D he.2
      omega
    have hadv : (dest.advance (sz * D % 2 ^ 32)).m_GpuHandle = dest.m_GpuHandle + sz * D := by
      simp only [DescriptorHandle.advance, Nat.mod_eq_of_lt hsz]
      apply Nat.mod_eq_of_lt
      have : sz * D + (List.map (fun e => e.2) rest).sum * D =
          (sz + (List.map (fun e => e.2) rest).sum) * D := by ring
      have h2 := Nat.le_add_right (dest.m_GpuHandle + sz * D) ((List.map (fun e => e.2) rest).sum * D)
      omega
    obtain ⟨b2, hb2, hbinds2⟩ := ih (dest.advance (sz * D % 2 ^ 32)) b1
      (fun e he' => hes e (List.mem_cons_of_mem _ he'))
      (by rw [hadv]; have : (sz + (List.map (fun e => e.2) rest).sum) * D =
            sz * D + (List.map (fun e => e.2) rest).sum * D := by ring
          omega)
    refine ⟨b2, hb2, ?_⟩
    rw [hbinds2, hbinds1, hadv]
    simp [binds_append, binds, bindAddrs]

theorem bindAddrs_sorted (D : Nat) (f : Nat → Nat) :
    ∀ (L : List Nat) (g : Nat), L.Sorted (· < ·) →
      bindAddrs D (L.zip (L.map f)) g =
        L.map (fun r => (r, g + D * ((L.filter (fun j => decide (j < r))).map f).sum)) := by
  intro L
  induction L with
  | nil => intro g _; rfl
  | cons r0 rest ih =>
    intro g hs
    have hrest : rest.Sorted (· < ·) := hs.of_cons
    have hlt : ∀ r ∈ rest, r0 < r := fun r hr => List.rel_of_sorted_cons hs r hr
    rw [List.map_cons, List.zip_cons_cons, bindAddrs, ih _ hrest, List.map_cons]
    congr 1
    · have hnil : List.filter (fun j => decide (j < r0)) (r0 :: rest) = [] := by
        apply List.filter_eq_nil_iff.2
        intro a ha
        rcases List.mem_cons.1 ha with h | h
        · subst h; simp
        · have := hlt a h
          simp; omega
      rw [hnil]
      simp
    · apply List.map_congr_left
      intro r hr
      have h0 : r0 < r := hlt r hr
      simp only [List.filter_cons, h0, decide_True, if_true, List.map_cons, List.sum_cons]
      congr 1
      ring

theorem setBits_length_le (mask n : Nat) : (setBits mask n).length ≤ n := by
  unfold setBits
  exact le_trans (List.length_filter_le _ _) (by simp)

theorem setBits_of_lt {mask n m : Nat} (h : mask < 2 ^ n) (hnm : n ≤ m) :
    setBits mask m = setBits mask n := by
  obtain ⟨k, rfl⟩ := Nat.exists_eq_add_of_le hnm
  rw [setBits_add]
  have : setBits (mask >>> n) k = [] := by
    apply setBits_eq_nil
    intro j _
    rw [Nat.testBit_shiftRight]
    exact testBit_false_of_lt h (by omega)
  simp [this]


/-! ## The writes of the copy loop -/

theorem flatMap_rangeSlots_single (D : Nat) (f : Nat → Nat) (l : List Nat) :
    (l.map (fun j => (f j, 1))).flatMap (rangeSlots D) = l.map f := by
  induction l with
  | nil => rfl
  | cons a t ih =>
    rw [List.map_cons, List.flatMap_cons, ih]
    simp [rangeSlots, List.range_succ]

theorem traceWrites_append (D : Nat) (xs ys : List DeviceCall) :
    traceWrites D (xs ++ ys) = traceWrites D xs ++ traceWrites D ys := by
  simp [traceWrites, List.flatMap_append]

theorem allWrites_flush (D : Nat) (b : CopyBatch) (HeapType : Nat) :
    allWrites D (b.flush HeapType) = allWrites D b := by
  simp [allWrites, CopyBatch.flush, CopyBatch.copyDescriptors, traceWrites_append, traceWrites,
    pendingWrites, copyWrites]

theorem addRun_writes (D : Nat) (b : CopyBatch) (HeapType : Nat) (hc : Nat → Nat)
    (s d count : Nat) (hinv : BatchInv D b) (h1 : 1 ≤ count) (h16 : count ≤ 16) :
    BatchInv D (b.addRun HeapType hc s d count) ∧
      allWrites D (b.addRun HeapType hc s d count) =
        allWrites D b ++ (List.range count).map (fun j => (d + j * D, hc (s + j))) := by
  have hstep : ∀ b1 : CopyBatch, BatchInv D b1 →
      b1.pSrcDescriptorRanges.length + count ≤ kMaxDescriptorsPerCopy →
      BatchInv D ((List.range count).foldl (fun b j => b.pushSrc (hc (s + j), 1))
          (b1.pushDest (d, count))) ∧
        allWrites D ((List.range count).foldl (fun b j => b.pushSrc (hc (s + j), 1))
          (b1.pushDest (d, count))) =
        allWrites D b1 ++ (List.range count).map (fun j => (d + j * D, hc (s + j))) := by
    intro b1 hb1 hroom
    obtain ⟨i1, i2, i3, i4⟩ := hb1
    obtain ⟨f1, f2, f3, f4⟩ := foldl_pushSrc (fun j => hc (s + j)) count (b1.pushDest (d, count))
    have hk : kMaxDescriptorsPerCopy = 16 := rfl
    have hov : (b1.pushDest (d, count)).overrun = false := by
      have : ¬ (kMaxDescriptorsPerCopy ≤ b1.pDestDescriptorRanges.length) := by omega
      simp [CopyBatch.pushDest, i1, this]
    have hsrc : (b1.pushDest (d, count)).pSrcDescriptorRanges = b1.pSrcDescriptorRanges := rfl
    have hdst : (b1.pushDest (d, count)).pDestDescriptorRanges =
        b1.pDestDescriptorRanges ++ [(d, count)] := rfl
    have hcl : (b1.pushDest (d, count)).calls = b1.calls := rfl
    have hslots : rangeSlots D (d, count) = (List.range count).map (fun j => d + j * D) := rfl
    refine ⟨⟨?_, ?_, ?_, ?_⟩, ?_⟩
    · rw [f4 (by rw [hsrc]; exact hroom), hov]
    · rw [f1, hsrc]; simp only [List.length_append, List.length_map, List.length_range]; exact hroom
    · rw [f1, f2, hsrc, hdst]
      simp only [List.length_append, List.length_map, List.length_range, List.length_singleton]
      omega
    · rw [f1, f2, hsrc, hdst, List.flatMap_append, List.flatMap_append,
        flatMap_rangeSlots_single]
      simp only [List.length_append, i4, List.flatMap_cons, List.flatMap_nil, List.append_nil,
        hslots, List.length_map, List.length_range]
    · unfold allWrites pendingWrites
      rw [f1, f2, f3, hsrc, hdst, hcl, List.flatMap_append, List.flatMap_append,
        flatMap_rangeSlots_single, List.zip_append i4]
      simp only [List.flatMap_cons, List.flatMap_nil, List.append_nil, hslots, List.append_assoc]
      congr 2
      rw [List.zip_map']
  unfold CopyBatch.addRun
  by_cases hfl : b.pSrcDescriptorRanges.length + count > kMaxDescriptorsPerCopy
  · simp only [hfl, if_true]
    have hb1 : BatchInv D (b.flush HeapType) := by
      obtain ⟨i1, _, _, _⟩ := hinv
      exact ⟨i1, by simp [CopyBatch.flush], by simp [CopyBatch.flush], by simp [CopyBatch.flush]⟩
    obtain ⟨g1, g2⟩ := hstep (b.flush HeapType) hb1 (by
      have hk : kMaxDescriptorsPerCopy = 16 := rfl
      simp [CopyBatch.flush]; omega)
    exact ⟨g1, by rw [g2, allWrites_flush]⟩
  · simp only [hfl, if_false]
    exact hstep b hinv (by omega)


theorem CopyTableLoop_writes (HeapType D : Nat) (hc : Nat → Nat) (hD : 32 * D < 2 ^ 31) :
    ∀ (fuel n S s d : Nat) (b : CopyBatch), S < 2 ^ n → n ≤ 32 → n < fuel →
      (∀ k, ∃ j, j < 17 ∧ S.testBit (k + j) = false) → BatchInv D b → d + n * D < 2 ^ 64 →
      ∃ b', CopyTableLoop HeapType D hc fuel S s d b = .ok b' ∧ BatchInv D b' ∧
        allWrites D b' =
          allWrites D b ++ (setBits S n).map (fun k => (d + k * D, hc (s + k))) := by
  intro fuel
  induction fuel with
  | zero => intro n S s d b _ _ h; omega
  | succ f ih =>
    intro n S s d b hS hn hf hruns hinv hfit
    unfold CopyTableLoop
    cases hs : _BitScanForward64 S with
    | none =>
      have : setBits S n = [] :=
        setBits_eq_nil (fun j hj => bitScanUp_none hs j (Nat.zero_le _) (by omega))
      exact ⟨b, rfl, hinv, by simp [this]⟩
    | some skip =>
      have hskip := scan64_lt hs hS
      obtain ⟨_, _, hlow, h0⟩ := scan64_skip hs
      have hS1 : S >>> skip < 2 ^ (n - skip) := shiftRight_lt_two_pow hS
      obtain ⟨count, hcnt, hc1, hc2, hones, _⟩ := scan64_count h0 hS1 (by omega)
      have hc16 : count ≤ 16 := by
        by_contra hgt
        obtain ⟨j, hj, hbit⟩ := hruns skip
        have := hones j (by omega)
        rw [Nat.testBit_shiftRight, hbit] at this
        exact absurd this (by simp)
      simp only [hcnt, Option.getD_some]
      have hmul : ∀ m, m ≤ n → m * D ≤ n * D := fun m hm => Nat.mul_le_mul_right D hm
      have hn32 : n * D ≤ 32 * D := Nat.mul_le_mul_right D hn
      have hsD := hmul skip (by omega)
      have hcD := hmul count (by omega)
      have hscD : (skip + count) * D ≤ n * D := hmul (skip + count) (by omega)
      have hsplit : (skip + count) * D = skip * D + count * D := by ring
      have e1 : (d + skip * D % 2 ^ 32) % 2 ^ 64 = d + skip * D := by
        rw [Nat.mod_eq_of_lt (by omega : skip * D < 2 ^ 32)]
        exact Nat.mod_eq_of_lt (by omega)
      have e2 : (d + skip * D + count * D % 2 ^ 32) % 2 ^ 64 = d + skip * D + count * D := by
        rw [Nat.mod_eq_of_lt (by omega : count * D < 2 ^ 32)]
        exact Nat.mod_eq_of_lt (by omega)
      rw [e1, e2]
      have hS2 : S >>> skip >>> count < 2 ^ (n - skip - count) := shiftRight_lt_two_pow hS1
      obtain ⟨r1, r2⟩ := addRun_writes D b HeapType hc (s + skip) (d + skip * D) count hinv hc1 hc16
      have hrem : (n - skip - count) * D + (skip + count) * D = n * D := by
        rw [← Nat.add_mul]
        congr 1
        omega
      obtain ⟨b', hb', hinv', hw⟩ := ih (n - skip - count) (S >>> skip >>> count)
        (s + skip + count) (d + skip * D + count * D)
        (b.addRun HeapType hc (s + skip) (d + skip * D) count)
        hS2 (by omega) (by omega)
        (by
          intro k
          obtain ⟨j, hj, hbit⟩ := hruns (skip + (count + k))
          refine ⟨j, hj, ?_⟩
          rw [Nat.testBit_shiftRight, Nat.testBit_shiftRight]
          rw [← hbit]
          congr 1
          omega)
        r1 (by omega)
      refine ⟨b', hb', hinv', ?_⟩
      rw [hw, r2, List.append_assoc]
      congr 1
      have e : n = skip + (count + (n - skip - count)) := by omega
      have hsb : setBits S n = (List.range count ++
          (setBits (S >>> skip >>> count) (n - skip - count)).map (fun k => count + k)).map
            (fun k => skip + k) := by
        conv_lhs => rw [e]
        rw [setBits_add, setBits_add, setBits_eq_nil hlow, setBits_eq_range hones]
        simp
      rw [hsb]
      simp only [List.map_append, List.map_map]
      congr 1
      · apply List.map_congr_left
        intro j _
        simp only [Function.comp]
        congr 1
        · ring
        · congr 1
          omega
      · apply List.map_congr_left
        intro j _
        simp only [Function.comp]
        congr 1
        · ring
        · congr 1
          omega

theorem le_highestSetBit {mask i : Nat} (hmem : i ∈ setBits mask 32) :
    i ≤ highestSetBit mask := by
  have hlast : ∀ l : List Nat, l.Sorted (· < ·) → i ∈ l → i ≤ l.getLastD 0 := by
    intro l
    induction l using List.reverseRecOn with
    | nil => intro _ h; simp at h
    | append_singleton t a _ =>
      intro hs hm
      simp only [List.getLastD_eq_getLast?, List.getLast?_append, List.getLast?_singleton,
        Option.or_some, Option.getD_some]
      rcases List.mem_append.1 hm with h | h
      · have := (List.pairwise_append.1 hs).2.2 i h a (by simp)
        omega
      · simp at h; omega
  exact hlast _ (setBits_sorted mask 32) hmem

theorem highestSetBit_bound {mask : Nat} (h : mask < 2 ^ 32) :
    mask < 2 ^ (highestSetBit mask + 1) := by
  apply Nat.lt_pow_two_of_testBit
  intro i hi
  by_cases hi32 : i < 32
  · by_contra hb
    have := le_highestSetBit (mem_setBits.2 ⟨hi32, by simpa using hb⟩)
    omega
  · exact testBit_false_of_lt h (by omega)

theorem binds_nil_of_copy (D : Nat) (b : CopyBatch) (r g : Nat) :
    allWrites D { b with calls := b.calls ++ [DeviceCall.SetFunc r g] } = allWrites D b := by
  simp [allWrites, traceWrites_append, traceWrites, pendingWrites, copyWrites]

theorem CopyAndBindLoop_writes (HeapType D : Nat) (c : DescriptorHandleCache)
    (hD : 32 * D < 2 ^ 31) :
    ∀ (es : List (Nat × Nat)) (dest : DescriptorHandle) (b : CopyBatch),
      (∀ e ∈ es, (c.m_RootDescriptorTable e.1).AssignedHandlesBitMap < 2 ^ 32 ∧
        RunsAtMost16 (c.m_RootDescriptorTable e.1).AssignedHandlesBitMap ∧
        e.2 = highestSetBit (c.m_RootDescriptorTable e.1).AssignedHandlesBitMap + 1) →
      BatchInv D b →
      dest.m_CpuHandle + (es.map (fun e => e.2)).sum * D < 2 ^ 64 →
      ∃ b', CopyAndBindLoop HeapType D c es dest b = .ok b' ∧ BatchInv D b' ∧
        allWrites D b' = allWrites D b ++ entryWrites D c.m_RootDescriptorTable c.m_HandleCache es dest.m_CpuHandle := by
  intro es
  induction es with
  | nil => intro dest b _ hinv _; exact ⟨b, rfl, hinv, by simp [entryWrites]⟩
  | cons e rest ih =>
    intro dest b hes hinv hfit
    obtain ⟨r, sz⟩ := e
    obtain ⟨hA, hruns, hsz⟩ := hes (r, sz) (List.mem_cons_self _ _)
    simp only at hA hruns hsz
    simp only [List.map_cons, List.sum_cons] at hfit
    have hsz32 : sz ≤ 32 := by
      have := highestSetBit_lt (c.m_RootDescriptorTable r).AssignedHandlesBitMap
      omega
    have hszD : sz * D ≤ 32 * D := Nat.mul_le_mul_right D hsz32
    have hsum : (sz + (List.map (fun e => e.2) rest).sum) * D =
        sz * D + (List.map (fun e => e.2) rest).sum * D := by ring
    unfold CopyAndBindLoop
    have hinv0 : BatchInv D { b with calls := b.calls ++ [DeviceCall.SetFunc r dest.m_GpuHandle] } :=
      hinv
    obtain ⟨b1, hb1, hinv1, hw1⟩ := CopyTableLoop_writes HeapType D c.m_HandleCache hD 65 sz
      (c.m_RootDescriptorTable r).AssignedHandlesBitMap (c.m_RootDescriptorTable r).TableStart
      dest.m_CpuHandle
      { b with calls := b.calls ++ [DeviceCall.SetFunc r dest.m_GpuHandle] }
      (by rw [hsz]; exact highestSetBit_bound hA) hsz32 (by omega)
      (by
        intro k
        by_cases hk : k < 32
        · exact hruns k hk
        · exact ⟨0, by norm_num, testBit_false_of_lt hA (by omega)⟩)
      hinv0 (by omega)
    simp only [hb1]
    have hadv : (dest.advance (sz * D % 2 ^ 32)).m_CpuHandle = dest.m_CpuHandle + sz * D := by
      simp only [DescriptorHandle.advance, Nat.mod_eq_of_lt (by omega : sz * D < 2 ^ 32)]
      exact Nat.mod_eq_of_lt (by omega)
    obtain ⟨b2, hb2, hinv2, hw2⟩ := ih (dest.advance (sz * D % 2 ^ 32)) b1
      (fun e he' => hes e (List.mem_cons_of_mem _ he')) hinv1 (by rw [hadv]; omega)
    refine ⟨b2, hb2, hinv2, ?_⟩
    rw [hw2, hw1, binds_nil_of_copy, hadv, List.append_assoc]
    congr 1
    rw [entryWrites]
    congr 1
    rw [setBits_of_lt (by rw [hsz]; exact highestSetBit_bound hA) hsz32]


theorem mem_zip_map_self (f : Nat → Nat) : ∀ (L : List Nat) (e : Nat × Nat),
    e ∈ L.zip (L.map f) → e.2 = f e.1 := by
  intro L
  induction L with
  | nil => intro e he; simp at he
  | cons x t ih =>
    intro e he
    rw [List.map_cons, List.zip_cons_cons] at he
    rcases List.mem_cons.1 he with h | h
    · rw [h]
    · exact ih e h

theorem entryWrites_sorted (D : Nat) (c : DescriptorHandleCache) (f : Nat → Nat) :
    ∀ (L : List Nat) (cpu : Nat), L.Sorted (· < ·) →
      entryWrites D c.m_RootDescriptorTable c.m_HandleCache (L.zip (L.map f)) cpu =
        L.flatMap (fun r =>
          (setBits (c.m_RootDescriptorTable r).AssignedHandlesBitMap 32).map
            (fun k => (cpu + ((L.filter (fun j => decide (j < r))).map f).sum * D + k * D,
              c.m_HandleCache ((c.m_RootDescriptorTable r).TableStart + k)))) := by
  intro L
  induction L with
  | nil => intro cpu _; rfl
  | cons r0 rest ih =>
    intro cpu hs
    have hrest : rest.Sorted (· < ·) := hs.of_cons
    have hlt : ∀ r ∈ rest, r0 < r := fun r hr => List.rel_of_sorted_cons hs r hr
    rw [List.map_cons, List.zip_cons_cons, entryWrites, ih _ hrest, List.flatMap_cons]
    congr 1
    · have hnil : List.filter (fun j => decide (j < r0)) (r0 :: rest) = [] := by
        apply List.filter_eq_nil_iff.2
        intro a ha
        rcases List.mem_cons.1 ha with h | h
        · subst h; simp
        · have := hlt a h
          simp; omega
      rw [hnil]
      simp
    · apply List.flatMap_congr
      intro r hr
      have h0 : r0 < r := hlt r hr
      apply List.map_congr_left
      intro k _
      simp only [List.filter_cons, h0, decide_True, if_true, List.map_cons, List.sum_cons]
      congr 1
      ring

theorem entryWrites_increasing (D : Nat) (c : DescriptorHandleCache) (hD : 0 < D) :
    ∀ (es : List (Nat × Nat)) (cpu : Nat),
      (∀ e ∈ es, e.2 = highestSetBit (c.m_RootDescriptorTable e.1).AssignedHandlesBitMap + 1) →
      ((entryWrites D c.m_RootDescriptorTable c.m_HandleCache es cpu).map Prod.fst).Pairwise (· < ·) ∧
        ∀ x ∈ (entryWrites D c.m_RootDescriptorTable c.m_HandleCache es cpu).map Prod.fst, cpu ≤ x := by
  intro es
  induction es with
  | nil => intro cpu _; simp [entryWrites]
  | cons e rest ih =>
    intro cpu hes
    obtain ⟨r, sz⟩ := e
    have hsz := hes (r, sz) (List.mem_cons_self _ _)
    simp only at hsz
    obtain ⟨ih1, ih2⟩ := ih (cpu + sz * D) (fun e he => hes e (List.mem_cons_of_mem _ he))
    rw [entryWrites, List.map_append, List.map_map]
    have hfst : (Prod.fst ∘ fun k => (cpu + k * D,
        c.m_HandleCache ((c.m_RootDescriptorTable r).TableStart + k))) = fun k => cpu + k * D := rfl
    rw [hfst]
    constructor
    · rw [List.pairwise_append]
      refine ⟨?_, ih1, ?_⟩
      · apply List.Pairwise.map _ _ (setBits_sorted _ 32)
        intro a b hab
        have := Nat.mul_lt_mul_of_pos_right hab hD
        omega
      · intro x hx y hy
        obtain ⟨k, hk, rfl⟩ := List.mem_map.1 hx
        have h1 := le_highestSetBit hk
        have h2 := ih2 y hy
        have h3 : k * D < sz * D := Nat.mul_lt_mul_of_pos_right (by omega) hD
        omega
    · intro x hx
      rcases List.mem_append.1 hx with h | h
      · obtain ⟨k, _, rfl⟩ := List.mem_map.1 h
        omega
      · have := ih2 x h
        omega


/-! ## `StageDescriptorHandles` -/

theorem copyHandles_spec (cache : Nat → Nat) (base : Nat) (Handles : Nat → Nat) :
    ∀ (n a : Nat), copyHandles cache base Handles n a =
      if base ≤ a ∧ a < base + n then Handles (a - base) else cache a := by
  intro n
  induction n with
  | zero =>
    intro a
    have : ¬ (base ≤ a ∧ a < base + 0) := by omega
    rw [copyHandles, if_neg this]
  | succ k ih =>
    intro a
    rw [copyHandles]
    by_cases h : a = base + k
    · subst h
      simp
    · rw [Function.update_noteq h, ih]
      by_cases h1 : base ≤ a ∧ a < base + k
      · have h2 : base ≤ a ∧ a < base + (k + 1) := ⟨h1.1, by omega⟩
        simp [h1, h2]
      · have h2 : ¬ (base ≤ a ∧ a < base + (k + 1)) := by omega
        simp [h1, h2]

theorem sub32_pos_one {x : Nat} (h0 : 0 < x) (h : x < 2 ^ 32) : sub32 x 1 = x - 1 := by
  unfold sub32
  have e : (2 : Nat) ^ 32 = 4294967296 := by norm_num
  rw [e] at h ⊢
  omega

theorem sub32_two_pow_one {n : Nat} (h : n < 32) : sub32 (2 ^ n) 1 = 2 ^ n - 1 :=
  sub32_pos_one (Nat.two_pow_pos n) (Nat.pow_lt_pow_right (by norm_num) h)

/-- The mask `((1 << NumHandles) - 1) << Offset` when the shifts stay inside the 32-bit
word: exactly the bits `Offset, ..., Offset + NumHandles - 1`. -/
theorem testBit_stageMask {off n : Nat} (hn : n < 32) (hsum : off + n ≤ 32) (k : Nat) :
    (shl32 (sub32 (shl32 1 n) 1) off).testBit k = (decide (off ≤ k) && decide (k < off + n)) := by
  rw [shl32_one hn, sub32_two_pow_one hn]
  unfold shl32
  by_cases hoff : off < 32
  · rw [Nat.mod_eq_of_lt hoff, Nat.testBit_mod_two_pow, Nat.testBit_shiftLeft,
      Nat.testBit_two_pow_sub_one]
    by_cases h1 : off ≤ k
    · by_cases h2 : k < off + n
      · have h3 : k < 32 := by omega
        have h4 : k - off < n := by omega
        simp [h1, h2, h3, h4]
      · have h4 : ¬ (k - off < n) := by omega
        simp [h1, h2, h4]
    · simp [h1]
  · have hn0 : n = 0 := by omega
    subst hn0
    simp

theorem stageMask_lt {off n : Nat} (hn : n < 32) (hsum : off + n ≤ 32) {m : Nat}
    (hm : off + n ≤ m) : shl32 (sub32 (shl32 1 n) 1) off < 2 ^ m := by
  apply Nat.lt_pow_two_of_testBit
  intro i hi
  rw [testBit_stageMask hn hsum]
  have : ¬ (i < off + n) := by omega
  simp [this]

theorem shl32_and_ne_zero {r bitmap : Nat} (hr : r < 32) (hb : bitmap.testBit r = true) :
    shl32 1 r &&& bitmap ≠ 0 := by
  intro h
  have : (shl32 1 r &&& bitmap).testBit r = true := by
    rw [Nat.testBit_and, shl32_one hr, Nat.testBit_two_pow_self, hb]
    rfl
  rw [h, Nat.zero_testBit] at this
  exact absurd this (by simp)

theorem StageDescriptorHandles_ok (c : DescriptorHandleCache) (r off n : Nat) (Handles : Nat → Nat)
    (hr : r < 32) (hdecl : c.m_RootDescriptorTablesBitMap.testBit r = true)
    (hsize : off + n ≤ (c.m_RootDescriptorTable r).TableSize) :
    StageDescriptorHandles c r off n Handles = .ok
      { c with
        m_HandleCache :=
          copyHandles c.m_HandleCache ((c.m_RootDescriptorTable r).TableStart + off) Handles n
        m_RootDescriptorTable := Function.update c.m_RootDescriptorTable r
          { c.m_RootDescriptorTable r with
            AssignedHandlesBitMap := (c.m_RootDescriptorTable r).AssignedHandlesBitMap |||
              shl32 (sub32 (shl32 1 n) 1) off }
        m_StaleRootParamsBitMap := c.m_StaleRootParamsBitMap ||| shl32 1 r } := by
  unfold StageDescriptorHandles
  rw [if_neg (shl32_and_ne_zero hr hdecl)]
  have : (off + n) % 2 ^ 32 ≤ (c.m_RootDescriptorTable r).TableSize :=
    Nat.le_trans (Nat.mod_le _ _) hsize
  rw [if_neg (by simpa using this)]


/-! ## `SetDefaults` -/

theorem Filled_of_assigned (NullResource r lo hi : Nat) (c : DescriptorHandleCache)
    (h : ∀ k, lo ≤ k → k < hi → (c.m_RootDescriptorTable r).AssignedHandlesBitMap.testBit k = true) :
    Filled NullResource r lo hi c c := by
  refine ⟨?_, rfl, rfl, rfl, rfl, fun _ _ => rfl, rfl, rfl, ?_⟩
  · intro k
    by_cases hk : lo ≤ k ∧ k < hi
    · simp [h k hk.1 hk.2, hk.1, hk.2]
    · by_cases h1 : lo ≤ k
      · have h2 : ¬ (k < hi) := fun h2 => hk ⟨h1, h2⟩
        simp [h2]
      · simp [h1]
  · intro a
    split
    · next hcond =>
      obtain ⟨h1, h2, h3⟩ := hcond
      have := h (a - (c.m_RootDescriptorTable r).TableStart) (by omega) (by omega)
      rw [this] at h3
      exact absurd h3 (by simp)
    · rfl

/-- Staging `u` null handles at offset `o`, where the slots `o, ..., o + u - 1` are
unassigned. -/
theorem stage_null_filled (NullResource r o u : Nat) (c : DescriptorHandleCache)
    (hr : r < 32) (hdecl : c.m_RootDescriptorTablesBitMap.testBit r = true)
    (hsize : o + u ≤ (c.m_RootDescriptorTable r).TableSize) (hu : u ≤ 31) (hword : o + u ≤ 32)
    (hclear : ∀ k, o ≤ k → k < o + u →
      (c.m_RootDescriptorTable r).AssignedHandlesBitMap.testBit k = false) :
    ∃ c1, (if u > 0 then StageDescriptorHandles c r o u (fun _ => NullResource) else .ok c) =
        .ok c1 ∧ Filled NullResource r o (o + u) c c1 := by
  by_cases hu0 : u > 0
  · rw [if_pos hu0, StageDescriptorHandles_ok c r o u _ hr hdecl hsize]
    refine ⟨_, rfl, ?_, ?_, ?_, ?_, ?_, ?_, rfl, rfl, ?_⟩
    · intro k
      simp only [Function.update_same, Nat.testBit_or]
      rw [testBit_stageMask (by omega) hword]
    · simp only [Function.update_same]
    · simp only [Function.update_same]
    · simp only [Function.update_same]
    · simp only [Function.update_same]
    · intro r' hr'
      simp only [Function.update_noteq hr']
    · intro a
      simp only [copyHandles_spec]
      by_cases ha : (c.m_RootDescriptorTable r).TableStart + o ≤ a ∧
          a < (c.m_RootDescriptorTable r).TableStart + o + u
      · have := hclear (a - (c.m_RootDescriptorTable r).TableStart) (by omega) (by omega)
        rw [if_pos ha, if_pos ⟨ha.1, by omega, this⟩]
      · rw [if_neg ha, if_neg (by intro h; exact ha ⟨h.1, by omega⟩)]
  · have hu' : u = 0 := by omega
    subst hu'
    rw [if_neg hu0]
    exact ⟨c, rfl, Filled_of_assigned _ _ _ _ _ (fun k h1 h2 => by omega)⟩

/-- Two fills in a row, with the slots between them assigned, are one fill. -/
theorem Filled_trans {NullResource r lo mid mid' hi : Nat} {c c1 c2 : DescriptorHandleCache}
    (h1 : Filled NullResource r lo mid c c1) (h2 : Filled NullResource r mid' hi c1 c2)
    (hlm : lo ≤ mid) (hmm : mid ≤ mid') (hmh : mid' ≤ hi)
    (hset : ∀ k, mid ≤ k → k < mid' →
      (c.m_RootDescriptorTable r).AssignedHandlesBitMap.testBit k = true) :
    Filled NullResource r lo hi c c2 := by
  obtain ⟨a1, a2, a3, a4, a5, a6, a7, a8, a9⟩ := h1
  obtain ⟨b1, b2, b3, b4, b5, b6, b7, b8, b9⟩ := h2
  refine ⟨?_, by rw [b2, a2], by rw [b3, a3], by rw [b4, a4], by rw [b5, a5],
    fun r' hr' => by rw [b6 r' hr', a6 r' hr'], by rw [b7, a7], by rw [b8, a8], ?_⟩
  · intro k
    rw [b1, a1]
    by_cases hk1 : mid ≤ k ∧ k < mid'
    · have hd1 : ¬ (k < mid) := by omega
      have hd2 : ¬ (mid' ≤ k) := by omega
      have hd3 : lo ≤ k := by omega
      have hd4 : k < hi := by omega
      simp [hset k hk1.1 hk1.2, hd1, hd2, hd3, hd4]
    · by_cases hk2 : k < mid
      · have hd2 : ¬ (mid' ≤ k) := by omega
        have hd4 : k < hi := by omega
        simp [hk2, hd2, hd4]
      · have hd3 : lo ≤ k := by omega
        have hd5 : mid' ≤ k := by omega
        simp [hk2, hd3, hd5]
  · intro a
    rw [b9, a2, a9, a1]
    generalize (c.m_RootDescriptorTable r).TableStart = T
    generalize (c.m_RootDescriptorTable r).AssignedHandlesBitMap = A at hset ⊢
    by_cases hT : T ≤ a
    · obtain ⟨k, rfl⟩ := Nat.exists_eq_add_of_le hT
      have hk : T + k - T = k := by omega
      rw [hk]
      by_cases hb : A.testBit k = true
      · simp [hb]
      · have hb' : A.testBit k = false := by simpa using hb
        by_cases hk1 : mid ≤ k ∧ k < mid'
        · rw [hset k hk1.1 hk1.2] at hb'
          exact absurd hb' (by simp)
        · by_cases hk2 : k < mid
          · by_cases hk3 : lo ≤ k
            · have e1 : ¬ (T + mid' ≤ T + k) := by omega
              have e2 : T + lo ≤ T + k := by omega
              have e3 : T + k < T + mid := by omega
              have e4 : T + k < T + hi := by omega
              simp [hb', e1, e2, e3, e4]
            · have e1 : ¬ (T + mid' ≤ T + k) := by omega
              have e2 : ¬ (T + lo ≤ T + k) := by omega
              simp [e1, e2]
          · have e0 : mid' ≤ k := by omega
            have e1 : T + mid' ≤ T + k := by omega
            have e2 : T + lo ≤ T + k := by omega
            have e3 : ¬ (k < mid) := hk2
            have e5 : ¬ (T + k < T + mid) := by omega
            by_cases hk4 : k < hi
            · have e4 : T + k < T + hi := by omega
              have e6 : lo ≤ k := by omega
              simp [hb', e1, e2, e3, e4, e5, e6]
            · have e4 : ¬ (T + k < T + hi) := by omega
              simp [e1, e4, e5]
    · have e1 : ¬ (T + mid' ≤ a) := by omega
      have e2 : ¬ (T + lo ≤ a) := by omega
      simp [e1, e2]


theorem shr32_testBit {x n : Nat} (hn : n ≤ 31) (j : Nat) :
    (shr32 x n).testBit j = x.testBit (n + j) := by
  unfold shr32
  rw [Nat.mod_eq_of_lt (by omega), Nat.testBit_shiftRight]

theorem SetDefaultsFill_filled (NullResource r : Nat) (hr : r < 32) :
    ∀ (fuel o S I : Nat) (c : DescriptorHandleCache),
      c.m_RootDescriptorTablesBitMap.testBit r = true →
      (c.m_RootDescriptorTable r).TableSize ≤ 31 →
      o ≤ (c.m_RootDescriptorTable r).TableSize →
      (c.m_RootDescriptorTable r).TableSize - o < fuel →
      (∀ j, S.testBit j = (c.m_RootDescriptorTable r).AssignedHandlesBitMap.testBit (o + j)) →
      (∀ j, I.testBit j =
        (decide ((c.m_RootDescriptorTable r).TableSize ≤ o + j) && decide (o + j < 32))) →
      (c.m_RootDescriptorTable r).AssignedHandlesBitMap <
        2 ^ (c.m_RootDescriptorTable r).TableSize →
      ∃ c', SetDefaultsFill NullResource r fuel S I o c = .ok c' ∧
        Filled NullResource r o (c.m_RootDescriptorTable r).TableSize c c' := by
  intro fuel
  induction fuel with
  | zero => intro o S I c _ _ _ h; omega
  | succ f ih =>
    intro o S I c hdecl hn ho hf hS hI hA
    generalize hnd : (c.m_RootDescriptorTable r).TableSize = n at *
    generalize hAd : (c.m_RootDescriptorTable r).AssignedHandlesBitMap = A at *
    have hAhigh : ∀ i, n ≤ i → A.testBit i = false := fun i hi => testBit_false_of_lt hA hi
    have hXbit : (S ^^^ I).testBit (n - o) = true := by
      rw [Nat.testBit_xor, hS, hI, hAhigh _ (by omega)]
      have h1 : n ≤ o + (n - o) := by omega
      have h2 : o + (n - o) < 32 := by omega
      simp [h1, h2]
    unfold SetDefaultsFill
    cases hs : _BitScanForward64 (S ^^^ I) with
    | none =>
      have := bitScanUp_none hs (n - o) (Nat.zero_le _) (by omega)
      rw [hXbit] at this
      exact absurd this (by simp)
    | some u =>
      simp only [hnd]
      by_cases hlt : o < n
      · rw [if_neg (by simpa using hlt)]
        obtain ⟨_, _, hu3, hu4⟩ := bitScanUp_some hs
        have hule : u ≤ n - o := by
          by_contra hgt
          have := hu4 (n - o) (Nat.zero_le _) (by omega)
          rw [hXbit] at this
          exact absurd this (by simp)
        have hclear : ∀ k, o ≤ k → k < o + u → A.testBit k = false := by
          intro k hk1 hk2
          have hx := hu4 (k - o) (Nat.zero_le _) (by omega)
          rw [Nat.testBit_xor, hS, hI] at hx
          have e : o + (k - o) = k := by omega
          rw [e] at hx
          have h1 : ¬ (n ≤ k) := by omega
          simpa [h1] using hx
        obtain ⟨c1, hc1, F1⟩ := stage_null_filled NullResource r o u c hr hdecl
          (by rw [hnd]; omega) (by omega) (by omega) (by rw [hAd]; exact hclear)
        simp only [hc1]
        have hoff : (if u > 0 then (o + u) % 2 ^ 32 else o) = o + u := by
          by_cases hu0 : u > 0
          · rw [if_pos hu0]; exact Nat.mod_eq_of_lt (by omega)
          · rw [if_neg hu0]; omega
        rw [hoff]
        have hF1 := F1
        obtain ⟨a1, a2, a3, a4, a5, a6, a7, a8, a9⟩ := F1
        rw [hAd] at a1
        rw [hnd] at a3
        have hA1 : (c1.m_RootDescriptorTable r).AssignedHandlesBitMap <
            2 ^ (c1.m_RootDescriptorTable r).TableSize := by
          rw [a3]
          apply Nat.lt_pow_two_of_testBit
          intro i hi
          rw [a1, hAhigh i hi]
          have : ¬ (i < o + u) := by omega
          simp [this]
        have hS1 : S >>> u < 2 ^ (n - o - u) := by
          apply Nat.lt_pow_two_of_testBit
          intro i hi
          rw [Nat.testBit_shiftRight, hS]
          exact hAhigh _ (by omega)
        by_cases hb0 : (S >>> u).testBit 0 = true
        · obtain ⟨d, hd, hd1, hd2, hones, _⟩ := scan64_count hb0 hS1 (by omega)
          simp only [hd, Option.getD_some]
          rw [if_pos (by omega), Nat.mod_eq_of_lt (by omega : o + u + d < 2 ^ 32)]
          obtain ⟨c', hc', F2⟩ := ih (o + u + d) (S >>> u >>> d) (shr32 (shr32 I u) d) c1
            (by rw [a7]; exact hdecl) (by rw [a3]; exact hn) (by rw [a3]; omega)
            (by rw [a3]; omega)
            (by
              intro j
              rw [Nat.testBit_shiftRight, Nat.testBit_shiftRight, hS, a1]
              have h1 : ¬ (o + u + d + j < o + u) := by omega
              have e : o + (u + (d + j)) = o + u + d + j := by omega
              simp [h1, e])
            (by
              intro j
              rw [shr32_testBit (by omega), shr32_testBit (by omega), hI, a3]
              have e : o + (u + (d + j)) = o + u + d + j := by omega
              rw [e])
            hA1
          rw [a3] at F2
          refine ⟨c', hc', Filled_trans hF1 F2 (by omega) (by omega) (by omega) ?_⟩
          intro k hk1 hk2
          have := hones (k - (o + u)) (by omega)
          rw [Nat.testBit_shiftRight, hS] at this
          have e : o + (u + (k - (o + u))) = k := by omega
          rw [e] at this
          rw [hAd]
          exact this
        · have hb0' : (S >>> u).testBit 0 = false := by simpa using hb0
          have hd : _BitScanForward64 (not64 (S >>> u)) = some 0 := by
            apply bitScanUp_of_testBit (le_refl _) (by norm_num)
            · rw [testBit_not64, hb0']; rfl
            · intro j h1 h2; omega
          simp only [hd, Option.getD_some]
          rw [if_neg (by omega)]
          have hupos : 0 < u := by
            by_contra hu0
            have hu0' : u = 0 := by omega
            subst hu0'
            rw [Nat.testBit_xor, hS, hI] at hu3
            rw [Nat.testBit_shiftRight, hS] at hb0'
            simp only [Nat.add_zero] at hu3 hb0'
            rw [hb0'] at hu3
            have h1 : ¬ (n ≤ o) := by omega
            simp [h1] at hu3
          obtain ⟨c', hc', F2⟩ := ih (o + u) (S >>> u) (shr32 I u) c1
            (by rw [a7]; exact hdecl) (by rw [a3]; exact hn) (by rw [a3]; omega)
            (by rw [a3]; omega)
            (by
              intro j
              rw [Nat.testBit_shiftRight, hS, a1]
              have h1 : ¬ (o + u + j < o + u) := by omega
              have e : o + (u + j) = o + u + j := by omega
              simp [h1, e])
            (by
              intro j
              rw [shr32_testBit (by omega), hI, a3]
              have e : o + (u + j) = o + u + j := by omega
              rw [e])
            hA1
          rw [a3] at F2
          refine ⟨c', hc', Filled_trans hF1 F2 (by omega) (le_refl _) (by omega) ?_⟩
          intro k hk1 hk2
          omega
      · rw [if_pos (by simpa using hlt)]
        refine ⟨c, rfl, Filled_of_assigned _ _ _ _ _ (fun k h1 h2 => by omega)⟩


theorem setBits_head_lt {mask i : Nat} (h : _BitScanForward mask = some i) :
    ∀ r ∈ setBits (mask ^^^ shl32 1 i) 32, i < r := by
  intro r hr
  have hs := setBits_sorted mask 32
  rw [(setBits_of_scan h).2.2] at hs
  exact List.rel_of_sorted_cons hs r hr

theorem SetDefaultsLoop_filled (res : DefaultResources) :
    ∀ (fuel mask : Nat) (c : DescriptorHandleCache), (setBits mask 32).length < fuel →
      (∀ r ∈ setBits mask 32, c.m_RootDescriptorTablesBitMap.testBit r = true ∧ TableOK c r) →
      ∃ c', SetDefaultsLoop res fuel mask c = .ok c' ∧ FilledAll res (setBits mask 32) c c' := by
  intro fuel
  induction fuel with
  | zero => intro mask c h; omega
  | succ f ih =>
    intro mask c hlen hok
    unfold SetDefaultsLoop
    cases hs : _BitScanForward mask with
    | none =>
      rw [setBits_of_scan_none hs]
      exact ⟨c, rfl, rfl⟩
    | some i =>
      obtain ⟨hi32, _, hcons⟩ := setBits_of_scan hs
      have hi : i ∈ setBits mask 32 := by rw [hcons]; simp
      obtain ⟨hdecl, hsz, hA, hty, hrg⟩ := hok i hi
      have hrest : ∀ c1 : DescriptorHandleCache,
          Filled (res.GetType (c.m_RootDescriptorTable i).RangeType) i 0
            (c.m_RootDescriptorTable i).TableSize c c1 →
          ∃ c', SetDefaultsLoop res f (mask ^^^ shl32 1 i) c1 = .ok c' ∧
            FilledAll res (setBits mask 32) c c' := by
        intro c1 F
        obtain ⟨c', hc', hall⟩ := ih (mask ^^^ shl32 1 i) c1
          (by rw [hcons] at hlen; simpa using hlen)
          (by
            intro r hr
            have hne : r ≠ i := by
              have := setBits_head_lt hs r hr
              omega
            obtain ⟨q1, q2⟩ := hok r (by rw [hcons]; exact List.mem_cons_of_mem _ hr)
            obtain ⟨_, _, _, _, _, a6, a7, _, _⟩ := F
            refine ⟨by rw [a7]; exact q1, ?_⟩
            unfold TableOK
            rw [a6 r hne]
            exact q2)
        refine ⟨c', hc', ?_⟩
        rw [hcons]
        exact ⟨c1, F, hall⟩
      simp only
      by_cases hz : (c.m_RootDescriptorTable i).TableSize = 0
      · rw [if_pos hz]
        apply hrest c
        rw [hz]
        exact Filled_of_assigned _ _ _ _ _ (fun k h1 h2 => by omega)
      · rw [if_neg hz]
        have hmask : sub32 (shl32 1 (c.m_RootDescriptorTable i).TableSize) 1 =
            2 ^ (c.m_RootDescriptorTable i).TableSize - 1 := by
          rw [shl32_one (by omega), sub32_two_pow_one (by omega)]
        rw [hmask]
        by_cases hfull : (c.m_RootDescriptorTable i).AssignedHandlesBitMap =
            2 ^ (c.m_RootDescriptorTable i).TableSize - 1
        · rw [if_pos hfull]
          apply hrest c
          apply Filled_of_assigned
          intro k _ hk
          rw [hfull, Nat.testBit_two_pow_sub_one]
          simpa using hk
        · rw [if_neg hfull, if_neg (by simpa using hty),
            if_pos ⟨Nat.zero_le _, hrg⟩]
          obtain ⟨c1, hc1, F⟩ := SetDefaultsFill_filled
            (res.GetType (c.m_RootDescriptorTable i).RangeType) i hi32 65 0
            (c.m_RootDescriptorTable i).AssignedHandlesBitMap
            (not32 (2 ^ (c.m_RootDescriptorTable i).TableSize - 1)) c hdecl hsz (Nat.zero_le _)
            (by omega) (by intro j; rw [Nat.zero_add])
            (by
              intro j
              rw [testBit_not32, Nat.testBit_two_pow_sub_one, Nat.zero_add]
              by_cases h1 : j < 32 <;> by_cases h2 : j < (c.m_RootDescriptorTable i).TableSize
              · have : ¬ ((c.m_RootDescriptorTable i).TableSize ≤ j) := by omega
                simp [h1, h2, this]
              · have : (c.m_RootDescriptorTable i).TableSize ≤ j := by omega
                simp [h1, h2, this]
              · simp [h1]
              · simp [h1])
            hA
          simp only [hc1]
          exact hrest c1 F

theorem FilledAll_frame (res : DefaultResources) :
    ∀ (L : List Nat) (c c' : DescriptorHandleCache), FilledAll res L c c' →
      c'.m_RootDescriptorTablesBitMap = c.m_RootDescriptorTablesBitMap ∧
      (∀ r, r ∉ L → c'.m_RootDescriptorTable r = c.m_RootDescriptorTable r) ∧
      (∀ r, (c'.m_RootDescriptorTable r).TableStart = (c.m_RootDescriptorTable r).TableStart ∧
        (c'.m_RootDescriptorTable r).TableSize = (c.m_RootDescriptorTable r).TableSize ∧
        (c'.m_RootDescriptorTable r).RangeType = (c.m_RootDescriptorTable r).RangeType) ∧
      (∀ a, (∀ r ∈ L, ¬ ((c.m_RootDescriptorTable r).TableStart ≤ a ∧
          a < (c.m_RootDescriptorTable r).TableStart + (c.m_RootDescriptorTable r).TableSize)) →
        c'.m_HandleCache a = c.m_HandleCache a) := by
  intro L
  induction L with
  | nil => intro c c' h; cases h; exact ⟨rfl, fun _ _ => rfl, fun _ => ⟨rfl, rfl, rfl⟩, fun _ _ => rfl⟩
  | cons r0 rest ih =>
    intro c c' h
    obtain ⟨c1, F, hall⟩ := h
    obtain ⟨i1, i2, i3, i4⟩ := ih c1 c' hall
    obtain ⟨_, a2, a3, _, a5, a6, a7, _, a9⟩ := F
    have hfields : ∀ r, (c1.m_RootDescriptorTable r).TableStart =
          (c.m_RootDescriptorTable r).TableStart ∧
        (c1.m_RootDescriptorTable r).TableSize = (c.m_RootDescriptorTable r).TableSize ∧
        (c1.m_RootDescriptorTable r).RangeType = (c.m_RootDescriptorTable r).RangeType := by
      intro r
      by_cases hr : r = r0
      · subst hr; exact ⟨a2, a3, a5⟩
      · rw [a6 r hr]; exact ⟨rfl, rfl, rfl⟩
    refine ⟨by rw [i1, a7], ?_, ?_, ?_⟩
    · intro r hr
      rw [i2 r (fun h => hr (List.mem_cons_of_mem _ h)), a6 r (fun h => hr (by rw [h]; simp))]
    · intro r
      obtain ⟨q1, q2, q3⟩ := i3 r
      obtain ⟨p1, p2, p3⟩ := hfields r
      exact ⟨by rw [q1, p1], by rw [q2, p2], by rw [q3, p3]⟩
    · intro a ha
      rw [i4 a (by
        intro r hr
        obtain ⟨p1, p2, _⟩ := hfields r
        rw [p1, p2]
        exact ha r (List.mem_cons_of_mem _ hr)), a9]
      have h0 := ha r0 (List.mem_cons_self _ _)
      rw [if_neg (by intro hc; exact h0 ⟨by omega, hc.2.1⟩)]

theorem FilledAll_bits (res : DefaultResources) :
    ∀ (L : List Nat) (c c' : DescriptorHandleCache), L.Nodup → FilledAll res L c c' →
      ∀ r ∈ L, ∀ k, (c'.m_RootDescriptorTable r).AssignedHandlesBitMap.testBit k =
        ((c.m_RootDescriptorTable r).AssignedHandlesBitMap.testBit k ||
          decide (k < (c.m_RootDescriptorTable r).TableSize)) := by
  intro L
  induction L with
  | nil => intro c c' _ _ r hr; simp at hr
  | cons r0 rest ih =>
    intro c c' hnd h r hr k
    obtain ⟨c1, F, hall⟩ := h
    have hnd' := List.nodup_cons.1 hnd
    rcases List.mem_cons.1 hr with h0 | h0
    · subst h0
      rw [(FilledAll_frame res rest c1 c' hall).2.1 r hnd'.1, F.1]
      simp
    · have hne : r ≠ r0 := fun e => hnd'.1 (e ▸ h0)
      rw [ih c1 c' hnd'.2 hall r h0 k, F.2.2.2.2.2.1 r hne]

theorem FilledAll_handles (res : DefaultResources) :
    ∀ (L : List Nat) (c c' : DescriptorHandleCache), L.Nodup → FilledAll res L c c' →
      (∀ r1 ∈ L, ∀ r2 ∈ L, r1 ≠ r2 →
        (c.m_RootDescriptorTable r1).TableStart + (c.m_RootDescriptorTable r1).TableSize ≤
            (c.m_RootDescriptorTable r2).TableStart ∨
          (c.m_RootDescriptorTable r2).TableStart + (c.m_RootDescriptorTable r2).TableSize ≤
            (c.m_RootDescriptorTable r1).TableStart) →
      ∀ r ∈ L, ∀ k, k < (c.m_RootDescriptorTable r).TableSize →
        c'.m_HandleCache ((c.m_RootDescriptorTable r).TableStart + k) =
          if (c.m_RootDescriptorTable r).AssignedHandlesBitMap.testBit k = true then
            c.m_HandleCache ((c.m_RootDescriptorTable r).TableStart + k)
          else res.GetType (c.m_RootDescriptorTable r).RangeType := by
  intro L
  induction L with
  | nil => intro c c' _ _ _ r hr; simp at hr
  | cons r0 rest ih =>
    intro c c' hnd h hdisj r hr k hk
    obtain ⟨c1, F, hall⟩ := h
    have hnd' := List.nodup_cons.1 hnd
    have hF := F
    obtain ⟨_, a2, a3, _, a5, a6, a7, _, a9⟩ := F
    rcases List.mem_cons.1 hr with h0 | h0
    · subst h0
      have hframe := (FilledAll_frame res rest c1 c' hall).2.2.2
        ((c.m_RootDescriptorTable r).TableStart + k) (by
          intro r' hr'
          have hne : r' ≠ r := fun e => hnd'.1 (e ▸ hr')
          rw [a6 r' hne]
          have := hdisj r' (List.mem_cons_of_mem _ hr') r (List.mem_cons_self _ _) hne
          omega)
      rw [hframe, a9]
      have e : (c.m_RootDescriptorTable r).TableStart + k -
          (c.m_RootDescriptorTable r).TableStart = k := by omega
      rw [e]
      by_cases hb : (c.m_RootDescriptorTable r).AssignedHandlesBitMap.testBit k = true
      · rw [if_pos hb, if_neg (by rw [hb]; simp)]
      · have hb' : (c.m_RootDescriptorTable r).AssignedHandlesBitMap.testBit k = false := by
          simpa using hb
        rw [if_neg hb, if_pos ⟨by omega, by omega, hb'⟩]
    · have hne : r ≠ r0 := fun e => hnd'.1 (e ▸ h0)
      have hstep := ih c1 c' hnd'.2 hall (by
        intro r1 h1 r2 h2 h12
        have e1 : r1 ≠ r0 := fun e => hnd'.1 (e ▸ h1)
        have e2 : r2 ≠ r0 := fun e => hnd'.1 (e ▸ h2)
        rw [a6 r1 e1, a6 r2 e2]
        exact hdisj r1 (List.mem_cons_of_mem _ h1) r2 (List.mem_cons_of_mem _ h2) h12)
        r h0 k (by rw [a6 r hne]; exact hk)
      rw [a6 r hne] at hstep
      have := hdisj r (List.mem_cons_of_mem _ h0) r0 (List.mem_cons_self _ _) hne
      have hc1 : c1.m_HandleCache ((c.m_RootDescriptorTable r).TableStart + k) =
          c.m_HandleCache ((c.m_RootDescriptorTable r).TableStart + k) := by
        rw [a9, if_neg (by intro hc; obtain ⟨h1, h2, _⟩ := hc; omega)]
      rw [hstep, hc1]


/-! ## `ParseRootSignature` and the states reached by staging -/

theorem ParseRootSignatureLoop_tables (RootSig : RootSignature) :
    ∀ (fuel mask : Nat) (tables : Nat → DescriptorTableCache) (off : Nat)
      (out : (Nat → DescriptorTableCache) × Nat),
      ParseRootSignatureLoop RootSig fuel mask tables off = .ok out →
      (∀ r ∈ setBits mask 32, (out.1 r).AssignedHandlesBitMap = 0 ∧
        (out.1 r).TableSize = RootSig.m_DescriptorTableSize r) ∧
      (∀ r, r ∉ setBits mask 32 → out.1 r = tables r) := by
  intro fuel
  induction fuel with
  | zero => intro mask tables off out h; simp [ParseRootSignatureLoop] at h
  | succ f ih =>
    intro mask tables off out h
    unfold ParseRootSignatureLoop at h
    cases hs : _BitScanForward mask with
    | none =>
      rw [hs] at h
      simp only [Except.ok.injEq] at h
      subst h
      rw [setBits_of_scan_none hs]
      exact ⟨fun r hr => by simp at hr, fun _ _ => rfl⟩
    | some i =>
      rw [hs] at h
      simp only at h
      by_cases hsz : RootSig.m_DescriptorTableSize i > 0
      · rw [if_neg (not_not.2 hsz)] at h
        obtain ⟨h1, h2⟩ := ih _ _ _ _ h
        obtain ⟨_, _, hcons⟩ := setBits_of_scan hs
        have hnot : i ∉ setBits (mask ^^^ shl32 1 i) 32 := by
          intro hmem
          have := setBits_head_lt hs i hmem
          omega
        rw [hcons]
        constructor
        · intro r hr
          rcases List.mem_cons.1 hr with h0 | h0
          · subst h0
            rw [h2 r hnot]
            simp
          · exact h1 r h0
        · intro r hr
          have hne : r ≠ i := fun e => hr (by rw [e]; simp)
          rw [h2 r (fun hm => hr (List.mem_cons_of_mem _ hm)), Function.update_noteq hne]
      · rw [if_pos hsz] at h
        cases h

theorem ParseRootSignature_assigned {kMax : Nat} {c0 c : DescriptorHandleCache} {HeapType : Nat}
    {RootSig : RootSignature} (h : ParseRootSignature kMax c0 HeapType RootSig = .ok c) :
    ∀ r, Declared c r → (c.m_RootDescriptorTable r).AssignedHandlesBitMap = 0 := by
  unfold ParseRootSignature at h
  by_cases hn : RootSig.m_NumParameters ≤ 16
  · rw [if_neg (not_not.2 hn)] at h
    simp only at h
    generalize hb : (if HeapType = D3D12_DESCRIPTOR_HEAP_TYPE_SAMPLER then RootSig.m_SamplerTableBitMap
      else RootSig.m_DescriptorTableBitMap) = bitmap at h
    cases hl : ParseRootSignatureLoop RootSig 33 bitmap c0.m_RootDescriptorTable 0 with
    | error e => rw [hl] at h; cases h
    | ok out =>
      rw [hl] at h
      obtain ⟨tables, off⟩ := out
      simp only at h
      by_cases hc : off ≤ kMax
      · rw [if_neg (not_not.2 hc)] at h
        simp only [Except.ok.injEq] at h
        subst h
        intro r hr
        exact ((ParseRootSignatureLoop_tables RootSig _ _ _ _ _ hl).1 r
          (mem_setBits.2 hr)).1
      · rw [if_pos hc] at h
        cases h
  · rw [if_pos hn] at h
    cases h

/-- In a state reached by staging no assigned bit of a declared table of size at most 31
lies at or above the declared size. -/
theorem StagedFrom_assigned {kMax : Nat} {c : DescriptorHandleCache} (h : StagedFrom kMax c) :
    ∀ r, Declared c r → (c.m_RootDescriptorTable r).TableSize ≤ 31 →
      (c.m_RootDescriptorTable r).AssignedHandlesBitMap <
        2 ^ (c.m_RootDescriptorTable r).TableSize := by
  induction h with
  | parse hp =>
    intro r hr _
    rw [ParseRootSignature_assigned hp r hr]
    exact Nat.two_pow_pos _
  | @stage c c' r0 o n Handles _ hdecl hsize hst ih =>
    intro r hr hsz
    rw [StageDescriptorHandles_ok c r0 o n Handles hdecl.1 hdecl.2 hsize] at hst
    simp only [Except.ok.injEq] at hst
    subst hst
    by_cases hrr : r = r0
    · subst hrr
      simp only [Function.update_same] at hsz ⊢
      exact Nat.or_lt_two_pow (ih r hr hsz) (stageMask_lt (by omega) (by omega) hsize)
    · simp only [Function.update_noteq hrr] at hsz ⊢
      exact ih r hr hsz

theorem SetDefaults_filled (res : DefaultResources) (c : DescriptorHandleCache)
    (hok : ∀ r, Declared c r → TableOK c r) :
    ∃ c', SetDefaults res c = .ok c' ∧
      FilledAll res (setBits c.m_RootDescriptorTablesBitMap 32) c c' := by
  unfold SetDefaults
  apply SetDefaultsLoop_filled
  · have := setBits_length_le c.m_RootDescriptorTablesBitMap 32
    omega
  · intro r hr
    have hd := mem_setBits.1 hr
    exact ⟨hd.2, hok r hd⟩


/-! ## The heap pool -/

theorem drainRetired_spec (P : Nat → Bool) : ∀ (retired : List (Nat × Nat)) (available : List Nat),
    ∃ moved rest, retired = moved ++ rest ∧ (∀ e ∈ moved, P e.1 = true) ∧
      (∀ e, rest.head? = some e → P e.1 = false) ∧
      drainRetired P retired available = (rest, available ++ moved.map Prod.snd) := by
  intro retired
  induction retired with
  | nil => intro available; exact ⟨[], [], rfl, by simp, by simp, by simp [drainRetired]⟩
  | cons e t ih =>
    intro available
    obtain ⟨fence, heap⟩ := e
    by_cases hP : P fence = true
    · obtain ⟨moved, rest, h1, h2, h3, h4⟩ := ih (available ++ [heap])
      refine ⟨(fence, heap) :: moved, rest, by rw [h1]; rfl, ?_, h3, ?_⟩
      · intro e he
        rcases List.mem_cons.1 he with h | h
        · rw [h]; exact hP
        · exact h2 e h
      · rw [drainRetired, if_pos hP, h4]
        simp
    · refine ⟨[], (fence, heap) :: t, rfl, by simp, ?_, ?_⟩
      · intro e he
        simp only [List.head?_cons, Option.some.injEq] at he
        rw [← he]
        simpa using hP
      · rw [drainRetired, if_neg hP]
        simp

theorem RequestDescriptorHeap_eq (env : Collaborators) (pool : HeapPool) (HeapType : Nat) :
    ∃ moved rest, pool.sm_RetiredDescriptorHeaps (poolIndex HeapType) = moved ++ rest ∧
      (∀ e ∈ moved, env.IsFenceComplete e.1 = true) ∧
      (∀ e, rest.head? = some e → env.IsFenceComplete e.1 = false) ∧
      ((∃ tail, pool.sm_AvailableDescriptorHeaps (poolIndex HeapType) ++ moved.map Prod.snd =
            (RequestDescriptorHeap env pool HeapType).1 :: tail ∧
          (RequestDescriptorHeap env pool HeapType).2 =
            { pool with
              sm_RetiredDescriptorHeaps :=
                Function.update pool.sm_RetiredDescriptorHeaps (poolIndex HeapType) rest
              sm_AvailableDescriptorHeaps :=
                Function.update pool.sm_AvailableDescriptorHeaps (poolIndex HeapType) tail }) ∨
        (pool.sm_AvailableDescriptorHeaps (poolIndex HeapType) ++ moved.map Prod.snd = [] ∧
          (RequestDescriptorHeap env pool HeapType).1 = pool.g_DeviceHeaps.length ∧
          (RequestDescriptorHeap env pool HeapType).2 =
            { sm_RetiredDescriptorHeaps :=
                Function.update pool.sm_RetiredDescriptorHeaps (poolIndex HeapType) rest
              sm_AvailableDescriptorHeaps :=
                Function.update pool.sm_AvailableDescriptorHeaps (poolIndex HeapType) []
              g_DeviceHeaps := pool.g_DeviceHeaps ++ [(HeapType, env.kNumDescriptorsPerHeap)]
              sm_DescriptorHeapPool := Function.update pool.sm_DescriptorHeapPool
                (poolIndex HeapType)
                (pool.sm_DescriptorHeapPool (poolIndex HeapType) ++ [pool.g_DeviceHeaps.length]) })) := by
  obtain ⟨moved, rest, h1, h2, h3, h4⟩ := drainRetired_spec env.IsFenceComplete
    (pool.sm_RetiredDescriptorHeaps (poolIndex HeapType))
    (pool.sm_AvailableDescriptorHeaps (poolIndex HeapType))
  refine ⟨moved, rest, h1, h2, h3, ?_⟩
  unfold RequestDescriptorHeap
  simp only [h4, Function.update_same]
  cases hq : pool.sm_AvailableDescriptorHeaps (poolIndex HeapType) ++ moved.map Prod.snd with
  | nil =>
    right
    simp
  | cons x tail =>
    left
    exact ⟨tail, by simp, by simp⟩


/-! ## Heaps are loaned exclusively -/

theorem Moves_refl (p : HeapPool) (hs : List Nat) : Moves p hs p hs :=
  ⟨[], by simp, by simp, by simp, le_refl _⟩

theorem Moves_of_perm {p : HeapPool} {hs hs' : List Nat} (h : hs'.Perm hs) : Moves p hs p hs' :=
  ⟨[], by rw [List.nil_append]; exact List.Perm.append_left _ h, by simp, by simp, le_refl _⟩

theorem Moves_trans {p1 p2 p3 : HeapPool} {h1 h2 h3 : List Nat} (a : Moves p1 h1 p2 h2)
    (b : Moves p2 h2 p3 h3) : Moves p1 h1 p3 h3 := by
  obtain ⟨f1, a1, a2, a3, a4⟩ := a
  obtain ⟨f2, b1, b2, b3, b4⟩ := b
  refine ⟨f2 ++ f1, ?_, ?_, ?_, by omega⟩
  · refine b1.trans ?_
    rw [List.append_assoc f2 f1]
    exact List.Perm.append_left _ a1
  · rw [List.nodup_append]
    refine ⟨b2, a2, ?_⟩
    intro x hx2 hx1
    have := a3 x hx1
    have := b3 x hx2
    omega
  · intro x hx
    rcases List.mem_append.1 hx with h | h
    · have := b3 x h; omega
    · have := a3 x h; omega

theorem poolIndex_cases (HeapType : Nat) : poolIndex HeapType = 0 ∨ poolIndex HeapType = 1 := by
  unfold poolIndex
  split
  · right; rfl
  · left; rfl

/-- A change of the queues of one pool index that keeps the heaps, up to `fresh` ones,
moves the heaps of the whole pool accordingly. -/
theorem Moves_of_index {p p' : HeapPool} {hs hs' : List Nat} (fresh : List Nat) (idx : Nat)
    (hidx : idx = 0 ∨ idx = 1)
    (hother : ∀ j, j ≠ idx → queuedHeaps p' j = queuedHeaps p j)
    (hperm : (queuedHeaps p' idx ++ hs').Perm (fresh ++ (queuedHeaps p idx ++ hs)))
    (hnd : fresh.Nodup)
    (hfresh : ∀ x ∈ fresh, p.g_DeviceHeaps.length ≤ x ∧ x < p'.g_DeviceHeaps.length)
    (hlen : p.g_DeviceHeaps.length ≤ p'.g_DeviceHeaps.length) : Moves p hs p' hs' := by
  refine ⟨fresh, ?_, hnd, hfresh, hlen⟩
  rw [← Multiset.coe_eq_coe] at hperm ⊢
  simp only [← Multiset.coe_add] at hperm ⊢
  rcases hidx with h | h
  · subst h
    rw [hother 1 (by norm_num)]
    calc (↑(queuedHeaps p' 0) : Multiset Nat) + ↑(queuedHeaps p 1) + ↑hs'
        = (↑(queuedHeaps p' 0) + ↑hs') + ↑(queuedHeaps p 1) := by abel
      _ = (↑fresh + (↑(queuedHeaps p 0) + ↑hs)) + ↑(queuedHeaps p 1) := by rw [hperm]
      _ = ↑fresh + (↑(queuedHeaps p 0) + ↑(queuedHeaps p 1) + ↑hs) := by abel
  · subst h
    rw [hother 0 (by norm_num)]
    calc (↑(queuedHeaps p 0) : Multiset Nat) + ↑(queuedHeaps p' 1) + ↑hs'
        = ↑(queuedHeaps p 0) + (↑(queuedHeaps p' 1) + ↑hs') := by abel
      _ = ↑(queuedHeaps p 0) + (↑fresh + (↑(queuedHeaps p 1) + ↑hs)) := by rw [hperm]
      _ = ↑fresh + (↑(queuedHeaps p 0) + ↑(queuedHeaps p 1) + ↑hs) := by abel

theorem RequestDescriptorHeap_moves (env : Collaborators) (p : HeapPool) (HeapType : Nat)
    (hs : List Nat) :
    Moves p hs (RequestDescriptorHeap env p HeapType).2
      ((RequestDescriptorHeap env p HeapType).1 :: hs) := by
  obtain ⟨moved, rest, h1, _, _, hcase⟩ := RequestDescriptorHeap_eq env p HeapType
  generalize (RequestDescriptorHeap env p HeapType).1 = heap at hcase ⊢
  generalize (RequestDescriptorHeap env p HeapType).2 = p' at hcase ⊢
  rcases hcase with ⟨tail, hq1, hq2⟩ | ⟨hq1, hq2, hq3⟩
  · subst hq2
    apply Moves_of_index [] (poolIndex HeapType) (poolIndex_cases HeapType)
    · intro j hj
      simp [queuedHeaps, Function.update_noteq hj]
    · have : queuedHeaps p (poolIndex HeapType) = heap :: (tail ++ rest.map Prod.snd) := by
        unfold queuedHeaps
        rw [h1, List.map_append, ← List.append_assoc, hq1]
        rfl
      rw [this]
      simp only [queuedHeaps, Function.update_same, List.nil_append]
      rw [← Multiset.coe_eq_coe]
      simp only [← Multiset.coe_add, ← Multiset.cons_coe, ← Multiset.singleton_add]
      abel
    · simp
    · simp
    · exact le_refl _
  · subst hq3
    subst hq2
    apply Moves_of_index [p.g_DeviceHeaps.length] (poolIndex HeapType) (poolIndex_cases HeapType)
    · intro j hj
      simp [queuedHeaps, Function.update_noteq hj]
    · have hav : p.sm_AvailableDescriptorHeaps (poolIndex HeapType) = [] :=
        (List.append_eq_nil.1 hq1).1
      have hmv : moved = [] := by
        have := (List.append_eq_nil.1 hq1).2
        simpa using this
      subst hmv
      simp only [queuedHeaps, Function.update_same, hav, h1, List.nil_append]
      rw [← Multiset.coe_eq_coe]
      simp only [← Multiset.coe_add, ← Multiset.cons_coe, ← Multiset.singleton_add,
        Multiset.coe_nil]
      abel
    · simp
    · intro x hx
      simp only [List.mem_singleton] at hx
      subst hx
      simp
    · simp

theorem DiscardDescriptorHeaps_moves (p : HeapPool) (HeapType fence : Nat) (used hs : List Nat) :
    Moves p (used ++ hs) (DiscardDescriptorHeaps p HeapType fence used) hs := by
  apply Moves_of_index [] (poolIndex HeapType) (poolIndex_cases HeapType)
  · intro j hj
    simp [DiscardDescriptorHeaps, queuedHeaps, Function.update_noteq hj]
  · simp only [DiscardDescriptorHeaps, queuedHeaps, Function.update_same, List.map_append,
      List.map_map, List.nil_append]
    have : (Prod.snd ∘ fun heap => (fence, heap)) = (id : Nat → Nat) := rfl
    rw [this, List.map_id]
    simp
  · simp
  · simp
  · exact le_refl _


theorem flatMap_set_perm {α : Type} (f : α → List Nat) (d' : α) :
    ∀ (l : List α) (i : Nat) (d : α), l[i]? = some d →
      ∃ others, (l.flatMap f).Perm (f d ++ others) ∧
        ((l.set i d').flatMap f).Perm (f d' ++ others) := by
  intro l
  induction l with
  | nil => intro i d h; simp at h
  | cons x t ih =>
    intro i d h
    cases i with
    | zero =>
      simp only [List.getElem?_cons_zero, Option.some.injEq] at h
      subst h
      exact ⟨t.flatMap f, by simp, by simp⟩
    | succ k =>
      simp only [List.getElem?_cons_succ] at h
      obtain ⟨others, h1, h2⟩ := ih k d h
      refine ⟨f x ++ others, ?_, ?_⟩
      · rw [List.flatMap_cons]
        refine (List.Perm.append_left _ h1).trans ?_
        rw [← Multiset.coe_eq_coe]
        simp only [← Multiset.coe_add]
        abel
      · rw [List.set_cons_succ, List.flatMap_cons]
        refine (List.Perm.append_left _ h2).trans ?_
        rw [← Multiset.coe_eq_coe]
        simp only [← Multiset.coe_add]
        abel

theorem exclusive_of_moves {w : World} {i : Nat} {d d' : DynamicDescriptorHeap}
    {p' : HeapPool} (hw : HeapsExclusive w) (hi : w.contexts[i]? = some d)
    (hm : Moves w.pool (heapsOf d) p' (heapsOf d')) :
    HeapsExclusive ⟨p', w.contexts.set i d'⟩ := by
  obtain ⟨fresh, m1, m2, m3, m4⟩ := hm
  obtain ⟨others, o1, o2⟩ := flatMap_set_perm heapsOf d' w.contexts i d hi
  have hperm : (allHeaps ⟨p', w.contexts.set i d'⟩).Perm (fresh ++ allHeaps w) := by
    unfold allHeaps
    simp only
    have e1 : (queuedHeaps p' 0 ++ queuedHeaps p' 1 ++
        (w.contexts.set i d').flatMap heapsOf).Perm
        ((queuedHeaps p' 0 ++ queuedHeaps p' 1 ++ heapsOf d') ++ others) := by
      rw [List.append_assoc _ (heapsOf d')]
      exact List.Perm.append_left _ o2
    have e2 : (fresh ++ (queuedHeaps w.pool 0 ++ queuedHeaps w.pool 1 ++
        w.contexts.flatMap heapsOf)).Perm
        ((fresh ++ (queuedHeaps w.pool 0 ++ queuedHeaps w.pool 1 ++ heapsOf d)) ++ others) := by
      rw [List.append_assoc fresh, List.append_assoc _ (heapsOf d)]
      exact List.Perm.append_left _ (List.Perm.append_left _ o1)
    exact e1.trans ((List.Perm.append_right _ m1).trans e2.symm)
  obtain ⟨hnd, hb⟩ := hw
  constructor
  · rw [hperm.nodup_iff, List.nodup_append]
    refine ⟨m2, hnd, ?_⟩
    intro x hx hx'
    have := m3 x hx
    have := hb x hx'
    omega
  · intro heap hh
    rcases List.mem_append.1 (hperm.subset hh) with h | h
    · exact (m3 heap h).2
    · have := hb heap h
      simp only
      omega

theorem GetHeapPointer_moves {env : Collaborators} {p p' : HeapPool}
    {d d' : DynamicDescriptorHeap} {ptr : Nat}
    (h : GetHeapPointer env p d = .ok (ptr, p', d')) :
    Moves p (heapsOf d) p' (heapsOf d') ∧ d'.m_CurrentHeapPtr = some ptr ∧
      d'.m_CurrentOffset = d.m_CurrentOffset ∧ d'.m_RetiredHeaps = d.m_RetiredHeaps ∧
      d'.m_DescriptorType = d.m_DescriptorType := by
  unfold GetHeapPointer at h
  cases hcur : d.m_CurrentHeapPtr with
  | none =>
    rw [hcur] at h
    simp only at h
    by_cases h0 : d.m_CurrentOffset = 0
    · rw [if_neg (not_not.2 h0)] at h
      simp only [Except.ok.injEq, Prod.mk.injEq] at h
      obtain ⟨e1, e2, e3⟩ := h
      subst e3
      refine ⟨?_, by rw [← e1], rfl, rfl, rfl⟩
      have := RequestDescriptorHeap_moves env p d.m_DescriptorType d.m_RetiredHeaps
      rw [e2] at this
      simpa [heapsOf, hcur] using this
    · rw [if_pos h0] at h
      cases h
  | some x =>
    rw [hcur] at h
    simp only [Except.ok.injEq, Prod.mk.injEq] at h
    obtain ⟨e1, e2, e3⟩ := h
    subst e1 e2 e3
    exact ⟨Moves_refl _ _, hcur, rfl, rfl, rfl⟩

theorem RetireCurrentHeap_heaps {d d' : DynamicDescriptorHeap} (h : RetireCurrentHeap d = .ok d') :
    (heapsOf d').Perm (heapsOf d) ∧ d'.m_CurrentHeapPtr = none ∧ d'.m_CurrentOffset = 0 ∧
      d'.m_DescriptorType = d.m_DescriptorType := by
  unfold RetireCurrentHeap at h
  by_cases h0 : d.m_CurrentOffset = 0
  · rw [if_pos h0] at h
    by_cases hn : d.m_CurrentHeapPtr = none
    · rw [if_pos hn] at h
      simp only [Except.ok.injEq] at h
      subst h
      exact ⟨List.Perm.refl _, hn, h0, rfl⟩
    · rw [if_neg hn] at h
      cases h
  · rw [if_neg h0] at h
    cases hcur : d.m_CurrentHeapPtr with
    | none => rw [hcur] at h; cases h
    | some x =>
      rw [hcur] at h
      simp only [Except.ok.injEq] at h
      subst h
      refine ⟨?_, rfl, rfl, rfl⟩
      simp only [heapsOf, hcur, Option.toList_none, Option.toList_some, List.nil_append,
        List.singleton_append]
      exact List.perm_append_singleton _ _

theorem UnbindAllValid_heaps {d d' : DynamicDescriptorHeap} (h : d.UnbindAllValid = .ok d') :
    heapsOf d' = heapsOf d ∧ d'.m_CurrentHeapPtr = d.m_CurrentHeapPtr ∧
      d'.m_CurrentOffset = d.m_CurrentOffset ∧ d'.m_DescriptorType = d.m_DescriptorType := by
  unfold DynamicDescriptorHeap.UnbindAllValid at h
  cases hg : d.m_GraphicsHandleCache.UnbindAllValid with
  | error e => rw [hg] at h; cases h
  | ok g =>
    rw [hg] at h
    simp only at h
    cases hk : d.m_ComputeHandleCache.UnbindAllValid with
    | error e => rw [hk] at h; cases h
    | ok k =>
      rw [hk] at h
      simp only [Except.ok.injEq] at h
      subst h
      exact ⟨rfl, rfl, rfl, rfl⟩

theorem RetireUsedHeaps_moves (p : HeapPool) (d : DynamicDescriptorHeap) (fence : Nat) :
    Moves p (heapsOf d) (RetireUsedHeaps p d fence).1 (heapsOf (RetireUsedHeaps p d fence).2) := by
  unfold RetireUsedHeaps
  simp only [heapsOf, List.append_nil]
  have h1 : Moves p (d.m_RetiredHeaps ++ d.m_CurrentHeapPtr.toList)
      (DiscardDescriptorHeaps p d.m_DescriptorType fence d.m_RetiredHeaps)
      d.m_CurrentHeapPtr.toList := DiscardDescriptorHeaps_moves _ _ _ _ _
  exact Moves_trans (Moves_of_perm List.perm_append_comm) h1

theorem CleanupUsedHeaps_moves {p p' : HeapPool} {d d' : DynamicDescriptorHeap} {fence : Nat}
    (h : CleanupUsedHeaps p d fence = .ok (p', d')) :
    Moves p (heapsOf d) p' (heapsOf d') ∧ d'.m_CurrentHeapPtr = none ∧ d'.m_CurrentOffset = 0 := by
  unfold CleanupUsedHeaps at h
  cases hr : RetireCurrentHeap d with
  | error e => rw [hr] at h; cases h
  | ok d1 =>
    rw [hr] at h
    simp only [Except.ok.injEq, Prod.mk.injEq] at h
    obtain ⟨e1, e2⟩ := h
    obtain ⟨q1, q2, q3, _⟩ := RetireCurrentHeap_heaps hr
    have := RetireUsedHeaps_moves p d1 fence
    rw [e1] at this
    subst e2
    exact ⟨Moves_trans (Moves_of_perm q1) this, q2, q3⟩


theorem heapsOf_setCache (d : DynamicDescriptorHeap) (graphics : Bool) (c : DescriptorHandleCache) :
    heapsOf (d.setCache graphics c) = heapsOf d := by
  cases graphics <;> rfl

theorem UploadDirect_moves {env : Collaborators} {p p' : HeapPool} {d d' : DynamicDescriptorHeap}
    {Handle gpu : Nat} {calls : List DeviceCall}
    (h : UploadDirect env p d Handle = .ok (gpu, p', d', calls)) :
    Moves p (heapsOf d) p' (heapsOf d') := by
  unfold UploadDirect at h
  simp only at h
  have hrot : ∀ d1, (if ¬ HasSpace env d 1 = true then
        match RetireCurrentHeap d with
        | .error e => .error e
        | .ok h => h.UnbindAllValid
      else (.ok d : Except Fault DynamicDescriptorHeap)) = .ok d1 →
      (heapsOf d1).Perm (heapsOf d) := by
    intro d1 hd1
    by_cases hs : HasSpace env d 1 = true
    · rw [if_neg (not_not.2 hs)] at hd1
      simp only [Except.ok.injEq] at hd1
      subst hd1
      exact List.Perm.refl _
    · rw [if_pos hs] at hd1
      cases hr : RetireCurrentHeap d with
      | error e => rw [hr] at hd1; cases hd1
      | ok d2 =>
        rw [hr] at hd1
        simp only at hd1
        rw [(UnbindAllValid_heaps hd1).1]
        exact (RetireCurrentHeap_heaps hr).1
  generalize hgen : (if ¬ HasSpace env d 1 = true then
        match RetireCurrentHeap d with
        | .error e => .error e
        | .ok h => h.UnbindAllValid
      else (.ok d : Except Fault DynamicDescriptorHeap)) = rotated at h hrot
  cases rotated with
  | error e => cases h
  | ok d1 =>
    simp only at h
    cases hg : GetHeapPointer env p d1 with
    | error e => rw [hg] at h; cases h
    | ok out =>
      obtain ⟨ptr, p2, d2⟩ := out
      rw [hg] at h
      simp only [Except.ok.injEq, Prod.mk.injEq] at h
      obtain ⟨_, e2, e3, _⟩ := h
      subst e2 e3
      exact Moves_trans (Moves_of_perm (hrot d1 rfl)) (GetHeapPointer_moves hg).1

theorem CopyAndBindStagedTables_moves {env : Collaborators} {p p' : HeapPool}
    {d d' : DynamicDescriptorHeap} {graphics : Bool} {calls : List DeviceCall}
    (h : CopyAndBindStagedTables env p d graphics = .ok (p', d', calls)) :
    Moves p (heapsOf d) p' (heapsOf d') := by
  unfold CopyAndBindStagedTables at h
  cases hn : ComputeStagedSize (d.cache graphics) with
  | error e => rw [hn] at h; cases h
  | ok NeededSize =>
    rw [hn] at h
    simp only at h
    have hrot : ∀ out, (if ¬ HasSpace env d NeededSize = true then
          match RetireCurrentHeap d with
          | .error e => .error e
          | .ok h =>
            match h.UnbindAllValid with
            | .error e => .error e
            | .ok h =>
              match ComputeStagedSize (h.cache graphics) with
              | .error e => .error e
              | .ok NeededSize => .ok (h, NeededSize)
        else (.ok (d, NeededSize) : Except Fault (DynamicDescriptorHeap × Nat))) = .ok out →
        (heapsOf out.1).Perm (heapsOf d) := by
      intro out hout
      by_cases hs : HasSpace env d NeededSize = true
      · rw [if_neg (not_not.2 hs)] at hout
        simp only [Except.ok.injEq] at hout
        subst hout
        exact List.Perm.refl _
      · rw [if_pos hs] at hout
        cases hr : RetireCurrentHeap d with
        | error e => rw [hr] at hout; cases hout
        | ok d2 =>
          rw [hr] at hout
          simp only at hout
          cases hu : d2.UnbindAllValid with
          | error e => rw [hu] at hout; cases hout
          | ok d3 =>
            rw [hu] at hout
            simp only at hout
            cases hc : ComputeStagedSize (d3.cache graphics) with
            | error e => rw [hc] at hout; cases hout
            | ok n2 =>
              rw [hc] at hout
              simp only [Except.ok.injEq] at hout
              subst hout
              simp only
              rw [(UnbindAllValid_heaps hu).1]
              exact (RetireCurrentHeap_heaps hr).1
    generalize hgen : (if ¬ HasSpace env d NeededSize = true then
          match RetireCurrentHeap d with
          | .error e => .error e
          | .ok h =>
            match h.UnbindAllValid with
            | .error e => .error e
            | .ok h =>
              match ComputeStagedSize (h.cache graphics) with
              | .error e => .error e
              | .ok NeededSize => .ok (h, NeededSize)
        else (.ok (d, NeededSize) : Except Fault (DynamicDescriptorHeap × Nat))) = rotated
      at h hrot
    cases rotated with
    | error e => cases h
    | ok out =>
      obtain ⟨d1, n1⟩ := out
      simp only at h
      cases hg : GetHeapPointer env p d1 with
      | error e => rw [hg] at h; cases h
      | ok out2 =>
        obtain ⟨ptr, p2, d2⟩ := out2
        rw [hg] at h
        simp only [Allocate] at h
        cases hcb : CopyAndBindStaleTables
            (({ d2 with m_CurrentOffset := d2.m_CurrentOffset + n1 } : DynamicDescriptorHeap).cache
              graphics)
            d2.m_DescriptorType d2.m_DescriptorSize
            (d2.m_FirstDescriptor.advance (d2.m_CurrentOffset * d2.m_DescriptorSize)) with
        | error e => rw [hcb] at h; cases h
        | ok out3 =>
          obtain ⟨c3, b3⟩ := out3
          rw [hcb] at h
          simp only [Except.ok.injEq, Prod.mk.injEq] at h
          obtain ⟨e1, e2, _⟩ := h
          subst e1 e2
          rw [heapsOf_setCache]
          exact Moves_trans (Moves_of_perm (hrot (d1, n1) rfl)) (GetHeapPointer_moves hg).1

theorem Step_exclusive {w w' : World} (hs : Step w w') (hw : HeapsExclusive w) :
    HeapsExclusive w' := by
  cases hs with
  | construct _ HeapType DescriptorSize first graphics compute =>
    obtain ⟨h1, h2⟩ := hw
    have e : allHeaps ⟨w.pool, w.contexts ++
        [DynamicDescriptorHeap.new HeapType DescriptorSize first graphics compute]⟩ =
        allHeaps w := by
      simp [allHeaps, List.flatMap_append, heapsOf, DynamicDescriptorHeap.new]
    exact ⟨by rw [e]; exact h1, by rw [e]; exact h2⟩
  | cacheOp _ i d graphics compute hi => exact exclusive_of_moves hw hi (Moves_refl _ _)
  | getHeapPointer env _ i d d' ptr pool' hi h => exact exclusive_of_moves hw hi (GetHeapPointer_moves h).1
  | retireCurrentHeap _ i d d' hi h =>
    exact exclusive_of_moves hw hi (Moves_of_perm (RetireCurrentHeap_heaps h).1)
  | retireUsedHeaps _ i d fence hi => exact exclusive_of_moves hw hi (RetireUsedHeaps_moves _ _ _)
  | cleanupUsedHeaps _ i d d' fence pool' hi h =>
    exact exclusive_of_moves hw hi (CleanupUsedHeaps_moves h).1
  | uploadDirect env _ i d d' Handle gpu pool' calls hi h =>
    exact exclusive_of_moves hw hi (UploadDirect_moves h)
  | copyAndBindStagedTables env _ i d d' graphics pool' calls hi h =>
    exact exclusive_of_moves hw hi (CopyAndBindStagedTables_moves h)

theorem Reachable_exclusive {w : World} (h : Reachable w) : HeapsExclusive w := by
  induction h with
  | start w h1 h2 h3 =>
    have e : allHeaps w = [] := by
      unfold allHeaps queuedHeaps
      rw [(h2 0).1, (h2 0).2, (h2 1).1, (h2 1).2]
      simp only [List.map_nil, List.append_nil, List.nil_append, List.flatMap_eq_nil_iff]
      intro d hd
      simp [heapsOf, (h3 d hd).1, (h3 d hd).2]
    exact ⟨by rw [e]; exact List.nodup_nil, by rw [e]; simp⟩
  | step _ hs ih => exact Step_exclusive hs ih

theorem nodup_flatMap_index {α : Type} (f : α → List Nat) :
    ∀ (l : List α), (l.flatMap f).Nodup → ∀ (i j : Nat) (a b : α) (x : Nat), i ≠ j →
      l[i]? = some a → l[j]? = some b → x ∈ f a → x ∉ f b := by
  intro l hnd i j a b x hij ha hb hxa hxb
  have hpw := (List.nodup_flatMap.1 hnd).2
  rw [List.pairwise_iff_getElem] at hpw
  obtain ⟨hi, rfl⟩ := List.getElem?_eq_some_iff.1 ha
  obtain ⟨hj, rfl⟩ := List.getElem?_eq_some_iff.1 hb
  rcases Nat.lt_or_gt_of_ne hij with h | h
  · exact hpw i j hi hj h hxa hxb
  · exact hpw j i hj hi h hxb hxa


theorem testBit_one_true {r : Nat} (h : (1 : Nat).testBit r = true) : r = 0 := by
  by_contra hr
  have : (1 : Nat) < 2 ^ r := Nat.one_lt_two_pow hr
  rw [Nat.testBit_lt_two_pow this] at h
  exact absurd h (by simp)


/-- C1: for every cache state whose stale root indices are among 0..15 and in which each
stale table has a non-empty 32-bit assigned bitmap with no run of contiguously assigned
slots longer than 16 (the condition on bits at or above the declared size is not
needed), and for byte offsets that fit their words, `CopyAndBindStaleTables` returns
without storing past the range arrays, and the writes of its copy calls, taken
together, are exactly: for each stale table `r`, whose destination base is
`DestHandleStart` advanced by the slots of the stale tables of smaller root index, and
for each slot `k` set in its assigned bitmap, the staged handle `TableStart[k]` written
to CPU address `base + k * DescriptorSize`; the destinations written are pairwise
distinct, so each is written exactly once and no other slot is written. -/
theorem CopyAndBindStaleTables_copies (c : DescriptorHandleCache)
    (HeapType DescriptorSize : Nat) (DestHandleStart : DescriptorHandle)
    (hstale : c.m_StaleRootParamsBitMap < 2 ^ 16)
    (htables : ∀ r, r < 32 → c.m_StaleRootParamsBitMap.testBit r = true →
      (c.m_RootDescriptorTable r).AssignedHandlesBitMap ≠ 0 ∧
      (c.m_RootDescriptorTable r).AssignedHandlesBitMap < 2 ^ 32 ∧
      RunsAtMost16 (c.m_RootDescriptorTable r).AssignedHandlesBitMap)
    (hpos : 0 < DescriptorSize) (hstride : 32 * DescriptorSize < 2 ^ 31)
    (hfit : DestHandleStart.m_CpuHandle + stagedSlots c * DescriptorSize < 2 ^ 64) :
    ∃ c' b, CopyAndBindStaleTables c HeapType DescriptorSize DestHandleStart = .ok (c', b) ∧
      b.overrun = false ∧
      traceWrites DescriptorSize b.calls =
        (setBits c.m_StaleRootParamsBitMap 32).flatMap (fun r =>
          (setBits (c.m_RootDescriptorTable r).AssignedHandlesBitMap 32).map
            (fun k =>
              (DestHandleStart.m_CpuHandle + slotsBefore c r * DescriptorSize + k * DescriptorSize,
                c.m_HandleCache ((c.m_RootDescriptorTable r).TableStart + k)))) ∧
      ((traceWrites DescriptorSize b.calls).map Prod.fst).Nodup := by
  have hne : ∀ r ∈ setBits c.m_StaleRootParamsBitMap 32,
      setBits (c.m_RootDescriptorTable r).AssignedHandlesBitMap 32 ≠ [] := by
    intro r hr
    obtain ⟨h1, h2⟩ := mem_setBits.1 hr
    exact setBits_ne_nil (htables r h1 h2).1 (htables r h1 h2).2.1
  have hlen : (setBits c.m_StaleRootParamsBitMap 32).length ≤ kMaxNumDescriptorTables := by
    rw [setBits_of_lt hstale (by norm_num)]
    exact setBits_length_le _ _
  have hentries : ∀ e ∈ (setBits c.m_StaleRootParamsBitMap 32).zip
      ((setBits c.m_StaleRootParamsBitMap 32).map
        (fun r => highestSetBit (c.m_RootDescriptorTable r).AssignedHandlesBitMap + 1)),
      (c.m_RootDescriptorTable e.1).AssignedHandlesBitMap < 2 ^ 32 ∧
        RunsAtMost16 (c.m_RootDescriptorTable e.1).AssignedHandlesBitMap ∧
        e.2 = highestSetBit (c.m_RootDescriptorTable e.1).AssignedHandlesBitMap + 1 := by
    intro e he
    have hmem := (List.of_mem_zip he).1
    obtain ⟨q1, q2⟩ := mem_setBits.1 hmem
    refine ⟨(htables _ q1 q2).2.1, (htables _ q1 q2).2.2, ?_⟩
    exact mem_zip_map_self _ _ _ he
  have hsnd : List.map (fun e => e.2) ((setBits c.m_StaleRootParamsBitMap 32).zip
      ((setBits c.m_StaleRootParamsBitMap 32).map
        (fun r => highestSetBit (c.m_RootDescriptorTable r).AssignedHandlesBitMap + 1))) =
      (setBits c.m_StaleRootParamsBitMap 32).map
        (fun r => highestSetBit (c.m_RootDescriptorTable r).AssignedHandlesBitMap + 1) := by
    rw [List.map_snd_zip]
    simp
  unfold CopyAndBindStaleTables
  rw [CollectStaleLoop_ok _ 33 _ [] [] 0
    (by have := setBits_length_le c.m_StaleRootParamsBitMap 32; omega) hne (by norm_num)]
  simp only [List.nil_append, hlen, not_true_eq_false, if_false]
  obtain ⟨b, hb, hinv, hw⟩ := CopyAndBindLoop_writes HeapType DescriptorSize
    { c with m_StaleRootParamsBitMap := 0 } hstride _ DestHandleStart ⟨[], [], [], false⟩
    hentries ⟨rfl, by simp, by simp, rfl⟩ (by rw [hsnd]; exact hfit)
  simp only [hb]
  have hfinal : traceWrites DescriptorSize (b.copyDescriptors HeapType).calls =
      entryWrites DescriptorSize c.m_RootDescriptorTable c.m_HandleCache ((setBits c.m_StaleRootParamsBitMap 32).zip
        ((setBits c.m_StaleRootParamsBitMap 32).map
          (fun r => highestSetBit (c.m_RootDescriptorTable r).AssignedHandlesBitMap + 1)))
        DestHandleStart.m_CpuHandle := by
    have h1 : traceWrites DescriptorSize (b.copyDescriptors HeapType).calls =
        allWrites DescriptorSize b := by
      simp [allWrites, CopyBatch.copyDescriptors, traceWrites_append, traceWrites, pendingWrites,
        copyWrites]
    rw [h1, hw]
    simp [allWrites, traceWrites, pendingWrites]
  refine ⟨_, _, rfl, hinv.1, ?_, ?_⟩
  · rw [hfinal, entryWrites_sorted _ _ _ _ _ (setBits_sorted _ _)]
    rfl
  · rw [hfinal]
    have := (entryWrites_increasing DescriptorSize c hpos _ DestHandleStart.m_CpuHandle
      (fun e he => (hentries e he).2.2)).1
    exact (this.imp (fun h => Nat.ne_of_lt h))


/-- C1 at a cache with two stale tables: the five assigned slots are written, each to
its own destination. -/
theorem CopyAndBindStaleTables_copies_witness :
    ∃ c' b, CopyAndBindStaleTables twoTableCache 0 32 ⟨4096, 8192⟩ = .ok (c', b) ∧
      traceWrites 32 b.calls =
        [(4096, 100), (4128, 101), (4192, 103), (4256, 109), (4288, 110)] := by
  obtain ⟨c', b, h1, _, h3, _⟩ := CopyAndBindStaleTables_copies twoTableCache 0 32 ⟨4096, 8192⟩
    (by decide)
    (by
      intro r _ _
      by_cases h0 : r = 0
      · subst h0
        exact ⟨by decide, by decide, by unfold RunsAtMost16; decide⟩
      · have e : twoTableCache.m_RootDescriptorTable r = ⟨6, 8, 8, 0, 0⟩ := by
          simp [twoTableCache, h0]
        rw [e]
        exact ⟨by decide, by decide, by unfold RunsAtMost16; decide⟩)
    (by decide) (by decide) (by decide)
  exact ⟨c', b, h1, by rw [h3]; decide⟩


/-- C2 at a failing input: after a root signature with one table of 8 slots is parsed and
a call of `StageDescriptorHandles` with `NumHandles = 0` is made, which satisfies its
preconditions, the table is stale with an empty assigned bitmap and `ComputeStagedSize`
fails its assertion instead of returning a sum. -/
theorem ComputeStagedSize_after_empty_stage :
    ∃ c c', ParseRootSignature 256 blankCache 0 (tableSignature 8) = .ok c ∧
      Declared c 0 ∧ 0 + 0 ≤ (c.m_RootDescriptorTable 0).TableSize ∧
      StageDescriptorHandles c 0 0 0 someHandles = .ok c' ∧
      c'.m_StaleRootParamsBitMap = 1 ∧
      (c'.m_RootDescriptorTable 0).AssignedHandlesBitMap = 0 ∧
      ComputeStagedSize c' = .error Fault.assertion :=
  ⟨_, _, rfl, ⟨by decide, by decide⟩, by decide, rfl, by decide, by decide, rfl⟩


/-- C3 at a failing input: a table of 17 slots, all staged by one valid call, is one run
of 17 contiguously assigned slots; `CopyAndBindStaleTables` stores a source range at
index 16 of the 16-entry arrays and issues its last copy call with 17 source ranges. -/
theorem CopyAndBindStaleTables_overruns :
    ∃ c1 c2 c3 b, ParseRootSignature 256 blankCache 0 (tableSignature 17) = .ok c1 ∧
      StageDescriptorHandles c1 0 0 17 someHandles = .ok c2 ∧
      (c2.m_RootDescriptorTable 0).AssignedHandlesBitMap = 2 ^ 17 - 1 ∧
      CopyAndBindStaleTables c2 0 32 ⟨4096, 8192⟩ = .ok (c3, b) ∧
      b.overrun = true ∧
      b.calls.getLast? = some (DeviceCall.CopyDescriptors [(4096, 17)]
        ((List.range 17).map (fun j => (100 + j, 1))) 0) ∧
      kMaxDescriptorsPerCopy < ((List.range 17).map (fun j => (100 + j, 1))).length :=
  ⟨_, _, _, _, rfl, rfl, by decide, rfl, by decide, by decide, by decide⟩


theorem stagedExample_reached : StagedFrom 256 stagedExample :=
  @StagedFrom.stage 256 parsedExample stagedExample 0 0 5 someHandles
    (@StagedFrom.parse 256 blankCache parsedExample 0 (tableSignature 8) rfl)
    ⟨by decide, by decide⟩ (by decide) rfl

theorem stagedExample_declared {r : Nat} (h : Declared stagedExample r) : r = 0 :=
  testBit_one_true h.2


/-- C5 (amended): for every cache state reached from `ParseRootSignature` by valid staging
calls in which every declared table has a declared size of at most 31, the parameter
kind descriptor table and a range kind among SRV, UAV, CBV and Sampler, `SetDefaults`
returns, and afterwards every declared table of declared size `n` has all of the bits
`0 .. n - 1` set in its assigned bitmap, whatever subset of its slots was assigned
beforehand. -/
theorem SetDefaults_complete (kMaxNumDescriptors : Nat) (sm_DefaultResources : DefaultResources)
    (c : DescriptorHandleCache) (hreach : StagedFrom kMaxNumDescriptors c)
    (hkind : ∀ r, Declared c r →
      (c.m_RootDescriptorTable r).TableSize ≤ 31 ∧
      (c.m_RootDescriptorTable r).ParamType = D3D12_ROOT_PARAMETER_TYPE_DESCRIPTOR_TABLE ∧
      (c.m_RootDescriptorTable r).RangeType ≤ D3D12_DESCRIPTOR_RANGE_TYPE_SAMPLER) :
    ∃ c', SetDefaults sm_DefaultResources c = .ok c' ∧
      ∀ r, Declared c r →
        (c'.m_RootDescriptorTable r).TableSize = (c.m_RootDescriptorTable r).TableSize ∧
        ∀ k, k < (c.m_RootDescriptorTable r).TableSize →
          (c'.m_RootDescriptorTable r).AssignedHandlesBitMap.testBit k = true := by
  obtain ⟨c', hc', hall⟩ := SetDefaults_filled sm_DefaultResources c (fun r hr =>
    ⟨(hkind r hr).1, StagedFrom_assigned hreach r hr (hkind r hr).1, (hkind r hr).2.1,
      (hkind r hr).2.2⟩)
  refine ⟨c', hc', fun r hr => ⟨((FilledAll_frame _ _ _ _ hall).2.2.1 r).2.1, fun k hk => ?_⟩⟩
  rw [FilledAll_bits _ _ _ _ (setBits_sorted _ _).nodup hall r (mem_setBits.2 hr) k]
  simp [hk]


/-- C5 at the table of 8 slots with slots 0..4 staged: afterwards bits 0..7 are set. -/
theorem SetDefaults_complete_witness :
    ∃ c', SetDefaults nullDescriptors stagedExample = .ok c' ∧
      ∀ k, k < 8 → (c'.m_RootDescriptorTable 0).AssignedHandlesBitMap.testBit k = true := by
  obtain ⟨c', h1, h2⟩ := SetDefaults_complete 256 nullDescriptors stagedExample
    stagedExample_reached
    (by
      intro r hr
      have h0 := stagedExample_declared hr
      subst h0
      exact ⟨by decide, by decide, by decide⟩)
  exact ⟨c', h1, (h2 0 ⟨by decide, by decide⟩).2⟩

/-- C5 fails as stated: a declared table of 32 slots with nothing staged (the 32-bit
table mask cannot be formed), a declared slot whose parameter kind is not descriptor
table, and a declared table whose range kind is above Sampler are each left by
`SetDefaults` with bit 0 of the assigned bitmap clear. -/
theorem SetDefaults_incomplete :
    (∃ c c', ParseRootSignature 256 blankCache 0 (tableSignature 32) = .ok c ∧
      StagedFrom 256 c ∧ Declared c 0 ∧ (c.m_RootDescriptorTable 0).TableSize = 32 ∧
      SetDefaults nullDescriptors c = .ok c' ∧
      (c'.m_RootDescriptorTable 0).AssignedHandlesBitMap.testBit 0 = false) ∧
    (∃ c c', ParseRootSignature 256 blankCache 0 (kindSignature 1 0) = .ok c ∧
      StagedFrom 256 c ∧ Declared c 0 ∧ (c.m_RootDescriptorTable 0).TableSize = 8 ∧
      SetDefaults nullDescriptors c = .ok c' ∧
      (c'.m_RootDescriptorTable 0).AssignedHandlesBitMap.testBit 0 = false) ∧
    (∃ c c', ParseRootSignature 256 blankCache 0 (kindSignature 0 4) = .ok c ∧
      StagedFrom 256 c ∧ Declared c 0 ∧ (c.m_RootDescriptorTable 0).TableSize = 8 ∧
      SetDefaults nullDescriptors c = .ok c' ∧
      (c'.m_RootDescriptorTable 0).AssignedHandlesBitMap.testBit 0 = false) :=
  ⟨⟨_, _, rfl, @StagedFrom.parse 256 blankCache _ 0 (tableSignature 32) rfl,
      ⟨by decide, by decide⟩, by decide, rfl, by decide⟩,
    ⟨_, _, rfl, @StagedFrom.parse 256 blankCache _ 0 (kindSignature 1 0) rfl,
      ⟨by decide, by decide⟩, by decide, rfl, by decide⟩,
    ⟨_, _, rfl, @StagedFrom.parse 256 blankCache _ 0 (kindSignature 0 4) rfl,
      ⟨by decide, by decide⟩, by decide, rfl, by decide⟩⟩


/-- C6 (amended): for every cache state in which every declared table has a declared size
of at most 31 with no assigned bit at or above it, the parameter kind descriptor table
and a range kind among SRV, UAV, CBV and Sampler, and in which the declared tables
occupy pairwise disjoint regions of the staging array, `SetDefaults` returns, and
afterwards every slot of a declared table that was unassigned beforehand holds the null
descriptor `GetType` chooses for the range kind of the table (SRV, UAV, CBV, else
Sampler), and every slot that was assigned beforehand still holds the handle staged
there. -/
theorem SetDefaults_slots (sm_DefaultResources : DefaultResources) (c : DescriptorHandleCache)
    (hok : ∀ r, Declared c r → TableOK c r)
    (hdisj : ∀ r1 r2, Declared c r1 → Declared c r2 → r1 ≠ r2 →
      (c.m_RootDescriptorTable r1).TableStart + (c.m_RootDescriptorTable r1).TableSize ≤
          (c.m_RootDescriptorTable r2).TableStart ∨
        (c.m_RootDescriptorTable r2).TableStart + (c.m_RootDescriptorTable r2).TableSize ≤
          (c.m_RootDescriptorTable r1).TableStart) :
    ∃ c', SetDefaults sm_DefaultResources c = .ok c' ∧
      ∀ r, Declared c r → ∀ k, k < (c.m_RootDescriptorTable r).TableSize →
        c'.m_HandleCache ((c.m_RootDescriptorTable r).TableStart + k) =
          if (c.m_RootDescriptorTable r).AssignedHandlesBitMap.testBit k = true then
            c.m_HandleCache ((c.m_RootDescriptorTable r).TableStart + k)
          else sm_DefaultResources.GetType (c.m_RootDescriptorTable r).RangeType := by
  obtain ⟨c', hc', hall⟩ := SetDefaults_filled sm_DefaultResources c hok
  refine ⟨c', hc', fun r hr k hk => ?_⟩
  exact FilledAll_handles _ _ _ _ (setBits_sorted _ _).nodup hall
    (fun r1 h1 r2 h2 h12 => hdisj r1 r2 (mem_setBits.1 h1) (mem_setBits.1 h2) h12)
    r (mem_setBits.2 hr) k hk


/-- C6 at the table of 8 slots with slots 0..4 staged: afterwards slots 5..7 hold the SRV
null descriptor and slots 0..4 hold the handles staged there. -/
theorem SetDefaults_slots_witness :
    ∃ c', SetDefaults nullDescriptors stagedExample = .ok c' ∧
      (∀ k, 5 ≤ k → k < 8 → c'.m_HandleCache k = nullDescriptors.mSrvNullDescriptor) ∧
      (∀ k, k < 5 → c'.m_HandleCache k = someHandles k) := by
  obtain ⟨c', h1, h2⟩ := SetDefaults_slots nullDescriptors stagedExample
    (by
      intro r hr
      have h0 := stagedExample_declared hr
      subst h0
      exact ⟨by decide, by decide, by decide, by decide⟩)
    (by
      intro r1 r2 hr1 hr2 hne
      have e1 := stagedExample_declared hr1
      have e2 := stagedExample_declared hr2
      omega)
  have hslot : ∀ k, k < 8 → c'.m_HandleCache k =
      if (31 : Nat).testBit k = true then stagedExample.m_HandleCache k
      else nullDescriptors.mSrvNullDescriptor := by
    intro k hk
    have := h2 0 ⟨by decide, by decide⟩ k hk
    have e : (stagedExample.m_RootDescriptorTable 0).TableStart + k = k := Nat.zero_add k
    rw [e] at this
    exact this
  refine ⟨c', h1, ?_, ?_⟩
  · intro k h5 h8
    rw [hslot k h8]
    interval_cases k <;> rfl
  · intro k h5
    rw [hslot k (by omega)]
    interval_cases k <;> rfl

/-- C6 fails as stated: in a declared table of 32 slots with nothing staged, in a
declared slot whose parameter kind is not descriptor table, and in a declared table
whose range kind is above Sampler, `SetDefaults` leaves the unassigned slot 0 as it was
instead of storing a null descriptor. -/
theorem SetDefaults_leaves_slots :
    (∃ c c', ParseRootSignature 256 blankCache 0 (tableSignature 32) = .ok c ∧
      Declared c 0 ∧ (c.m_RootDescriptorTable 0).TableSize = 32 ∧
      (c.m_RootDescriptorTable 0).AssignedHandlesBitMap.testBit 0 = false ∧
      SetDefaults nullDescriptors c = .ok c' ∧
      c'.m_HandleCache ((c.m_RootDescriptorTable 0).TableStart + 0) = 0 ∧
      nullDescriptors.GetType (c.m_RootDescriptorTable 0).RangeType = 9000) ∧
    (∃ c c', ParseRootSignature 256 blankCache 0 (kindSignature 1 0) = .ok c ∧
      Declared c 0 ∧ (c.m_RootDescriptorTable 0).TableSize = 8 ∧
      (c.m_RootDescriptorTable 0).AssignedHandlesBitMap.testBit 0 = false ∧
      SetDefaults nullDescriptors c = .ok c' ∧
      c'.m_HandleCache ((c.m_RootDescriptorTable 0).TableStart + 0) = 0 ∧
      nullDescriptors.GetType (c.m_RootDescriptorTable 0).RangeType = 9000) ∧
    (∃ c c', ParseRootSignature 256 blankCache 0 (kindSignature 0 4) = .ok c ∧
      Declared c 0 ∧ (c.m_RootDescriptorTable 0).TableSize = 8 ∧
      (c.m_RootDescriptorTable 0).AssignedHandlesBitMap.testBit 0 = false ∧
      SetDefaults nullDescriptors c = .ok c' ∧
      c'.m_HandleCache ((c.m_RootDescriptorTable 0).TableStart + 0) = 0 ∧
      nullDescriptors.GetType (c.m_RootDescriptorTable 0).RangeType = 9003) :=
  ⟨⟨_, _, rfl, ⟨by decide, by decide⟩, by decide, by decide, rfl, by decide, by decide⟩,
    ⟨_, _, rfl, ⟨by decide, by decide⟩, by decide, by decide, rfl, by decide, by decide⟩,
    ⟨_, _, rfl, ⟨by decide, by decide⟩, by decide, by decide, rfl, by decide, by decide⟩⟩


/-- C7 (amended): for every call whose root index is a declared table slot and whose
`Offset + NumHandles` is at most the declared size, with `NumHandles ≤ 31` and
`Offset + NumHandles ≤ 32` (the range the 32-bit assigned bitmap and its shifts can
express), `StageDescriptorHandles` returns and afterwards staging slot `Offset + i` of the
table holds `Handles[i]` for every `i < NumHandles`, every other staging slot is
unchanged, the assigned bitmap of the table is the old one with exactly the bits
`Offset .. Offset + NumHandles - 1` additionally set, the stale bitmap is the old one
with bit `RootIndex` additionally set, and the other fields of the table, every other
table and the table bitmap are unchanged. -/
theorem StageDescriptorHandles_post (c : DescriptorHandleCache)
    (RootIndex Offset NumHandles : Nat) (Handles : Nat → Nat)
    (hroot : RootIndex < 32) (hdecl : c.m_RootDescriptorTablesBitMap.testBit RootIndex = true)
    (hsize : Offset + NumHandles ≤ (c.m_RootDescriptorTable RootIndex).TableSize)
    (hcount : NumHandles ≤ 31) (hword : Offset + NumHandles ≤ 32) :
    ∃ c', StageDescriptorHandles c RootIndex Offset NumHandles Handles = .ok c' ∧
      (∀ i, i < NumHandles →
        c'.m_HandleCache ((c.m_RootDescriptorTable RootIndex).TableStart + Offset + i) =
          Handles i) ∧
      (∀ a, ¬ ((c.m_RootDescriptorTable RootIndex).TableStart + Offset ≤ a ∧
          a < (c.m_RootDescriptorTable RootIndex).TableStart + Offset + NumHandles) →
        c'.m_HandleCache a = c.m_HandleCache a) ∧
      (∀ k, (c'.m_RootDescriptorTable RootIndex).AssignedHandlesBitMap.testBit k =
        ((c.m_RootDescriptorTable RootIndex).AssignedHandlesBitMap.testBit k ||
          (decide (Offset ≤ k) && decide (k < Offset + NumHandles)))) ∧
      (∀ k, c'.m_StaleRootParamsBitMap.testBit k =
        (c.m_StaleRootParamsBitMap.testBit k || decide (k = RootIndex))) ∧
      (c'.m_RootDescriptorTable RootIndex).TableStart =
        (c.m_RootDescriptorTable RootIndex).TableStart ∧
      (c'.m_RootDescriptorTable RootIndex).TableSize =
        (c.m_RootDescriptorTable RootIndex).TableSize ∧
      (c'.m_RootDescriptorTable RootIndex).ParamType =
        (c.m_RootDescriptorTable RootIndex).ParamType ∧
      (c'.m_RootDescriptorTable RootIndex).RangeType =
        (c.m_RootDescriptorTable RootIndex).RangeType ∧
      (∀ r, r ≠ RootIndex → c'.m_RootDescriptorTable r = c.m_RootDescriptorTable r) ∧
      c'.m_RootDescriptorTablesBitMap = c.m_RootDescriptorTablesBitMap ∧
      c'.m_MaxCachedDescriptors = c.m_MaxCachedDescriptors := by
  refine ⟨_, StageDescriptorHandles_ok c RootIndex Offset NumHandles Handles hroot hdecl hsize, ?_, ?_, ?_, ?_, ?_, ?_, ?_, ?_, ?_, rfl, rfl⟩
  · intro i hi
    simp only [copyHandles_spec]
    rw [if_pos ⟨by omega, by omega⟩]
    congr 1
    omega
  · intro a ha
    simp only [copyHandles_spec]
    rw [if_neg ha]
  · intro k
    simp only [Function.update_same, Nat.testBit_or]
    rw [testBit_stageMask (by omega) hword]
  · intro k
    simp only [Nat.testBit_or, shl32_one hroot, Nat.testBit_two_pow]
    congr 1
    by_cases h : k = RootIndex
    · subst h; simp
    · have h' : ¬ (RootIndex = k) := fun e => h e.symm
      simp [h, h']
  · simp only [Function.update_same]
  · simp only [Function.update_same]
  · simp only [Function.update_same]
  · simp only [Function.update_same]
  · intro r hr
    simp only [Function.update_noteq hr]


/-- C7 at a call staging 3 handles at offset 2 of the table of 8 slots. -/
theorem StageDescriptorHandles_post_witness :
    ∃ c', StageDescriptorHandles parsedExample 0 2 3 someHandles = .ok c' ∧
      (∀ i, i < 3 → c'.m_HandleCache (0 + 2 + i) = someHandles i) ∧
      (∀ k, (c'.m_RootDescriptorTable 0).AssignedHandlesBitMap.testBit k =
        (decide (2 ≤ k) && decide (k < 2 + 3))) := by
  obtain ⟨c', h1, h2, _, h4, _⟩ := StageDescriptorHandles_post parsedExample 0 2 3 someHandles
    (by decide) (by decide) (by decide) (by decide) (by decide)
  refine ⟨c', h1, h2, ?_⟩
  intro k
  rw [h4 k]
  have : (parsedExample.m_RootDescriptorTable 0).AssignedHandlesBitMap = 0 := by decide
  rw [this, Nat.zero_testBit, Bool.false_or]

/-- C7 fails as stated: in a table of 40 slots, which `ParseRootSignature` accepts, the
call staging one handle at offset 35 satisfies both preconditions, yet bit 35 of the
32-bit assigned bitmap is not set afterwards. -/
theorem StageDescriptorHandles_beyond_word :
    ∃ c c', ParseRootSignature 256 blankCache 0 (tableSignature 40) = .ok c ∧
      Declared c 0 ∧ 35 + 1 ≤ (c.m_RootDescriptorTable 0).TableSize ∧
      StageDescriptorHandles c 0 35 1 someHandles = .ok c' ∧
      (c.m_RootDescriptorTable 0).AssignedHandlesBitMap.testBit 35 = false ∧
      (c'.m_RootDescriptorTable 0).AssignedHandlesBitMap.testBit 35 = false :=
  ⟨_, _, rfl, ⟨by decide, by decide⟩, by decide, rfl, by decide, by decide⟩

/-- C8: for every pool state whose queues hold heaps the device created, each at most
once, and for every completion predicate: if the heap `RequestDescriptorHeap` returns
was in the retired queue of the category on entry, then `IsFenceComplete` is true for
the fence value of its entry, for that of every entry queued before it, and that entry
is its only one; otherwise the heap was in the available queue on entry or is the heap
the device newly created. -/
theorem RequestDescriptorHeap_finished (env : Collaborators) (pool : HeapPool) (HeapType : Nat)
    (hq : QueuesDistinct pool (poolIndex HeapType)) :
    ((RequestDescriptorHeap env pool HeapType).1 ∈
        (pool.sm_RetiredDescriptorHeaps (poolIndex HeapType)).map Prod.snd →
      (∃ before fence after,
        pool.sm_RetiredDescriptorHeaps (poolIndex HeapType) =
          before ++ (fence, (RequestDescriptorHeap env pool HeapType).1) :: after ∧
        env.IsFenceComplete fence = true ∧
        ∀ e ∈ before, env.IsFenceComplete e.1 = true) ∧
      ∀ fence, (fence, (RequestDescriptorHeap env pool HeapType).1) ∈
          pool.sm_RetiredDescriptorHeaps (poolIndex HeapType) →
        env.IsFenceComplete fence = true) ∧
    ((RequestDescriptorHeap env pool HeapType).1 ∉
        (pool.sm_RetiredDescriptorHeaps (poolIndex HeapType)).map Prod.snd →
      (RequestDescriptorHeap env pool HeapType).1 ∈
          pool.sm_AvailableDescriptorHeaps (poolIndex HeapType) ∨
        ((RequestDescriptorHeap env pool HeapType).1 = pool.g_DeviceHeaps.length ∧
          (RequestDescriptorHeap env pool HeapType).2.g_DeviceHeaps =
            pool.g_DeviceHeaps ++ [(HeapType, env.kNumDescriptorsPerHeap)])) := by
  obtain ⟨hnd, hbound⟩ := hq
  obtain ⟨moved, rest, h1, h2, h3, hcase⟩ := RequestDescriptorHeap_eq env pool HeapType
  generalize (RequestDescriptorHeap env pool HeapType).1 = heap at hcase ⊢
  generalize (RequestDescriptorHeap env pool HeapType).2 = pool' at hcase ⊢
  unfold queuedHeaps at hnd hbound
  rw [h1] at hnd hbound ⊢
  rw [List.map_append] at hnd hbound ⊢
  have hd1 := List.nodup_append.1 hnd
  have hd2 := List.nodup_append.1 hd1.2.1
  rcases hcase with ⟨tail, hq1, _⟩ | ⟨hq1, hq2, hq3⟩
  · have hmem : heap ∈ pool.sm_AvailableDescriptorHeaps (poolIndex HeapType) ++
        moved.map Prod.snd := by rw [hq1]; simp
    constructor
    · intro hret
      have hmoved : heap ∈ moved.map Prod.snd := by
        rcases List.mem_append.1 hmem with h | h
        · exact absurd hret (fun hr => hd1.2.2 h hr)
        · exact h
      obtain ⟨⟨fence, heap'⟩, he, hheap⟩ := List.mem_map.1 hmoved
      simp only at hheap
      subst hheap
      obtain ⟨before, after, hsplit⟩ := List.append_of_mem he
      constructor
      · refine ⟨before, fence, after ++ rest, by rw [hsplit]; simp, h2 _ he, ?_⟩
        intro e hb
        exact h2 e (by rw [hsplit]; exact List.mem_append_left _ hb)
      · intro fence' hf
        rcases List.mem_append.1 hf with h | h
        · exact h2 _ h
        · exact absurd (List.mem_map_of_mem Prod.snd h) (fun hr => hd2.2.2 hmoved hr)
    · intro hnot
      left
      rcases List.mem_append.1 hmem with h | h
      · exact h
      · exact absurd (List.mem_append_left _ h) hnot
  · constructor
    · intro hret
      have := hbound heap (List.mem_append_right _ hret)
      omega
    · intro _
      right
      refine ⟨hq2, ?_⟩
      rw [hq3]


/-- C8 at a pool with the retired entries (5, heap 0) and (9, heap 1), fences up to 5
being complete: heap 0 is returned, and its fence value 5 is complete. -/
theorem RequestDescriptorHeap_finished_witness :
    (RequestDescriptorHeap exampleEnv retiredPool 0).1 = 0 ∧
      ∀ fence, (fence, 0) ∈ retiredPool.sm_RetiredDescriptorHeaps 0 →
        exampleEnv.IsFenceComplete fence = true :=
  ⟨rfl, ((RequestDescriptorHeap_finished exampleEnv retiredPool 0
    ⟨by decide, by decide⟩).1 (by decide)).2⟩


/-- C9: in every state reachable by the operations of the contexts, run one at a time,
each heap occurs at most once across the available queues, the retired queues, the
pending lists of the contexts and the current-heap fields; in particular no heap is the
current heap of two instances, and no heap that is current or pending retirement in a
context is in an available or a retired queue of the pool. -/
theorem heaps_loaned_exclusively (w : World) (h : Reachable w) :
    (allHeaps w).Nodup ∧
    (∀ (i j : Nat) (d1 d2 : DynamicDescriptorHeap) (heap : Nat), i ≠ j → w.contexts[i]? = some d1 → w.contexts[j]? = some d2 →
      d1.m_CurrentHeapPtr = some heap → d2.m_CurrentHeapPtr ≠ some heap) ∧
    (∀ (i : Nat) (d : DynamicDescriptorHeap) (heap : Nat), w.contexts[i]? = some d →
      (d.m_CurrentHeapPtr = some heap ∨ heap ∈ d.m_RetiredHeaps) →
      ∀ idx : Nat, idx = 0 ∨ idx = 1 →
        heap ∉ w.pool.sm_AvailableDescriptorHeaps idx ∧
        heap ∉ (w.pool.sm_RetiredDescriptorHeaps idx).map Prod.snd) := by
  have hnd := (Reachable_exclusive h).1
  refine ⟨hnd, ?_, ?_⟩
  · intro i j d1 d2 heap hij h1 h2 hc1 hc2
    have hctx := (List.nodup_append.1 hnd).2.1
    exact nodup_flatMap_index heapsOf _ hctx i j d1 d2 heap hij h1 h2
      (by simp [heapsOf, hc1]) (by simp [heapsOf, hc2])
  · intro i d heap hi hheld idx hidx
    have hmem : heap ∈ w.contexts.flatMap heapsOf := by
      rw [List.mem_flatMap]
      refine ⟨d, (List.getElem?_eq_some_iff.1 hi).2 ▸ List.getElem_mem _, ?_⟩
      rcases hheld with hc | hc
      · simp [heapsOf, hc]
      · simp [heapsOf, hc]
    have hdisj := (List.nodup_append.1 hnd).2.2
    have hq : heap ∉ queuedHeaps w.pool idx := by
      intro hin
      apply hdisj _ hmem
      rcases hidx with e | e
      · subst e; exact List.mem_append_left _ hin
      · subst e; exact List.mem_append_right _ hin
    unfold queuedHeaps at hq
    exact ⟨fun ha => hq (List.mem_append_left _ ha), fun hr => hq (List.mem_append_right _ hr)⟩


theorem startWorld_reachable : Reachable startWorld :=
  Reachable.start startWorld rfl (fun _ => ⟨rfl, rfl⟩) (by decide)

theorem uploadIn_step (env : Collaborators) (w : World) (i Handle : Nat)
    (d : DynamicDescriptorHeap) (r : Nat × HeapPool × DynamicDescriptorHeap × List DeviceCall)
    (hi : w.contexts[i]? = some d) (h : UploadDirect env w.pool d Handle = .ok r) :
    Step w (uploadIn env w i Handle) := by
  obtain ⟨gpu, pool', d', calls⟩ := r
  have e : uploadIn env w i Handle = ⟨pool', w.contexts.set i d'⟩ := by
    simp only [uploadIn, hi, h]
  rw [e]
  exact Step.uploadDirect env w i d d' Handle gpu pool' calls hi h

theorem worldAfterTwo_reachable : Reachable worldAfterTwo :=
  Reachable.step
    (Reachable.step startWorld_reachable
      (uploadIn_step exampleEnv startWorld 0 7 freshHeap _ rfl rfl))
    (uploadIn_step exampleEnv worldAfterOne 1 8 freshHeap _ rfl rfl)

/-- C9 at the state two contexts reach when each uploads one descriptor: they hold
different heaps. -/
theorem heaps_loaned_exclusively_witness :
    worldAfterTwo.contexts.map (fun d => d.m_CurrentHeapPtr) = [some 0, some 1] ∧
      (allHeaps worldAfterTwo).Nodup :=
  ⟨by decide, (heaps_loaned_exclusively worldAfterTwo worldAfterTwo_reachable).1⟩


/-- C10 at a failing input: on a freshly constructed instance whose handle caches have no
stale table, `GetHeapPointer`, and likewise `CopyAndBindStagedTables` (needed size 0),
leaves a current heap with write offset 0, and a following `RetireCurrentHeap` fails its
assertion `m_CurrentHeapPtr == nullptr`. -/
theorem invariant_broken_after_empty_bind :
    freshHeap.m_CurrentHeapPtr = none ∧ freshHeap.m_CurrentOffset = 0 ∧
    ComputeStagedSize (freshHeap.cache true) = .ok 0 ∧
    (∃ pool' d' calls,
      CopyAndBindStagedTables exampleEnv emptyPool freshHeap true = .ok (pool', d', calls) ∧
      d'.m_CurrentHeapPtr = some 0 ∧ d'.m_CurrentOffset = 0 ∧
      RetireCurrentHeap d' = .error Fault.assertion) ∧
    (∃ ptr pool' d',
      GetHeapPointer exampleEnv emptyPool freshHeap = .ok (ptr, pool', d') ∧
      d'.m_CurrentHeapPtr = some 0 ∧ d'.m_CurrentOffset = 0 ∧
      RetireCurrentHeap d' = .error Fault.assertion) :=
  ⟨rfl, rfl, rfl, ⟨_, _, _, rfl, rfl, rfl, rfl⟩, ⟨_, _, _, rfl, rfl, rfl, rfl⟩⟩



/-! ## Invariants of the handle cache -/

theorem shl32_one_mod (n : Nat) : shl32 1 n = 2 ^ (n % 32) := by
  have h := @shl32_one (n % 32) (Nat.mod_lt n (by norm_num))
  unfold shl32 at h ⊢
  rw [Nat.mod_mod] at h
  exact h

/-- Every bit of the mask `((1 << NumHandles) - 1) << Offset` lies in the 32-bit word
and below `Offset + NumHandles`. -/
theorem stageMask_testBit_lt {off n k : Nat}
    (h : (shl32 (sub32 (shl32 1 n) 1) off).testBit k = true) :
    k < 32 ∧ k < off % 32 + n % 32 := by
  rw [shl32_one_mod, sub32_two_pow_one (Nat.mod_lt n (by norm_num))] at h
  unfold shl32 at h
  rw [Nat.testBit_mod_two_pow, Nat.testBit_shiftLeft, Nat.testBit_two_pow_sub_one] at h
  simp only [Bool.and_eq_true, decide_eq_true_eq, ge_iff_le] at h
  omega

/-- A call of `StageDescriptorHandles` that returns passed both assertions and changed
the staging array, the table record of `RootIndex` and the stale bitmap as written. -/
theorem StageDescriptorHandles_eq {c c' : DescriptorHandleCache} {r off n : Nat} {H : Nat → Nat}
    (h : StageDescriptorHandles c r off n H = .ok c') :
    shl32 1 r &&& c.m_RootDescriptorTablesBitMap ≠ 0 ∧
    (off + n) % 2 ^ 32 ≤ (c.m_RootDescriptorTable r).TableSize ∧
    c' = { c with
      m_HandleCache :=
        copyHandles c.m_HandleCache ((c.m_RootDescriptorTable r).TableStart + off) H n
      m_RootDescriptorTable := Function.update c.m_RootDescriptorTable r
        { c.m_RootDescriptorTable r with
          AssignedHandlesBitMap :=
            (c.m_RootDescriptorTable r).AssignedHandlesBitMap |||
              shl32 (sub32 (shl32 1 n) 1) off }
      m_StaleRootParamsBitMap := c.m_StaleRootParamsBitMap ||| shl32 1 r } := by
  unfold StageDescriptorHandles at h
  by_cases h1 : shl32 1 r &&& c.m_RootDescriptorTablesBitMap = 0
  · rw [if_pos h1] at h; cases h
  · rw [if_neg h1] at h
    by_cases h2 : (off + n) % 2 ^ 32 ≤ (c.m_RootDescriptorTable r).TableSize
    · rw [if_neg (not_not.2 h2)] at h
      injection h with h
      exact ⟨h1, h2, h.symm⟩
    · rw [if_pos h2] at h; cases h

theorem StageDescriptorHandles_within {c c' : DescriptorHandleCache} {r off n : Nat}
    {H : Nat → Nat} (h : StageDescriptorHandles c r off n H = .ok c')
    (hsz : off + n ≤ (c.m_RootDescriptorTable r).TableSize ∨
      32 ≤ (c.m_RootDescriptorTable r).TableSize)
    (hc : AssignedWithinSize c) : AssignedWithinSize c' := by
  obtain ⟨_, _, rfl⟩ := StageDescriptorHandles_eq h
  intro r' hdecl k hk
  have hdecl' : Declared c r' := hdecl
  by_cases hr : r' = r
  · subst hr
    simp only [Function.update_same] at hk ⊢
    rw [Nat.testBit_lor, hc r' hdecl' k hk, Bool.false_or]
    by_contra hbit
    have := stageMask_testBit_lt (Bool.eq_true_of_not_eq_false hbit)
    have h1 := Nat.mod_le off 32
    have h2 := Nat.mod_le n 32
    omega
  · simp only [Function.update_noteq hr] at hk ⊢
    exact hc r' hdecl' k hk

theorem SetDefaultsFill_within (NullResource r : Nat) :
    ∀ (fuel S I o : Nat) (c c' : DescriptorHandleCache),
      SetDefaultsFill NullResource r fuel S I o c = .ok c' →
      AssignedWithinSize c → AssignedWithinSize c' := by
  intro fuel
  induction fuel with
  | zero => intro S I o c c' h; simp [SetDefaultsFill] at h
  | succ fuel ih =>
    intro S I o c c' h hc
    rw [SetDefaultsFill] at h
    cases hscan : _BitScanForward64 (S ^^^ I) with
    | none =>
      rw [hscan] at h
      injection h with h
      rw [← h]; exact hc
    | some u =>
      rw [hscan] at h
      simp only at h
      by_cases ho : o < (c.m_RootDescriptorTable r).TableSize
      · rw [if_neg (not_not.2 ho)] at h
        have hu : u < 64 := (scan64_skip hscan).1
        by_cases hpos : u > 0
        · simp only [if_pos hpos] at h
          cases hst : StageDescriptorHandles c r o u (fun _ => NullResource) with
          | error e => rw [hst] at h; cases h
          | ok c1 =>
            rw [hst] at h
            simp only at h
            have hc1 : AssignedWithinSize c1 := by
              refine StageDescriptorHandles_within hst ?_ hc
              obtain ⟨_, hguard, _⟩ := StageDescriptorHandles_eq hst
              by_cases h32 : 32 ≤ (c.m_RootDescriptorTable r).TableSize
              · exact Or.inr h32
              · left
                rw [Nat.mod_eq_of_lt (by
                  have e : (2:Nat) ^ 32 = 4294967296 := by norm_num
                  rw [e]; omega)] at hguard
                exact hguard
            split at h
            · exact ih _ _ _ _ _ h hc1
            · exact ih _ _ _ _ _ h hc1
        · simp only [if_neg hpos] at h
          split at h
          · exact ih _ _ _ _ _ h hc
          · exact ih _ _ _ _ _ h hc
      · rw [if_pos ho] at h
        injection h with h
        rw [← h]; exact hc

theorem SetDefaultsLoop_within (res : DefaultResources) :
    ∀ (fuel mask : Nat) (c c' : DescriptorHandleCache),
      SetDefaultsLoop res fuel mask c = .ok c' →
      AssignedWithinSize c → AssignedWithinSize c' := by
  intro fuel
  induction fuel with
  | zero => intro mask c c' h; simp [SetDefaultsLoop] at h
  | succ fuel ih =>
    intro mask c c' h hc
    rw [SetDefaultsLoop] at h
    cases hscan : _BitScanForward mask with
    | none =>
      rw [hscan] at h
      injection h with h
      rw [← h]; exact hc
    | some r =>
      rw [hscan] at h
      simp only at h
      split at h
      · exact ih _ _ _ h hc
      · split at h
        · exact ih _ _ _ h hc
        · split at h
          · exact ih _ _ _ h hc
          · split at h
            · split at h
              · cases h
              · rename_i c1 hfill
                exact ih _ _ _ h (SetDefaultsFill_within _ _ _ _ _ _ _ _ hfill hc)
            · exact ih _ _ _ h hc

/-- A call of `DescriptorHandleCache::UnbindAllValid` changes the stale bitmap only. -/
theorem UnbindAllValid_frame {c c' : DescriptorHandleCache} (h : c.UnbindAllValid = .ok c') :
    c' = { c with m_StaleRootParamsBitMap := c'.m_StaleRootParamsBitMap } := by
  unfold DescriptorHandleCache.UnbindAllValid at h
  split at h
  · cases h
  · injection h with h
    rw [← h]

/-- A call of `CopyAndBindStaleTables` that returns has cleared the stale bitmap and
changed nothing else of the cache. -/
theorem CopyAndBindStaleTables_frame {c c' : DescriptorHandleCache} {HeapType D : Nat}
    {dest : DescriptorHandle} {b : CopyBatch}
    (h : CopyAndBindStaleTables c HeapType D dest = .ok (c', b)) :
    c' = { c with m_StaleRootParamsBitMap := 0 } := by
  unfold CopyAndBindStaleTables at h
  split at h
  · cases h
  · split at h
    · cases h
    · simp only at h
      split at h
      · cases h
      · injection h with h
        injection h with h1 h2
        exact h1.symm

theorem CacheReachable_within {c : DescriptorHandleCache} (h : CacheReachable c) :
    AssignedWithinSize c := by
  induction h with
  | parse hp =>
    intro r hdecl k _
    rw [ParseRootSignature_assigned hp r hdecl, Nat.zero_testBit]
  | stage _ _ hsize hst ih => exact StageDescriptorHandles_within hst (Or.inl hsize) ih
  | setDefaults _ hs ih => exact SetDefaultsLoop_within _ _ _ _ _ hs ih
  | unbindAllValid _ hu ih =>
    rw [UnbindAllValid_frame hu]
    exact ih
  | copyAndBind _ hcb ih =>
    rw [CopyAndBindStaleTables_frame hcb]
    exact ih

/-! ## `UnbindAllValid` and the stale bitmap -/

theorem UnbindAllValidLoop_spec (tables : Nat → DescriptorTableCache) :
    ∀ (fuel mask stale : Nat), (setBits mask 32).length < fuel →
      ∃ s, UnbindAllValidLoop tables fuel mask stale = .ok s ∧
        ∀ k, s.testBit k = (stale.testBit k ||
          (decide (k ∈ setBits mask 32) && decide ((tables k).AssignedHandlesBitMap ≠ 0))) := by
  intro fuel
  induction fuel with
  | zero => intro mask stale h; omega
  | succ fuel ih =>
    intro mask stale hlen
    rw [UnbindAllValidLoop]
    cases hscan : _BitScanForward mask with
    | none =>
      refine ⟨stale, rfl, ?_⟩
      intro k
      simp [setBits_of_scan_none hscan]
    | some i =>
      obtain ⟨hi, _, hset⟩ := setBits_of_scan hscan
      have hlt := setBits_head_lt hscan
      rw [hset] at hlen
      simp only [List.length_cons] at hlen
      simp only
      by_cases ha : (tables i).AssignedHandlesBitMap ≠ 0
      · rw [if_pos ha]
        obtain ⟨s, hs, hbits⟩ := ih (mask ^^^ shl32 1 i) (stale ||| shl32 1 i) (by omega)
        refine ⟨s, hs, ?_⟩
        intro k
        rw [hbits k, hset, Nat.testBit_lor, shl32_one hi, Nat.testBit_two_pow]
        by_cases hk : k = i
        · subst hk
          simp [ha]
        · have hk' : ¬ i = k := fun h => hk h.symm
          simp [hk, hk']
      · rw [if_neg ha]
        obtain ⟨s, hs, hbits⟩ := ih (mask ^^^ shl32 1 i) stale (by omega)
        refine ⟨s, hs, ?_⟩
        intro k
        rw [hbits k, hset]
        by_cases hk : k = i
        · subst hk
          have hnot : k ∉ setBits (mask ^^^ shl32 1 k) 32 := fun hmem => by
            have := hlt k hmem
            omega
          simp [ha, hnot]
        · simp [hk]

/-! ## `CopyAndBindStaleTables` returns -/

theorem CollectStaleLoop_fails (tables : Nat → DescriptorTableCache) :
    ∀ (fuel mask : Nat) (R T : List Nat) (N : Nat), (setBits mask 32).length < fuel →
      (∃ r ∈ setBits mask 32, setBits (tables r).AssignedHandlesBitMap 32 = []) →
      CollectStaleLoop tables fuel mask R T N = .error Fault.assertion := by
  intro fuel
  induction fuel with
  | zero => intro mask R T N h; omega
  | succ fuel ih =>
    intro mask R T N hlen hex
    obtain ⟨r, hr, hempty⟩ := hex
    rw [CollectStaleLoop]
    cases hscan : _BitScanForward mask with
    | none =>
      rw [setBits_of_scan_none hscan] at hr
      cases hr
    | some i =>
      obtain ⟨hi, _, hset⟩ := setBits_of_scan hscan
      rw [hset] at hlen hr
      simp only [List.length_cons] at hlen
      simp only
      cases hrev : _BitScanReverse (tables i).AssignedHandlesBitMap with
      | none => rfl
      | some m =>
        simp only
        have hne : r ≠ i := by
          intro h
          subst h
          obtain ⟨hm, hbit, _⟩ := highestSetBit_of_scan hrev
          have : m ∈ setBits (tables r).AssignedHandlesBitMap 32 := mem_setBits.2 ⟨hm, hbit⟩
          rw [hempty] at this
          cases this
        rcases List.mem_cons.1 hr with h | h
        · exact absurd h hne
        · exact ih _ _ _ _ (by omega) ⟨r, h, hempty⟩

theorem CopyAndBindLoop_ok (HeapType D : Nat) (c : DescriptorHandleCache) :
    ∀ (es : List (Nat × Nat)) (dest : DescriptorHandle) (b : CopyBatch),
      (∀ e ∈ es, (c.m_RootDescriptorTable e.1).AssignedHandlesBitMap < 2 ^ 32) →
      ∃ b', CopyAndBindLoop HeapType D c es dest b = .ok b' := by
  intro es
  induction es with
  | nil => intro dest b _; exact ⟨b, rfl⟩
  | cons e rest ih =>
    intro dest b hall
    obtain ⟨r, size⟩ := e
    rw [CopyAndBindLoop]
    obtain ⟨b1, hb1, _⟩ := CopyTableLoop_binds HeapType D c.m_HandleCache 65 32
      (c.m_RootDescriptorTable r).AssignedHandlesBitMap (c.m_RootDescriptorTable r).TableStart
      dest.m_CpuHandle
      { b with calls := b.calls ++ [DeviceCall.SetFunc r dest.m_GpuHandle] }
      (hall (r, size) (List.mem_cons_self _ _)) (by norm_num) (by norm_num)
    rw [hb1]
    exact ih _ _ (fun e he => hall e (List.mem_cons_of_mem _ he))

/-! ## `ParseRootSignature` and `StageDescriptorHandles` without 32-bit wrap-around -/

theorem shl32_and_eq_zero {r bitmap : Nat} (hr : r < 32) (hb : bitmap.testBit r = false) :
    shl32 1 r &&& bitmap = 0 := by
  rw [shl32_one hr]
  apply Nat.eq_of_testBit_eq
  intro i
  rw [Nat.testBit_and, Nat.testBit_two_pow, Nat.zero_testBit]
  by_cases h : r = i
  · subst h
    simp [hb]
  · simp [h]

/-- When `Offset + NumHandles` does not leave the 32-bit word and the root index is
below 32, `StageDescriptorHandles` fails, with an assertion, exactly when the root index
is not a declared table slot or `Offset + NumHandles` exceeds the declared size. -/
theorem StageDescriptorHandles_rejects (c : DescriptorHandleCache) (r off n : Nat)
    (H : Nat → Nat) (hr : r < 32) (hsum : off + n < 2 ^ 32) :
    (StageDescriptorHandles c r off n H = .error Fault.assertion ↔
      (¬ Declared c r ∨ (c.m_RootDescriptorTable r).TableSize < off + n)) ∧
    ((Declared c r ∧ off + n ≤ (c.m_RootDescriptorTable r).TableSize) →
      ∃ c', StageDescriptorHandles c r off n H = .ok c') := by
  have hmod : (off + n) % 2 ^ 32 = off + n := Nat.mod_eq_of_lt hsum
  constructor
  · constructor
    · intro h
      by_contra hcon
      push_neg at hcon
      obtain ⟨hdecl, hsize⟩ := hcon
      rw [StageDescriptorHandles_ok c r off n H hr hdecl.2 hsize] at h
      cases h
    · intro h
      unfold StageDescriptorHandles
      by_cases hbit : c.m_RootDescriptorTablesBitMap.testBit r = true
      · have hsize : (c.m_RootDescriptorTable r).TableSize < off + n := by
          rcases h with h | h
          · exact absurd ⟨hr, hbit⟩ h
          · exact h
        rw [if_neg (shl32_and_ne_zero hr hbit), hmod, if_pos (by omega)]
      · rw [if_pos (shl32_and_eq_zero hr (by simpa using hbit))]
  · rintro ⟨hdecl, hsize⟩
    exact ⟨_, StageDescriptorHandles_ok c r off n H hr hdecl.2 hsize⟩

theorem filter_lt_head {i : Nat} {rest : List Nat} (h : ∀ r ∈ rest, i < r) :
    (i :: rest).filter (fun j => decide (j < i)) = [] := by
  rw [List.filter_eq_nil_iff]
  intro j hj
  rcases List.mem_cons.1 hj with e | e
  · subst e; simp
  · have := h j e
    simp only [decide_eq_true_eq]
    omega

theorem filter_lt_tail {i r : Nat} (rest : List Nat) (h : i < r) :
    (i :: rest).filter (fun j => decide (j < r)) = i :: rest.filter (fun j => decide (j < r)) := by
  rw [List.filter_cons_of_pos (by simpa using h)]

/-- The loop of `ParseRootSignature` when the table sizes are non-zero and the running
offset does not leave the 32-bit word: every table of `mask` gets an empty assigned
bitmap, its size and kinds from the signature, and the region after the regions of the
tables of smaller root index; the other records are untouched. -/
theorem ParseRootSignatureLoop_layout (RootSig : RootSignature) :
    ∀ (fuel mask : Nat) (tables : Nat → DescriptorTableCache) (off : Nat),
      (setBits mask 32).length < fuel →
      (∀ r ∈ setBits mask 32, 0 < RootSig.m_DescriptorTableSize r) →
      off + ((setBits mask 32).map RootSig.m_DescriptorTableSize).sum < 2 ^ 32 →
      ∃ tables', ParseRootSignatureLoop RootSig fuel mask tables off =
          .ok (tables', off + ((setBits mask 32).map RootSig.m_DescriptorTableSize).sum) ∧
        (∀ r ∈ setBits mask 32, tables' r =
          { AssignedHandlesBitMap := 0
            TableStart := off + (((setBits mask 32).filter (fun j => decide (j < r))).map
              RootSig.m_DescriptorTableSize).sum
            TableSize := RootSig.m_DescriptorTableSize r
            ParamType := RootSig.GetType r
            RangeType := RootSig.GetRangeType r }) ∧
        (∀ r, r ∉ setBits mask 32 → tables' r = tables r) := by
  intro fuel
  induction fuel with
  | zero => intro mask tables off h; omega
  | succ fuel ih =>
    intro mask tables off hlen hpos hfit
    rw [ParseRootSignatureLoop]
    cases hscan : _BitScanForward mask with
    | none =>
      rw [setBits_of_scan_none hscan]
      exact ⟨tables, by simp, by simp, fun _ _ => rfl⟩
    | some i =>
      obtain ⟨hi, _, hset⟩ := setBits_of_scan hscan
      have hlt := setBits_head_lt hscan
      rw [hset] at hlen hpos hfit ⊢
      simp only [List.length_cons] at hlen
      simp only [List.map_cons, List.sum_cons] at hfit ⊢
      have hsz : 0 < RootSig.m_DescriptorTableSize i := hpos i (List.mem_cons_self _ _)
      rw [if_neg (not_not.2 hsz),
        Nat.mod_eq_of_lt (by omega : off + RootSig.m_DescriptorTableSize i < 2 ^ 32)]
      obtain ⟨tables', hrun, hin, hout⟩ := ih (mask ^^^ shl32 1 i)
        (Function.update tables i
          { AssignedHandlesBitMap := 0
            TableStart := off
            TableSize := RootSig.m_DescriptorTableSize i
            ParamType := RootSig.GetType i
            RangeType := RootSig.GetRangeType i })
        (off + RootSig.m_DescriptorTableSize i) (by omega)
        (fun r hr => hpos r (List.mem_cons_of_mem _ hr)) (by omega)
      refine ⟨tables', by rw [hrun, Nat.add_assoc], ?_, ?_⟩
      · intro r hr
        rcases List.mem_cons.1 hr with e | e
        · subst e
          have hnot : r ∉ setBits (mask ^^^ shl32 1 r) 32 := fun hmem => by
            have := hlt r hmem
            omega
          rw [hout r hnot, Function.update_same, filter_lt_head hlt]
          simp
        · rw [hin r e, filter_lt_tail _ (hlt r e)]
          simp [Nat.add_assoc]
      · intro r hr
        have hne : r ≠ i := fun e => hr (e ▸ List.mem_cons_self _ _)
        have hnot : r ∉ setBits (mask ^^^ shl32 1 i) 32 := fun hmem =>
          hr (List.mem_cons_of_mem _ hmem)
        rw [hout r hnot, Function.update_noteq hne]

theorem sum_filter_lt_le (f : Nat → Nat) : ∀ (L : List Nat) (r : Nat), L.Sorted (· < ·) →
    r ∈ L → ((L.filter (fun j => decide (j < r))).map f).sum + f r ≤ (L.map f).sum := by
  intro L
  induction L with
  | nil => intro r _ h; cases h
  | cons a t ih =>
    intro r hs hr
    have hat : ∀ x ∈ t, a < x := (List.sorted_cons.1 hs).1
    rcases List.mem_cons.1 hr with e | e
    · subst e
      rw [filter_lt_head hat]
      simp
    · rw [filter_lt_tail _ (hat r e)]
      have := ih r (List.sorted_cons.1 hs).2 e
      simp only [List.map_cons, List.sum_cons]
      omega

theorem sum_filter_lt_mono (f : Nat → Nat) : ∀ (L : List Nat) (r1 r2 : Nat), L.Sorted (· < ·) →
    r1 ∈ L → r1 < r2 →
    ((L.filter (fun j => decide (j < r1))).map f).sum + f r1 ≤
      ((L.filter (fun j => decide (j < r2))).map f).sum := by
  intro L
  induction L with
  | nil => intro r1 r2 _ h; cases h
  | cons a t ih =>
    intro r1 r2 hs hr hlt
    have hat : ∀ x ∈ t, a < x := (List.sorted_cons.1 hs).1
    rcases List.mem_cons.1 hr with e | e
    · subst e
      rw [filter_lt_head hat, filter_lt_tail _ hlt]
      simp
    · have ha : a < r1 := hat r1 e
      rw [filter_lt_tail _ ha, filter_lt_tail _ (by omega : a < r2)]
      have := ih r1 r2 (List.sorted_cons.1 hs).2 e hlt
      simp only [List.map_cons, List.sum_cons]
      omega

/-- The operation `ParseRootSignature` on a root signature with at most 16 parameters
and non-zero table sizes whose declared sizes sum below `2 ^ 32`: the call fails, with an assertion,
exactly when the sum exceeds `kMaxNumDescriptors`; when it returns, the stale bitmap is
0, the table bitmap is the bitmap of the category, `m_MaxCachedDescriptors` is the sum,
and every declared table has an empty assigned bitmap, the size of the signature and
the region that starts at the sum of the sizes of the declared tables of smaller root
index, which ends inside the first `m_MaxCachedDescriptors` slots and before the region
of every declared table of larger root index. -/
theorem ParseRootSignature_layout (kMaxNumDescriptors : Nat) (c0 : DescriptorHandleCache)
    (HeapType : Nat) (RootSig : RootSignature) (hparams : RootSig.m_NumParameters ≤ 16)
    (hpos : ∀ r ∈ setBits (if HeapType = D3D12_DESCRIPTOR_HEAP_TYPE_SAMPLER then
        RootSig.m_SamplerTableBitMap else RootSig.m_DescriptorTableBitMap) 32,
      0 < RootSig.m_DescriptorTableSize r)
    (hfit : declaredTotal RootSig HeapType < 2 ^ 32) :
    (ParseRootSignature kMaxNumDescriptors c0 HeapType RootSig = .error Fault.assertion ↔
      kMaxNumDescriptors < declaredTotal RootSig HeapType) ∧
    (declaredTotal RootSig HeapType ≤ kMaxNumDescriptors →
      ∃ c, ParseRootSignature kMaxNumDescriptors c0 HeapType RootSig = .ok c) ∧
    ∀ c, ParseRootSignature kMaxNumDescriptors c0 HeapType RootSig = .ok c →
      c.m_MaxCachedDescriptors = declaredTotal RootSig HeapType ∧
      c.m_StaleRootParamsBitMap = 0 ∧
      c.m_RootDescriptorTablesBitMap =
        (if HeapType = D3D12_DESCRIPTOR_HEAP_TYPE_SAMPLER then RootSig.m_SamplerTableBitMap
          else RootSig.m_DescriptorTableBitMap) ∧
      (∀ r, Declared c r →
        (c.m_RootDescriptorTable r).AssignedHandlesBitMap = 0 ∧
        (c.m_RootDescriptorTable r).TableSize = RootSig.m_DescriptorTableSize r ∧
        (c.m_RootDescriptorTable r).TableStart =
          (((setBits c.m_RootDescriptorTablesBitMap 32).filter (fun j => decide (j < r))).map
            RootSig.m_DescriptorTableSize).sum ∧
        (c.m_RootDescriptorTable r).TableStart + (c.m_RootDescriptorTable r).TableSize ≤
          c.m_MaxCachedDescriptors) ∧
      (∀ r1 r2, Declared c r1 → Declared c r2 → r1 < r2 →
        (c.m_RootDescriptorTable r1).TableStart + (c.m_RootDescriptorTable r1).TableSize ≤
          (c.m_RootDescriptorTable r2).TableStart) := by
  obtain ⟨tables', hrun, hin, _⟩ := ParseRootSignatureLoop_layout RootSig 33
    (if HeapType = D3D12_DESCRIPTOR_HEAP_TYPE_SAMPLER then RootSig.m_SamplerTableBitMap
      else RootSig.m_DescriptorTableBitMap) c0.m_RootDescriptorTable 0
    (Nat.lt_succ_of_le (setBits_length_le _ _)) hpos (by rw [Nat.zero_add]; exact hfit)
  rw [Nat.zero_add] at hrun
  have hparse : ParseRootSignature kMaxNumDescriptors c0 HeapType RootSig =
      if ¬ (declaredTotal RootSig HeapType ≤ kMaxNumDescriptors) then .error Fault.assertion
      else .ok { c0 with
        m_StaleRootParamsBitMap := 0
        m_RootDescriptorTablesBitMap :=
          (if HeapType = D3D12_DESCRIPTOR_HEAP_TYPE_SAMPLER then RootSig.m_SamplerTableBitMap
            else RootSig.m_DescriptorTableBitMap)
        m_RootDescriptorTable := tables'
        m_MaxCachedDescriptors := declaredTotal RootSig HeapType } := by
    unfold ParseRootSignature
    rw [if_neg (not_not.2 hparams)]
    simp only
    rw [hrun]
    rfl
  rw [hparse]
  refine ⟨?_, ?_, ?_⟩
  · constructor
    · intro h
      by_contra hcon
      rw [if_neg (not_not.2 (Nat.le_of_not_lt hcon))] at h
      cases h
    · intro h
      rw [if_pos (Nat.not_le.2 h)]
  · intro h
    rw [if_neg (not_not.2 h)]
    exact ⟨_, rfl⟩
  · intro c hc
    by_cases hle : declaredTotal RootSig HeapType ≤ kMaxNumDescriptors
    · rw [if_neg (not_not.2 hle)] at hc
      injection hc with hc
      subst hc
      have hsorted := setBits_sorted (if HeapType = D3D12_DESCRIPTOR_HEAP_TYPE_SAMPLER then
        RootSig.m_SamplerTableBitMap else RootSig.m_DescriptorTableBitMap) 32
      refine ⟨rfl, rfl, rfl, ?_, ?_⟩
      · intro r hdecl
        have hmem := mem_setBits.2 hdecl
        show (tables' r).AssignedHandlesBitMap = 0 ∧ (tables' r).TableSize = _ ∧
          (tables' r).TableStart = _ ∧ (tables' r).TableStart + (tables' r).TableSize ≤ _
        rw [hin r hmem]
        simp only [Nat.zero_add, true_and]
        exact sum_filter_lt_le _ _ r hsorted hmem
      · intro r1 r2 hd1 hd2 hlt
        have hm1 := mem_setBits.2 hd1
        have hm2 := mem_setBits.2 hd2
        show (tables' r1).TableStart + (tables' r1).TableSize ≤ (tables' r2).TableStart
        rw [hin r1 hm1, hin r2 hm2]
        simp only [Nat.zero_add]
        exact sum_filter_lt_mono _ _ r1 r2 hsorted hm1 hlt
    · rw [if_pos hle] at hc
      cases hc

/-! ## Reachable cache states, staging and parsing -/

/-- C11 fails on the code: after `ParseRootSignature` on a signature with one table of 8
slots, the call `StageDescriptorHandles(0, 0, 0, Handles)` satisfies both preconditions
and returns, the state it leaves is reachable, its stale bitmap has bit 0 set, and the
assigned bitmap of table 0 is zero; `CopyAndBindStaleTables` then fails its assertion
that a stale table has an assigned slot. -/
theorem stale_table_without_assigned_slot :
    ∃ c c', ParseRootSignature 256 blankCache 0 (tableSignature 8) = .ok c ∧
      Declared c 0 ∧ 0 + 0 ≤ (c.m_RootDescriptorTable 0).TableSize ∧
      StageDescriptorHandles c 0 0 0 someHandles = .ok c' ∧
      CacheReachable c' ∧
      c'.m_StaleRootParamsBitMap.testBit 0 = true ∧ Declared c' 0 ∧
      (c'.m_RootDescriptorTable 0).AssignedHandlesBitMap = 0 ∧
      ∀ HeapType DescriptorSize DestHandleStart,
        CopyAndBindStaleTables c' HeapType DescriptorSize DestHandleStart =
          .error Fault.assertion :=
  ⟨_, _, rfl, ⟨by decide, by decide⟩, by decide, rfl,
    @CacheReachable.stage parsedExample _ 0 0 0 someHandles
      (@CacheReachable.parse 256 blankCache parsedExample 0 (tableSignature 8) rfl)
      ⟨by decide, by decide⟩ (by decide) rfl,
    by decide, ⟨by decide, by decide⟩, rfl, fun _ _ _ => rfl⟩

/-- C12: in every cache state reachable from `ParseRootSignature` by calls of
`StageDescriptorHandles` that satisfy its preconditions, of `SetDefaults`, of
`UnbindAllValid` and of `CopyAndBindStaleTables`, the assigned bitmap of every declared
table has no bit set at an index at or above the table's declared size. -/
theorem assigned_bits_below_declared_size (c : DescriptorHandleCache) (h : CacheReachable c) :
    ∀ r, Declared c r → ∀ k, (c.m_RootDescriptorTable r).TableSize ≤ k →
      (c.m_RootDescriptorTable r).AssignedHandlesBitMap.testBit k = false := by
  change AssignedWithinSize c
  induction h with
  | parse hp =>
    intro r hdecl k _
    rw [ParseRootSignature_assigned hp r hdecl, Nat.zero_testBit]
  | stage _ _ hsize hst ih => exact StageDescriptorHandles_within hst (Or.inl hsize) ih
  | setDefaults _ hs ih => exact SetDefaultsLoop_within _ _ _ _ _ hs ih
  | unbindAllValid _ hu ih =>
    rw [UnbindAllValid_frame hu]
    exact ih
  | copyAndBind _ hcb ih =>
    rw [CopyAndBindStaleTables_frame hcb]
    exact ih

/-- The state with slots 0..4 of the table of 8 slots staged is reachable. -/
theorem stagedExample_cacheReachable : CacheReachable stagedExample :=
  @CacheReachable.stage parsedExample stagedExample 0 0 5 someHandles
    (@CacheReachable.parse 256 blankCache parsedExample 0 (tableSignature 8) rfl)
    ⟨by decide, by decide⟩ (by decide) rfl

/-- C12 at the table of 8 slots with slots 0..4 staged: the assigned bitmap is 31 and no
bit at index 8 or above is set. -/
theorem assigned_bits_below_declared_size_witness :
    CacheReachable stagedExample ∧
      (stagedExample.m_RootDescriptorTable 0).AssignedHandlesBitMap = 31 ∧
      (stagedExample.m_RootDescriptorTable 0).TableSize = 8 ∧
      ∀ k, 8 ≤ k →
        (stagedExample.m_RootDescriptorTable 0).AssignedHandlesBitMap.testBit k = false :=
  ⟨stagedExample_cacheReachable, rfl, rfl,
    assigned_bits_below_declared_size stagedExample stagedExample_cacheReachable 0
      ⟨by decide, by decide⟩⟩

/-- C13 fails on the code: on a declared table of 8 slots the call
`StageDescriptorHandles(0, 0xFFFFFFFF, 1, Handles)` has `Offset + NumHandles = 2 ^ 32`,
far beyond the declared size, yet the 32-bit sum the assertion compares is 0: the call
returns, marks the table stale and has stored `Handles[0]` at `TableStart + 0xFFFFFFFF`. -/
theorem StageDescriptorHandles_accepts_wrapped_sum :
    ∃ c c', ParseRootSignature 256 blankCache 0 (tableSignature 8) = .ok c ∧
      Declared c 0 ∧ (c.m_RootDescriptorTable 0).TableSize = 8 ∧
      4294967295 < 2 ^ 32 ∧
      (c.m_RootDescriptorTable 0).TableSize < 4294967295 + 1 ∧
      (4294967295 + 1) % 2 ^ 32 = 0 ∧
      StageDescriptorHandles c 0 4294967295 1 someHandles = .ok c' ∧
      c.m_StaleRootParamsBitMap = 0 ∧ c'.m_StaleRootParamsBitMap = 1 ∧
      c.m_HandleCache ((c.m_RootDescriptorTable 0).TableStart + 4294967295) = 0 ∧
      c'.m_HandleCache ((c.m_RootDescriptorTable 0).TableStart + 4294967295) =
        someHandles 0 ∧
      c.m_MaxCachedDescriptors = 8 :=
  ⟨_, _, rfl, ⟨by decide, by decide⟩, rfl, by decide, by decide, by decide, rfl, rfl, rfl,
    rfl, rfl, rfl⟩

/-- C14 fails on the code: the root signature with tables of `0xFFFFFFFF`, 1 and 5
descriptors has 3 parameters and non-zero table sizes, its declared sizes sum to
`2 ^ 32 + 5`, more than the capacity 256, yet `ParseRootSignature` returns, with
`m_MaxCachedDescriptors = 5`: `CurrentOffset` is accumulated in 32 bits. -/
theorem ParseRootSignature_accepts_wrapped_total :
    wrapSignature.m_NumParameters ≤ 16 ∧
      (∀ r ∈ setBits wrapSignature.m_DescriptorTableBitMap 32,
        0 < wrapSignature.m_DescriptorTableSize r ∧
          wrapSignature.m_DescriptorTableSize r < 2 ^ 32) ∧
      declaredTotal wrapSignature 0 = 4294967301 ∧
      256 < declaredTotal wrapSignature 0 ∧
      ∃ c, ParseRootSignature 256 blankCache 0 wrapSignature = .ok c ∧
        c.m_MaxCachedDescriptors = 5 ∧ c.m_MaxCachedDescriptors ≠ declaredTotal wrapSignature 0 :=
  ⟨by decide, by decide, by decide, by decide, _, rfl, rfl, by decide⟩

/-- C15 fails on the code: after the successful `ParseRootSignature` on the root signature
with tables of `0xFFFFFFFF`, 1 and 5 descriptors, table 2 starts at staging slot 0
although the tables of smaller root index have `2 ^ 32` slots in total, so that its
region overlaps the region of table 0, and table 1 starts at slot `0xFFFFFFFF`, outside
the first `m_MaxCachedDescriptors = 5` slots. -/
theorem ParseRootSignature_regions_overlap :
    ∃ c, ParseRootSignature 256 blankCache 0 wrapSignature = .ok c ∧
      Declared c 0 ∧ Declared c 1 ∧ Declared c 2 ∧
      (c.m_RootDescriptorTable 0).TableSize + (c.m_RootDescriptorTable 1).TableSize =
        4294967296 ∧
      (c.m_RootDescriptorTable 2).TableStart = 0 ∧
      (c.m_RootDescriptorTable 0).TableStart = 0 ∧
      0 < (c.m_RootDescriptorTable 0).TableSize ∧ 0 < (c.m_RootDescriptorTable 2).TableSize ∧
      c.m_MaxCachedDescriptors = 5 ∧
      (c.m_RootDescriptorTable 1).TableStart = 4294967295 ∧
      ¬ ((c.m_RootDescriptorTable 1).TableStart + (c.m_RootDescriptorTable 1).TableSize ≤
        c.m_MaxCachedDescriptors) :=
  ⟨_, rfl, ⟨by decide, by decide⟩, ⟨by decide, by decide⟩, ⟨by decide, by decide⟩, rfl, rfl,
    rfl, by decide, by decide, rfl, rfl, by decide⟩

/-! ## The stale bitmap after `UnbindAllValid` and `CopyAndBindStaleTables` -/

/-- C16: for every cache state `DescriptorHandleCache::UnbindAllValid` returns, and
afterwards the stale bitmap has exactly the bits of the declared table indices whose
assigned bitmap is non-zero, while the table records (their assigned bitmaps among
them), the table bitmap and the staged handles are unchanged. -/
theorem UnbindAllValid_marks_assigned_tables (c : DescriptorHandleCache) :
    ∃ c', c.UnbindAllValid = .ok c' ∧
      (∀ r, c'.m_StaleRootParamsBitMap.testBit r = true ↔
        Declared c r ∧ (c.m_RootDescriptorTable r).AssignedHandlesBitMap ≠ 0) ∧
      c'.m_RootDescriptorTable = c.m_RootDescriptorTable ∧
      c'.m_RootDescriptorTablesBitMap = c.m_RootDescriptorTablesBitMap ∧
      c'.m_HandleCache = c.m_HandleCache ∧
      c'.m_MaxCachedDescriptors = c.m_MaxCachedDescriptors := by
  obtain ⟨s, hs, hbits⟩ := UnbindAllValidLoop_spec c.m_RootDescriptorTable 33
    c.m_RootDescriptorTablesBitMap 0
    (Nat.lt_succ_of_le (setBits_length_le _ _))
  refine ⟨{ c with m_StaleRootParamsBitMap := s }, ?_, ?_, rfl, rfl, rfl, rfl⟩
  · unfold DescriptorHandleCache.UnbindAllValid
    rw [hs]
  · intro r
    show s.testBit r = true ↔ _
    rw [hbits r, Nat.zero_testBit, Bool.false_or, Bool.and_eq_true, decide_eq_true_eq,
      decide_eq_true_eq, mem_setBits]
    rfl

/-- C17: for every starting cache state whose assigned bitmaps are 32-bit words, whenever
`CopyAndBindStaleTables` returns, the stale bitmap is 0 and the table records (their
assigned bitmaps among them), the table bitmap and the staged handles are as before;
the operation returns when its two assertions hold, that is when every stale table has
an assigned slot and at most 16 tables are stale, and fails an assertion otherwise. -/
theorem CopyAndBindStaleTables_clears_stale (c : DescriptorHandleCache)
    (HeapType DescriptorSize : Nat) (DestHandleStart : DescriptorHandle)
    (hword : ∀ r, r < 32 → (c.m_RootDescriptorTable r).AssignedHandlesBitMap < 2 ^ 32) :
    (∀ c' b, CopyAndBindStaleTables c HeapType DescriptorSize DestHandleStart = .ok (c', b) →
      c'.m_StaleRootParamsBitMap = 0 ∧
      c'.m_RootDescriptorTable = c.m_RootDescriptorTable ∧
      c'.m_RootDescriptorTablesBitMap = c.m_RootDescriptorTablesBitMap ∧
      c'.m_HandleCache = c.m_HandleCache ∧
      c'.m_MaxCachedDescriptors = c.m_MaxCachedDescriptors) ∧
    (((∀ r, r < 32 → c.m_StaleRootParamsBitMap.testBit r = true →
          (c.m_RootDescriptorTable r).AssignedHandlesBitMap ≠ 0) ∧
        (setBits c.m_StaleRootParamsBitMap 32).length ≤ kMaxNumDescriptorTables) →
      ∃ c' b, CopyAndBindStaleTables c HeapType DescriptorSize DestHandleStart = .ok (c', b)) ∧
    (¬ ((∀ r, r < 32 → c.m_StaleRootParamsBitMap.testBit r = true →
          (c.m_RootDescriptorTable r).AssignedHandlesBitMap ≠ 0) ∧
        (setBits c.m_StaleRootParamsBitMap 32).length ≤ kMaxNumDescriptorTables) →
      CopyAndBindStaleTables c HeapType DescriptorSize DestHandleStart =
        .error Fault.assertion) := by
  have hlen : (setBits c.m_StaleRootParamsBitMap 32).length < 33 :=
    Nat.lt_succ_of_le (setBits_length_le _ _)
  refine ⟨?_, ?_, ?_⟩
  · intro c' b h
    rw [CopyAndBindStaleTables_frame h]
    exact ⟨rfl, rfl, rfl, rfl, rfl⟩
  · rintro ⟨hassigned, hcount⟩
    have hne : ∀ r ∈ setBits c.m_StaleRootParamsBitMap 32,
        setBits (c.m_RootDescriptorTable r).AssignedHandlesBitMap 32 ≠ [] := by
      intro r hr
      obtain ⟨h1, h2⟩ := mem_setBits.1 hr
      exact setBits_ne_nil (hassigned r h1 h2) (hword r h1)
    have hcollect := CollectStaleLoop_ok c.m_RootDescriptorTable 33 c.m_StaleRootParamsBitMap
      [] [] 0 hlen hne (by norm_num)
    obtain ⟨b, hb⟩ := CopyAndBindLoop_ok HeapType DescriptorSize
      { c with m_StaleRootParamsBitMap := 0 }
      ((setBits c.m_StaleRootParamsBitMap 32).zip
        ((setBits c.m_StaleRootParamsBitMap 32).map
          (fun r => highestSetBit (c.m_RootDescriptorTable r).AssignedHandlesBitMap + 1)))
      DestHandleStart ⟨[], [], [], false⟩
      (by
        intro e he
        have hmem := (List.of_mem_zip he).1
        exact hword e.1 (mem_setBits.1 hmem).1)
    refine ⟨{ c with m_StaleRootParamsBitMap := 0 }, b.copyDescriptors HeapType, ?_⟩
    unfold CopyAndBindStaleTables
    rw [hcollect]
    simp only [List.nil_append]
    rw [if_neg (not_not.2 hcount)]
    show (match CopyAndBindLoop HeapType DescriptorSize { c with m_StaleRootParamsBitMap := 0 }
        ((setBits c.m_StaleRootParamsBitMap 32).zip
          ((setBits c.m_StaleRootParamsBitMap 32).map
            (fun r => highestSetBit (c.m_RootDescriptorTable r).AssignedHandlesBitMap + 1)))
        DestHandleStart ⟨[], [], [], false⟩ with
      | Except.error e => Except.error e
      | Except.ok b =>
        (Except.ok ({ c with m_StaleRootParamsBitMap := 0 }, b.copyDescriptors HeapType) :
          Except Fault (DescriptorHandleCache × CopyBatch))) = _
    rw [hb]
  · intro hnot
    by_cases hassigned : ∀ r, r < 32 → c.m_StaleRootParamsBitMap.testBit r = true →
        (c.m_RootDescriptorTable r).AssignedHandlesBitMap ≠ 0
    · have hcount : ¬ (setBits c.m_StaleRootParamsBitMap 32).length ≤ kMaxNumDescriptorTables :=
        fun h => hnot ⟨hassigned, h⟩
      have hne : ∀ r ∈ setBits c.m_StaleRootParamsBitMap 32,
          setBits (c.m_RootDescriptorTable r).AssignedHandlesBitMap 32 ≠ [] := by
        intro r hr
        obtain ⟨h1, h2⟩ := mem_setBits.1 hr
        exact setBits_ne_nil (hassigned r h1 h2) (hword r h1)
      have hcollect := CollectStaleLoop_ok c.m_RootDescriptorTable 33 c.m_StaleRootParamsBitMap
        [] [] 0 hlen hne (by norm_num)
      unfold CopyAndBindStaleTables
      rw [hcollect]
      simp only [List.nil_append]
      rw [if_pos hcount]
    · push_neg at hassigned
      obtain ⟨r, h1, h2, h3⟩ := hassigned
      have hfail := CollectStaleLoop_fails c.m_RootDescriptorTable 33 c.m_StaleRootParamsBitMap
        [] [] 0 hlen ⟨r, mem_setBits.2 ⟨h1, h2⟩, by
          rw [h3]
          exact setBits_eq_nil (fun j _ => Nat.zero_testBit j)⟩
      unfold CopyAndBindStaleTables
      rw [hfail]

/-- C17 at the table of 8 slots with slots 0..4 staged: the operation returns and the
stale bitmap, 1 before, is 0 afterwards. -/
theorem CopyAndBindStaleTables_clears_stale_witness :
    stagedExample.m_StaleRootParamsBitMap = 1 ∧
      ∃ c' b, CopyAndBindStaleTables stagedExample 0 32 ⟨4096, 8192⟩ = .ok (c', b) ∧
        c'.m_StaleRootParamsBitMap = 0 ∧
        (c'.m_RootDescriptorTable 0).AssignedHandlesBitMap = 31 := by
  have hword : ∀ r, r < 32 →
      (stagedExample.m_RootDescriptorTable r).AssignedHandlesBitMap < 2 ^ 32 := by decide
  have h := CopyAndBindStaleTables_clears_stale stagedExample 0 32 ⟨4096, 8192⟩ hword
  obtain ⟨c', b, hok⟩ := h.2.1 ⟨by decide, by decide⟩
  obtain ⟨h1, h2, _⟩ := h.1 c' b hok
  exact ⟨rfl, c', b, hok, h1, by rw [h2]; rfl⟩

/-! ## Requesting and retiring heaps -/

/-- C18: `RequestDescriptorHeap` first moves the longest front part `moved` of the retired
queue whose fences are complete to the back of the available queue. If the available
queue is then non-empty, the call returns its oldest element and removes it, and the
permanent pool and the heaps of the device are unchanged; otherwise the device creates
exactly one heap, of `kNumDescriptorsPerHeap` slots and the requested type, which is
appended to the permanent pool of the category and returned. The queues and the pool
of the other category are unchanged in both cases. -/
theorem RequestDescriptorHeap_pops_or_creates (env : Collaborators) (pool : HeapPool)
    (HeapType : Nat) :
    ∃ moved rest,
      pool.sm_RetiredDescriptorHeaps (poolIndex HeapType) = moved ++ rest ∧
      (∀ e ∈ moved, env.IsFenceComplete e.1 = true) ∧
      (∀ e, rest.head? = some e → env.IsFenceComplete e.1 = false) ∧
      (RequestDescriptorHeap env pool HeapType).2.sm_RetiredDescriptorHeaps (poolIndex HeapType) =
        rest ∧
      (∀ x tail,
        pool.sm_AvailableDescriptorHeaps (poolIndex HeapType) ++ moved.map Prod.snd = x :: tail →
          (RequestDescriptorHeap env pool HeapType).1 = x ∧
          (RequestDescriptorHeap env pool HeapType).2.sm_AvailableDescriptorHeaps
            (poolIndex HeapType) = tail ∧
          (RequestDescriptorHeap env pool HeapType).2.sm_DescriptorHeapPool =
            pool.sm_DescriptorHeapPool ∧
          (RequestDescriptorHeap env pool HeapType).2.g_DeviceHeaps = pool.g_DeviceHeaps) ∧
      (pool.sm_AvailableDescriptorHeaps (poolIndex HeapType) ++ moved.map Prod.snd = [] →
          (RequestDescriptorHeap env pool HeapType).1 = pool.g_DeviceHeaps.length ∧
          (RequestDescriptorHeap env pool HeapType).2.g_DeviceHeaps =
            pool.g_DeviceHeaps ++ [(HeapType, env.kNumDescriptorsPerHeap)] ∧
          (RequestDescriptorHeap env pool HeapType).2.sm_DescriptorHeapPool (poolIndex HeapType) =
            pool.sm_DescriptorHeapPool (poolIndex HeapType) ++
              [(RequestDescriptorHeap env pool HeapType).1] ∧
          (RequestDescriptorHeap env pool HeapType).2.sm_AvailableDescriptorHeaps
            (poolIndex HeapType) = []) ∧
      ∀ j, j ≠ poolIndex HeapType →
        (RequestDescriptorHeap env pool HeapType).2.sm_RetiredDescriptorHeaps j =
          pool.sm_RetiredDescriptorHeaps j ∧
        (RequestDescriptorHeap env pool HeapType).2.sm_AvailableDescriptorHeaps j =
          pool.sm_AvailableDescriptorHeaps j ∧
        (RequestDescriptorHeap env pool HeapType).2.sm_DescriptorHeapPool j =
          pool.sm_DescriptorHeapPool j := by
  obtain ⟨moved, rest, h1, h2, h3, h4⟩ := RequestDescriptorHeap_eq env pool HeapType
  refine ⟨moved, rest, h1, h2, h3, ?_⟩
  rcases h4 with ⟨tail, hq, hpool⟩ | ⟨hq, hptr, hpool⟩
  · refine ⟨by rw [hpool]; simp, ?_, ?_, ?_⟩
    · intro x tail' hx
      rw [hq] at hx
      injection hx with hx1 hx2
      refine ⟨hx1, ?_, by rw [hpool], by rw [hpool]⟩
      rw [hpool]
      simp [hx2]
    · intro hnil
      rw [hq] at hnil
      cases hnil
    · intro j hj
      rw [hpool]
      simp [Function.update_noteq hj]
  · refine ⟨by rw [hpool]; simp, ?_, ?_, ?_⟩
    · intro x tail hx
      rw [hq] at hx
      cases hx
    · intro _
      refine ⟨hptr, by rw [hpool], ?_, by rw [hpool]; simp⟩
      rw [hptr, hpool]
      simp
    · intro j hj
      rw [hpool]
      simp [Function.update_noteq hj]

/-- The operation `CleanupUsedHeaps` once its call of `RetireCurrentHeap` has returned
`hr`. -/
theorem CleanupUsedHeaps_of_retire {pool : HeapPool} {h hr : DynamicDescriptorHeap}
    (fenceValue : Nat) (hret : RetireCurrentHeap h = .ok hr) :
    CleanupUsedHeaps pool h fenceValue = .ok
      (DiscardDescriptorHeaps pool hr.m_DescriptorType fenceValue hr.m_RetiredHeaps,
        { hr with
          m_RetiredHeaps := []
          m_GraphicsHandleCache := hr.m_GraphicsHandleCache.ClearCache
          m_ComputeHandleCache := hr.m_ComputeHandleCache.ClearCache }) := by
  unfold CleanupUsedHeaps
  rw [hret]
  rfl

/-- On every instance state in which the current heap is null exactly when the write
offset is 0, `CleanupUsedHeaps(fenceValue)` returns; afterwards the current heap is
null, the write offset is 0, the pending list is empty, and the retired queue of the
instance's category is its old contents followed by `(fenceValue, x)` for each `x` of
the old pending list in order and then, when the write offset was non-zero, by
`(fenceValue, current heap)`; nothing is pushed for the current heap when the offset
was 0. The retired queue of the other category, the available queues, the permanent
pools and the heaps of the device are unchanged. -/
theorem CleanupUsedHeaps_retires (pool : HeapPool) (h : DynamicDescriptorHeap)
    (fenceValue : Nat) (hinv : h.m_CurrentHeapPtr = none ↔ h.m_CurrentOffset = 0) :
    ∃ pool' h', CleanupUsedHeaps pool h fenceValue = .ok (pool', h') ∧
      h'.m_CurrentHeapPtr = none ∧ h'.m_CurrentOffset = 0 ∧ h'.m_RetiredHeaps = [] ∧
      (h.m_CurrentOffset = 0 →
        pool'.sm_RetiredDescriptorHeaps (poolIndex h.m_DescriptorType) =
          pool.sm_RetiredDescriptorHeaps (poolIndex h.m_DescriptorType) ++
            h.m_RetiredHeaps.map (fun x => (fenceValue, x))) ∧
      (∀ heap, h.m_CurrentOffset ≠ 0 → h.m_CurrentHeapPtr = some heap →
        pool'.sm_RetiredDescriptorHeaps (poolIndex h.m_DescriptorType) =
          pool.sm_RetiredDescriptorHeaps (poolIndex h.m_DescriptorType) ++
            (h.m_RetiredHeaps.map (fun x => (fenceValue, x)) ++ [(fenceValue, heap)])) ∧
      (∀ j, j ≠ poolIndex h.m_DescriptorType →
        pool'.sm_RetiredDescriptorHeaps j = pool.sm_RetiredDescriptorHeaps j) ∧
      pool'.sm_AvailableDescriptorHeaps = pool.sm_AvailableDescriptorHeaps ∧
      pool'.sm_DescriptorHeapPool = pool.sm_DescriptorHeapPool ∧
      pool'.g_DeviceHeaps = pool.g_DeviceHeaps := by
  by_cases hoff : h.m_CurrentOffset = 0
  · have hnone : h.m_CurrentHeapPtr = none := hinv.2 hoff
    have hret : RetireCurrentHeap h = .ok h := by
      unfold RetireCurrentHeap
      rw [if_pos hoff, if_pos hnone]
    refine ⟨_, _, CleanupUsedHeaps_of_retire fenceValue hret, hnone, hoff, rfl, ?_, ?_, ?_,
      rfl, rfl, rfl⟩
    · intro _
      simp [DiscardDescriptorHeaps]
    · intro heap hne
      exact absurd hoff hne
    · intro j hj
      simp [DiscardDescriptorHeaps, Function.update_noteq hj]
  · cases hptr : h.m_CurrentHeapPtr with
    | none => exact absurd (hinv.1 hptr) hoff
    | some heap =>
      have hret : RetireCurrentHeap h = .ok { h with
          m_RetiredHeaps := h.m_RetiredHeaps ++ [heap]
          m_CurrentHeapPtr := none
          m_CurrentOffset := 0 } := by
        unfold RetireCurrentHeap
        rw [if_neg hoff, hptr]
      refine ⟨_, _, CleanupUsedHeaps_of_retire fenceValue hret, rfl, rfl, rfl, ?_, ?_, ?_,
        rfl, rfl, rfl⟩
      · intro h0
        exact absurd h0 hoff
      · intro heap' _ hsome
        injection hsome with hsome
        subst hsome
        simp [DiscardDescriptorHeaps]
      · intro j hj
        simp [DiscardDescriptorHeaps, Function.update_noteq hj]

/-- At an instance that wrote 3 slots of heap 0 and has heap 4 pending, the retired queue
of its category receives `(7, 4)` and then `(7, 0)`. -/
theorem CleanupUsedHeaps_retires_usedHeap :
    ∃ pool' h', CleanupUsedHeaps retiredPool usedHeap 7 = .ok (pool', h') ∧
      h'.m_CurrentHeapPtr = none ∧ h'.m_CurrentOffset = 0 ∧ h'.m_RetiredHeaps = [] ∧
      pool'.sm_RetiredDescriptorHeaps 0 = [(5, 0), (9, 1), (7, 4), (7, 0)] := by
  obtain ⟨pool', h', h1, h2, h3, h4, _, h6, _⟩ :=
    CleanupUsedHeaps_retires retiredPool usedHeap 7 (by decide)
  exact ⟨pool', h', h1, h2, h3, h4, h6 0 (by decide) rfl⟩

/-- C19 at a failing input: on a freshly constructed instance whose handle caches have no
stale table, `CopyAndBindStagedTables` (needed size 0) returns with heap 0 current, the
write offset 0 and an empty pending list; `CleanupUsedHeaps(7)` on the state it left
then fails the assertion `m_CurrentHeapPtr == nullptr` of `RetireCurrentHeap`, so it
does not finish with the current heap null and the pending list flushed. -/
theorem CleanupUsedHeaps_asserts_after_empty_bind :
    freshHeap = DynamicDescriptorHeap.new 0 32 ⟨0, 0⟩ blankCache blankCache ∧
    ∃ pool' d' calls,
      CopyAndBindStagedTables exampleEnv emptyPool freshHeap true = .ok (pool', d', calls) ∧
      d'.m_CurrentHeapPtr = some 0 ∧ d'.m_CurrentOffset = 0 ∧ d'.m_RetiredHeaps = [] ∧
      CleanupUsedHeaps pool' d' 7 = .error Fault.assertion ∧
      ¬ ∃ pool2 d2, CleanupUsedHeaps pool' d' 7 = .ok (pool2, d2) ∧
        d2.m_CurrentHeapPtr = none :=
  ⟨rfl, _, _, _, rfl, rfl, rfl, rfl, rfl, fun ⟨_, _, h, _⟩ => by cases h⟩

/-- C20: for every instance state in which the current heap is null exactly when the
write offset is 0, `RetireCurrentHeap` returns a state on which a second call returns
that same state; after the calls the current heap is null, the write offset is 0 and
the pending list is the old one followed by the old current heap, if there was one, so
the heap was pushed once. When the write offset is 0 the first call already returns the
state unchanged. -/
theorem RetireCurrentHeap_idempotent (h : DynamicDescriptorHeap)
    (hinv : h.m_CurrentHeapPtr = none ↔ h.m_CurrentOffset = 0) :
    ∃ h1, RetireCurrentHeap h = .ok h1 ∧ RetireCurrentHeap h1 = .ok h1 ∧
      h1.m_CurrentHeapPtr = none ∧ h1.m_CurrentOffset = 0 ∧
      h1.m_RetiredHeaps = h.m_RetiredHeaps ++ h.m_CurrentHeapPtr.toList ∧
      (h.m_CurrentOffset = 0 → h1 = h) := by
  by_cases hoff : h.m_CurrentOffset = 0
  · have hnone : h.m_CurrentHeapPtr = none := hinv.2 hoff
    have hret : RetireCurrentHeap h = .ok h := by
      unfold RetireCurrentHeap
      rw [if_pos hoff, if_pos hnone]
    exact ⟨h, hret, hret, hnone, hoff, by rw [hnone]; simp, fun _ => rfl⟩
  · cases hptr : h.m_CurrentHeapPtr with
    | none => exact absurd (hinv.1 hptr) hoff
    | some heap =>
      refine ⟨{ h with
          m_RetiredHeaps := h.m_RetiredHeaps ++ [heap]
          m_CurrentHeapPtr := none
          m_CurrentOffset := 0 }, ?_, rfl, rfl, rfl, rfl, fun h0 => absurd h0 hoff⟩
      unfold RetireCurrentHeap
      rw [if_neg hoff, hptr]

/-- C20 at an instance that wrote 3 slots of heap 0 and has heap 4 pending: both the first
and the second call leave heap 0 once in the pending list, after heap 4. -/
theorem RetireCurrentHeap_idempotent_witness :
    ∃ h1, RetireCurrentHeap usedHeap = .ok h1 ∧ RetireCurrentHeap h1 = .ok h1 ∧
      h1.m_RetiredHeaps = [4, 0] := by
  obtain ⟨h1, ha, hb, _, _, hc, _⟩ := RetireCurrentHeap_idempotent usedHeap (by decide)
  exact ⟨h1, ha, hb, hc⟩


/-! ## `ComputeStagedSize` -/

theorem ComputeStagedSizeLoop_ok (tables : Nat → DescriptorTableCache) :
    ∀ (fuel mask N : Nat), (setBits mask 32).length < fuel →
      (∀ r ∈ setBits mask 32, setBits (tables r).AssignedHandlesBitMap 32 ≠ []) → N < 2 ^ 32 →
      ComputeStagedSizeLoop tables fuel mask N =
        .ok ((N + ((setBits mask 32).map
          (fun r => highestSetBit (tables r).AssignedHandlesBitMap + 1)).sum) % 2 ^ 32) := by
  intro fuel
  induction fuel with
  | zero => intro mask N h; omega
  | succ n ih =>
    intro mask N hlen hne hN
    unfold ComputeStagedSizeLoop
    cases hs : _BitScanForward mask with
    | none =>
      simp only [setBits_of_scan_none hs, List.map_nil, List.sum_nil, Nat.add_zero,
        Nat.mod_eq_of_lt hN]
    | some i =>
      obtain ⟨_, _, hcons⟩ := setBits_of_scan hs
      have hi : i ∈ setBits mask 32 := by rw [hcons]; simp
      obtain ⟨m, hm⟩ := scanReverse_isSome (hne i hi)
      obtain ⟨_, _, hhigh⟩ := highestSetBit_of_scan hm
      simp only [hm]
      rw [ih _ _ (by rw [hcons] at hlen; simpa using hlen)
        (fun r hr => hne r (by rw [hcons]; exact List.mem_cons_of_mem _ hr))
        (Nat.mod_lt _ (by norm_num))]
      rw [hcons]
      simp only [List.map_cons, List.sum_cons, hhigh]
      congr 1
      rw [Nat.mod_add_mod]
      congr 1
      omega

/-- The sum of (highest assigned bit + 1) over at most 32 tables is at most 1024. -/
theorem sum_highest_le (f : Nat → Nat) (L : List Nat) :
    (L.map (fun r => highestSetBit (f r) + 1)).sum ≤ 32 * L.length := by
  induction L with
  | nil => simp
  | cons a t ih =>
    have := highestSetBit_lt (f a)
    simp only [List.map_cons, List.sum_cons, List.length_cons]
    omega

theorem stagedSlots_le (c : DescriptorHandleCache) :
    stagedSlots c ≤ 32 * (setBits c.m_StaleRootParamsBitMap 32).length :=
  sum_highest_le _ _

theorem stagedSlots_lt (c : DescriptorHandleCache) : stagedSlots c < 2 ^ 32 := by
  have h1 := stagedSlots_le c
  have h2 := setBits_length_le c.m_StaleRootParamsBitMap 32
  have e : (2 : Nat) ^ 32 = 4294967296 := by norm_num
  rw [e]
  omega

/-- When every stale table has an assigned slot in its 32-bit bitmap, `ComputeStagedSize`
returns the sum of (highest assigned bit + 1) over the stale tables. -/
theorem ComputeStagedSize_ok (c : DescriptorHandleCache)
    (hne : ∀ r ∈ setBits c.m_StaleRootParamsBitMap 32,
      setBits (c.m_RootDescriptorTable r).AssignedHandlesBitMap 32 ≠ []) :
    ComputeStagedSize c = .ok (stagedSlots c) := by
  unfold ComputeStagedSize
  rw [ComputeStagedSizeLoop_ok _ 33 _ 0 (Nat.lt_succ_of_le (setBits_length_le _ _)) hne
    (by norm_num), Nat.zero_add]
  exact congrArg _ (Nat.mod_eq_of_lt (stagedSlots_lt c))

/-- The operation `DescriptorHandleCache::UnbindAllValid` always returns; it replaces the
stale bitmap by the bitmap of the declared tables with a non-zero assigned bitmap. -/
theorem UnbindAllValid_returns (c : DescriptorHandleCache) :
    ∃ s, c.UnbindAllValid = .ok { c with m_StaleRootParamsBitMap := s } ∧
      ∀ k, s.testBit k = (decide (k ∈ setBits c.m_RootDescriptorTablesBitMap 32) &&
        decide ((c.m_RootDescriptorTable k).AssignedHandlesBitMap ≠ 0)) := by
  obtain ⟨s, hs, hbits⟩ := UnbindAllValidLoop_spec c.m_RootDescriptorTable 33
    c.m_RootDescriptorTablesBitMap 0 (Nat.lt_succ_of_le (setBits_length_le _ _))
  refine ⟨s, ?_, ?_⟩
  · unfold DescriptorHandleCache.UnbindAllValid
    rw [hs]
  · intro k
    rw [hbits k, Nat.zero_testBit, Bool.false_or]

/-- The operation `DynamicDescriptorHeap::UnbindAllValid` always returns; it changes the
two handle caches only. -/
theorem UnbindAllValid_both (h : DynamicDescriptorHeap) :
    ∃ g c, h.m_GraphicsHandleCache.UnbindAllValid = .ok g ∧
      h.m_ComputeHandleCache.UnbindAllValid = .ok c ∧
      h.UnbindAllValid = .ok { h with m_GraphicsHandleCache := g, m_ComputeHandleCache := c } := by
  obtain ⟨s1, h1, _⟩ := UnbindAllValid_returns h.m_GraphicsHandleCache
  obtain ⟨s2, h2, _⟩ := UnbindAllValid_returns h.m_ComputeHandleCache
  refine ⟨_, _, h1, h2, ?_⟩
  unfold DynamicDescriptorHeap.UnbindAllValid
  rw [h1, h2]

/-- The operation `RetireCurrentHeap` on a state with a current heap and a non-zero
write offset. -/
theorem RetireCurrentHeap_used {h : DynamicDescriptorHeap} {heap : Nat}
    (hptr : h.m_CurrentHeapPtr = some heap) (hoff : h.m_CurrentOffset ≠ 0) :
    RetireCurrentHeap h = .ok { h with
      m_RetiredHeaps := h.m_RetiredHeaps ++ [heap]
      m_CurrentHeapPtr := none
      m_CurrentOffset := 0 } := by
  unfold RetireCurrentHeap
  rw [if_neg hoff, hptr]

/-- The operation `RetireCurrentHeap` on a state without a current heap and with write
offset 0. -/
theorem RetireCurrentHeap_unused {h : DynamicDescriptorHeap}
    (hptr : h.m_CurrentHeapPtr = none) (hoff : h.m_CurrentOffset = 0) :
    RetireCurrentHeap h = .ok h := by
  unfold RetireCurrentHeap
  rw [if_pos hoff, if_pos hptr]

/-- The operation `GetHeapPointer` on a state without a current heap and with write
offset 0 takes a heap from the pool. -/
theorem GetHeapPointer_fresh (env : Collaborators) (pool : HeapPool) {h : DynamicDescriptorHeap}
    (hptr : h.m_CurrentHeapPtr = none) (hoff : h.m_CurrentOffset = 0) :
    GetHeapPointer env pool h = .ok
      ((RequestDescriptorHeap env pool h.m_DescriptorType).1,
        (RequestDescriptorHeap env pool h.m_DescriptorType).2,
        { h with
          m_CurrentHeapPtr := some (RequestDescriptorHeap env pool h.m_DescriptorType).1
          m_FirstDescriptor :=
            { m_CpuHandle := env.GetCPUDescriptorHandleForHeapStart
                (RequestDescriptorHeap env pool h.m_DescriptorType).1
              m_GpuHandle := env.GetGPUDescriptorHandleForHeapStart
                (RequestDescriptorHeap env pool h.m_DescriptorType).1 } }) := by
  unfold GetHeapPointer
  rw [hptr]
  simp only
  rw [if_neg (not_not.2 hoff)]

/-- The operation `GetHeapPointer` on a state with a current heap returns that heap. -/
theorem GetHeapPointer_current (env : Collaborators) (pool : HeapPool)
    {h : DynamicDescriptorHeap} {heap : Nat} (hptr : h.m_CurrentHeapPtr = some heap) :
    GetHeapPointer env pool h = .ok (heap, pool, h) := by
  unfold GetHeapPointer
  rw [hptr]

/-- The operation `UploadDirect` when the current heap has room for one slot and
`GetHeapPointer` has returned `heap`. -/
theorem UploadDirect_keep (env : Collaborators) (pool : HeapPool) (h : DynamicDescriptorHeap)
    (Handle : Nat) {h2 : DynamicDescriptorHeap} {heap : Nat} {pool' : HeapPool}
    (hspace : HasSpace env h 1 = true)
    (hget : GetHeapPointer env pool h = .ok (heap, pool', h2)) :
    UploadDirect env pool h Handle = .ok
      ((h2.m_FirstDescriptor.advance ((h2.m_CurrentOffset * h2.m_DescriptorSize) % 2 ^ 32)).m_GpuHandle,
        pool', { h2 with m_CurrentOffset := (h2.m_CurrentOffset + 1) % 2 ^ 32 },
        [DeviceCall.SetDescriptorHeap h2.m_DescriptorType heap,
          DeviceCall.CopyDescriptorsSimple 1
            (h2.m_FirstDescriptor.advance
              ((h2.m_CurrentOffset * h2.m_DescriptorSize) % 2 ^ 32)).m_CpuHandle
            Handle h2.m_DescriptorType]) := by
  unfold UploadDirect
  simp only [hspace, not_true_eq_false, if_false]
  rw [hget]

/-- The operation `UploadDirect` when the current heap has no room for one slot, the
heap was retired giving `h0`, the caches were unbound giving `h1`, and `GetHeapPointer`
has returned `heap`. -/
theorem UploadDirect_rotate (env : Collaborators) (pool : HeapPool) (h : DynamicDescriptorHeap)
    (Handle : Nat) {h0 h1 h2 : DynamicDescriptorHeap} {heap : Nat} {pool' : HeapPool}
    (hspace : HasSpace env h 1 = false)
    (hret : RetireCurrentHeap h = .ok h0) (hunb : h0.UnbindAllValid = .ok h1)
    (hget : GetHeapPointer env pool h1 = .ok (heap, pool', h2)) :
    UploadDirect env pool h Handle = .ok
      ((h2.m_FirstDescriptor.advance ((h2.m_CurrentOffset * h2.m_DescriptorSize) % 2 ^ 32)).m_GpuHandle,
        pool', { h2 with m_CurrentOffset := (h2.m_CurrentOffset + 1) % 2 ^ 32 },
        [DeviceCall.SetDescriptorHeap h2.m_DescriptorType heap,
          DeviceCall.CopyDescriptorsSimple 1
            (h2.m_FirstDescriptor.advance
              ((h2.m_CurrentOffset * h2.m_DescriptorSize) % 2 ^ 32)).m_CpuHandle
            Handle h2.m_DescriptorType]) := by
  unfold UploadDirect
  simp only [hspace, Bool.false_eq_true, not_false_eq_true, if_true, hret, hunb]
  rw [hget]

/-! ## `CopyAndBindStagedTables` -/

/-- When every stale table has an assigned slot in its 32-bit bitmap and at most 16
tables are stale, `CopyAndBindStaleTables` returns; the cache it leaves has an empty
stale bitmap and its last call is the copy call. -/
theorem CopyAndBindStaleTables_returns (c : DescriptorHandleCache) (HeapType D : Nat)
    (dest : DescriptorHandle)
    (hword : ∀ r ∈ setBits c.m_StaleRootParamsBitMap 32,
      (c.m_RootDescriptorTable r).AssignedHandlesBitMap < 2 ^ 32)
    (hne : ∀ r ∈ setBits c.m_StaleRootParamsBitMap 32,
      setBits (c.m_RootDescriptorTable r).AssignedHandlesBitMap 32 ≠ [])
    (hcount : (setBits c.m_StaleRootParamsBitMap 32).length ≤ kMaxNumDescriptorTables) :
    ∃ b0, CopyAndBindLoop HeapType D { c with m_StaleRootParamsBitMap := 0 }
        ((setBits c.m_StaleRootParamsBitMap 32).zip
          ((setBits c.m_StaleRootParamsBitMap 32).map
            (fun r => highestSetBit (c.m_RootDescriptorTable r).AssignedHandlesBitMap + 1)))
        dest ⟨[], [], [], false⟩ = .ok b0 ∧
      CopyAndBindStaleTables c HeapType D dest =
        .ok ({ c with m_StaleRootParamsBitMap := 0 }, b0.copyDescriptors HeapType) := by
  have hcollect := CollectStaleLoop_ok c.m_RootDescriptorTable 33 c.m_StaleRootParamsBitMap
    [] [] 0 (Nat.lt_succ_of_le (setBits_length_le _ _)) hne (by norm_num)
  obtain ⟨b, hb⟩ := CopyAndBindLoop_ok HeapType D { c with m_StaleRootParamsBitMap := 0 }
    ((setBits c.m_StaleRootParamsBitMap 32).zip
      ((setBits c.m_StaleRootParamsBitMap 32).map
        (fun r => highestSetBit (c.m_RootDescriptorTable r).AssignedHandlesBitMap + 1)))
    dest ⟨[], [], [], false⟩
    (by
      intro e he
      exact hword e.1 (List.of_mem_zip he).1)
  refine ⟨b, hb, ?_⟩
  unfold CopyAndBindStaleTables
  rw [hcollect]
  simp only [List.nil_append]
  rw [if_neg (not_not.2 hcount)]
  show (match CopyAndBindLoop HeapType D { c with m_StaleRootParamsBitMap := 0 }
      ((setBits c.m_StaleRootParamsBitMap 32).zip
        ((setBits c.m_StaleRootParamsBitMap 32).map
          (fun r => highestSetBit (c.m_RootDescriptorTable r).AssignedHandlesBitMap + 1)))
      dest ⟨[], [], [], false⟩ with
    | Except.error e => Except.error e
    | Except.ok b =>
      (Except.ok ({ c with m_StaleRootParamsBitMap := 0 }, b.copyDescriptors HeapType) :
        Except Fault (DescriptorHandleCache × CopyBatch))) = _
  rw [hb]

/-- The operation `CopyAndBindStagedTables` when the current heap has room for the needed
size. -/
theorem CopyAndBindStagedTables_keep (env : Collaborators) (pool : HeapPool)
    (h : DynamicDescriptorHeap) (graphics : Bool) {n heap : Nat} {pool' : HeapPool}
    {h2 : DynamicDescriptorHeap} {c : DescriptorHandleCache} {b : CopyBatch}
    (hsize : ComputeStagedSize (h.cache graphics) = .ok n)
    (hspace : HasSpace env h n = true)
    (hget : GetHeapPointer env pool h = .ok (heap, pool', h2))
    (hcopy : CopyAndBindStaleTables ((Allocate h2 n).2.cache graphics)
      (Allocate h2 n).2.m_DescriptorType (Allocate h2 n).2.m_DescriptorSize (Allocate h2 n).1 =
        .ok (c, b)) :
    CopyAndBindStagedTables env pool h graphics = .ok (pool', (Allocate h2 n).2.setCache graphics c,
      DeviceCall.SetDescriptorHeap (Allocate h2 n).2.m_DescriptorType heap :: b.calls) := by
  unfold CopyAndBindStagedTables
  simp only [hsize, hspace, not_true_eq_false, if_false, hget]
  rw [hcopy]

/-- The operation `CopyAndBindStagedTables` when the current heap lacks room for the
needed size: the heap is retired giving `h0`, the caches are unbound giving `h1`, and
the needed size is computed again. -/
theorem CopyAndBindStagedTables_rotate (env : Collaborators) (pool : HeapPool)
    (h : DynamicDescriptorHeap) (graphics : Bool) {n n' heap : Nat} {pool' : HeapPool}
    {h0 h1 h2 : DynamicDescriptorHeap} {c : DescriptorHandleCache} {b : CopyBatch}
    (hsize : ComputeStagedSize (h.cache graphics) = .ok n)
    (hspace : HasSpace env h n = false)
    (hret : RetireCurrentHeap h = .ok h0) (hunb : h0.UnbindAllValid = .ok h1)
    (hsize' : ComputeStagedSize (h1.cache graphics) = .ok n')
    (hget : GetHeapPointer env pool h1 = .ok (heap, pool', h2))
    (hcopy : CopyAndBindStaleTables ((Allocate h2 n').2.cache graphics)
      (Allocate h2 n').2.m_DescriptorType (Allocate h2 n').2.m_DescriptorSize (Allocate h2 n').1 =
        .ok (c, b)) :
    CopyAndBindStagedTables env pool h graphics = .ok (pool', (Allocate h2 n').2.setCache graphics c,
      DeviceCall.SetDescriptorHeap (Allocate h2 n').2.m_DescriptorType heap :: b.calls) := by
  unfold CopyAndBindStagedTables
  simp only [hsize, hspace, Bool.false_eq_true, not_false_eq_true, if_true, hret, hunb, hsize',
    hget]
  rw [hcopy]

/-- The operation `DynamicDescriptorHeap::UnbindAllValid` always returns. -/
theorem UnbindAllValid_total (h : DynamicDescriptorHeap) : ∃ h1, h.UnbindAllValid = .ok h1 := by
  obtain ⟨g, c, _, _, hrun⟩ := UnbindAllValid_both h
  exact ⟨_, hrun⟩

/-- The set bits of a bitmap whose bits all are bits of `mask` are at most as many as
those of `mask`. -/
theorem setBits_length_mono {s mask : Nat}
    (h : ∀ k, s.testBit k = true → mask.testBit k = true) :
    (setBits s 32).length ≤ (setBits mask 32).length := by
  have hsub : (setBits s 32).Sublist (setBits mask 32) := by
    have e : setBits s 32 = (setBits mask 32).filter (fun k => s.testBit k) := by
      unfold setBits
      rw [List.filter_filter]
      apply List.filter_congr
      intro k _
      cases hs : s.testBit k
      · simp
      · simp [h k hs]
    rw [e]
    exact List.filter_sublist _
  exact hsub.length_le

theorem setBits_length_le_of_lt {mask n : Nat} (h : mask < 2 ^ n) (hn : n ≤ 32) :
    (setBits mask 32).length ≤ n := by
  rw [setBits_of_lt h hn]
  exact setBits_length_le _ _

/-! ## `UploadDirect` -/

/-- C22: for every instance state whose write offset is 0 when it has no current heap
(as in every state the operations reach from the constructor), with a heap capacity of
at least one slot and byte offsets that fit their words, `UploadDirect` returns; it issues the heap bind and exactly one copy, of one
descriptor, from the given source handle to slot `o` of the current heap, returns the
GPU address of that slot (first-slot handle + `o` * stride), and leaves the write
offset at `o + 1`. When `HasSpace(1)` holds, `o` is the write offset on entry, and the
pending list and the handle caches are unchanged; otherwise `o` is 0, the old current
heap was appended to the pending list, both handle caches went through
`UnbindAllValid`, and the current heap was requested from the pool. -/
theorem UploadDirect_copies_one (env : Collaborators) (pool : HeapPool)
    (h : DynamicDescriptorHeap) (Handle : Nat)
    (hinv : h.m_CurrentHeapPtr = none → h.m_CurrentOffset = 0)
    (hcap : 1 ≤ env.kNumDescriptorsPerHeap) (hword : env.kNumDescriptorsPerHeap < 2 ^ 32)
    (hstride : env.kNumDescriptorsPerHeap * h.m_DescriptorSize < 2 ^ 32)
    (hfirst : h.m_FirstDescriptor.m_CpuHandle + env.kNumDescriptorsPerHeap * h.m_DescriptorSize
        < 2 ^ 64 ∧
      h.m_FirstDescriptor.m_GpuHandle + env.kNumDescriptorsPerHeap * h.m_DescriptorSize < 2 ^ 64)
    (henv :
      env.GetCPUDescriptorHandleForHeapStart
            (RequestDescriptorHeap env pool h.m_DescriptorType).1 +
          env.kNumDescriptorsPerHeap * h.m_DescriptorSize < 2 ^ 64 ∧
        env.GetGPUDescriptorHandleForHeapStart
            (RequestDescriptorHeap env pool h.m_DescriptorType).1 +
          env.kNumDescriptorsPerHeap * h.m_DescriptorSize < 2 ^ 64) :
    ∃ gpu pool' h' calls heap o,
      UploadDirect env pool h Handle = .ok (gpu, pool', h', calls) ∧
      h'.m_CurrentHeapPtr = some heap ∧
      calls = [DeviceCall.SetDescriptorHeap h.m_DescriptorType heap,
        DeviceCall.CopyDescriptorsSimple 1
          (h'.m_FirstDescriptor.m_CpuHandle + o * h.m_DescriptorSize) Handle
          h.m_DescriptorType] ∧
      gpu = h'.m_FirstDescriptor.m_GpuHandle + o * h.m_DescriptorSize ∧
      h'.m_CurrentOffset = o + 1 ∧
      (HasSpace env h 1 = true →
        o = h.m_CurrentOffset ∧ h'.m_RetiredHeaps = h.m_RetiredHeaps ∧
        h'.m_GraphicsHandleCache = h.m_GraphicsHandleCache ∧
        h'.m_ComputeHandleCache = h.m_ComputeHandleCache ∧
        ∀ current, h.m_CurrentHeapPtr = some current →
          heap = current ∧ pool' = pool ∧ h'.m_FirstDescriptor = h.m_FirstDescriptor) ∧
      (HasSpace env h 1 = false →
        o = 0 ∧ h'.m_RetiredHeaps = h.m_RetiredHeaps ++ h.m_CurrentHeapPtr.toList ∧
        h.m_GraphicsHandleCache.UnbindAllValid = .ok h'.m_GraphicsHandleCache ∧
        h.m_ComputeHandleCache.UnbindAllValid = .ok h'.m_ComputeHandleCache) ∧
      ((h.m_CurrentHeapPtr = none ∨ HasSpace env h 1 = false) →
        heap = (RequestDescriptorHeap env pool h.m_DescriptorType).1 ∧
        pool' = (RequestDescriptorHeap env pool h.m_DescriptorType).2 ∧
        h'.m_FirstDescriptor =
          ⟨env.GetCPUDescriptorHandleForHeapStart heap,
            env.GetGPUDescriptorHandleForHeapStart heap⟩) := by
  have e32 : (2 : Nat) ^ 32 = 4294967296 := by norm_num
  by_cases hspace : HasSpace env h 1 = true
  · have hlt : h.m_CurrentOffset + 1 ≤ env.kNumDescriptorsPerHeap := by
      simpa [HasSpace] using hspace
    have hmul : h.m_CurrentOffset * h.m_DescriptorSize ≤
        env.kNumDescriptorsPerHeap * h.m_DescriptorSize :=
      Nat.mul_le_mul_right _ (by omega)
    have hm1 : (h.m_CurrentOffset * h.m_DescriptorSize) % 2 ^ 32 =
        h.m_CurrentOffset * h.m_DescriptorSize := Nat.mod_eq_of_lt (by omega)
    have hm2 : (h.m_CurrentOffset + 1) % 2 ^ 32 = h.m_CurrentOffset + 1 :=
      Nat.mod_eq_of_lt (by omega)
    cases hptr : h.m_CurrentHeapPtr with
    | some current =>
      have hrun := UploadDirect_keep env pool h Handle hspace (GetHeapPointer_current env pool hptr)
      refine ⟨_, _, _, _, current, h.m_CurrentOffset, hrun, hptr, ?_, ?_, hm2, ?_, ?_, ?_⟩
      · simp only [DescriptorHandle.advance, hm1]
        rw [Nat.mod_eq_of_lt (by omega)]
      · simp only [DescriptorHandle.advance, hm1]
        rw [Nat.mod_eq_of_lt (by omega)]
      · intro _
        refine ⟨rfl, rfl, rfl, rfl, ?_⟩
        intro cur hcur
        injection hcur with hcur
        exact ⟨hcur, rfl, rfl⟩
      · intro hfalse
        rw [hspace] at hfalse
        cases hfalse
      · rintro (hnone | hfalse)
        · cases hnone
        · rw [hspace] at hfalse
          cases hfalse
    | none =>
      have hoff : h.m_CurrentOffset = 0 := hinv hptr
      have hrun := UploadDirect_keep env pool h Handle hspace
        (GetHeapPointer_fresh env pool hptr hoff)
      obtain ⟨hcpu, hgpu⟩ := henv
      refine ⟨_, _, _, _, (RequestDescriptorHeap env pool h.m_DescriptorType).1, 0, hrun, rfl,
        ?_, ?_, ?_, ?_, ?_, ?_⟩
      · simp only [DescriptorHandle.advance, hoff, Nat.zero_mul, Nat.zero_mod, Nat.add_zero]
        rw [Nat.mod_eq_of_lt (by omega)]
      · simp only [DescriptorHandle.advance, hoff, Nat.zero_mul, Nat.zero_mod, Nat.add_zero]
        rw [Nat.mod_eq_of_lt (by omega)]
      · simp only [hoff]
        rfl
      · intro _
        refine ⟨hoff.symm, rfl, rfl, rfl, ?_⟩
        intro cur hcur
        cases hcur
      · intro hfalse
        rw [hspace] at hfalse
        cases hfalse
      · intro _
        exact ⟨rfl, rfl, rfl⟩
  · have hspace' : HasSpace env h 1 = false := by simpa using hspace
    have hgt : env.kNumDescriptorsPerHeap < h.m_CurrentOffset + 1 := by
      simpa [HasSpace] using hspace'
    have hoff : h.m_CurrentOffset ≠ 0 := by omega
    cases hptr : h.m_CurrentHeapPtr with
    | none => exact absurd (hinv hptr) hoff
    | some current =>
      have hret := RetireCurrentHeap_used hptr hoff
      obtain ⟨g, c, hg, hc, hunb⟩ := UnbindAllValid_both { h with
        m_RetiredHeaps := h.m_RetiredHeaps ++ [current]
        m_CurrentHeapPtr := none
        m_CurrentOffset := 0 }
      have hrun := UploadDirect_rotate env pool h Handle hspace' hret hunb
        (GetHeapPointer_fresh env pool rfl rfl)
      obtain ⟨hcpu, hgpu⟩ := henv
      refine ⟨_, _, _, _, (RequestDescriptorHeap env pool h.m_DescriptorType).1, 0, hrun, rfl,
        ?_, ?_, rfl, ?_, ?_, ?_⟩
      · simp only [DescriptorHandle.advance, Nat.zero_mul, Nat.zero_mod, Nat.add_zero]
        rw [Nat.mod_eq_of_lt (by omega)]
      · simp only [DescriptorHandle.advance, Nat.zero_mul, Nat.zero_mod, Nat.add_zero]
        rw [Nat.mod_eq_of_lt (by omega)]
      · intro htrue
        exact absurd htrue hspace
      · intro _
        exact ⟨rfl, rfl, hg, hc⟩
      · intro _
        exact ⟨rfl, rfl, rfl⟩

/-- C22 at an instance with room, which wrote 3 slots of heap 0: the copy goes
to slot 3 of heap 0, and at an instance that wrote all 1024 slots of heap 0: the heap is
retired, heap 1 is created and the copy goes to its slot 0. -/
theorem UploadDirect_copies_one_witness :
    (∃ gpu pool' h' calls,
      UploadDirect exampleEnv oneHeapPool { usedHeap with m_FirstDescriptor := ⟨4096, 65536⟩ } 7 =
        .ok (gpu, pool', h', calls) ∧
      calls = [DeviceCall.SetDescriptorHeap 0 0, DeviceCall.CopyDescriptorsSimple 1 4192 7 0] ∧
      gpu = 65632 ∧ h'.m_CurrentOffset = 4) ∧
    ∃ gpu pool' h' calls,
      UploadDirect exampleEnv oneHeapPool fullHeap 7 = .ok (gpu, pool', h', calls) ∧
      calls = [DeviceCall.SetDescriptorHeap 0 1, DeviceCall.CopyDescriptorsSimple 1 8192 7 0] ∧
      gpu = 131072 ∧ h'.m_CurrentOffset = 1 ∧ h'.m_RetiredHeaps = [0] := by
  constructor
  · obtain ⟨gpu, pool', h', calls, heap, o, hrun, _, hcalls, hgpu, hoff, hkeep, _, _⟩ :=
      UploadDirect_copies_one exampleEnv oneHeapPool
        { usedHeap with m_FirstDescriptor := ⟨4096, 65536⟩ } 7
        (by decide) (by decide) (by decide) (by decide) (by decide) (by decide)
    obtain ⟨ho, _, _, _, hcur⟩ := hkeep (by decide)
    obtain ⟨hheap, _, hfirst⟩ := hcur 0 rfl
    subst ho hheap
    rw [hfirst] at hcalls hgpu
    exact ⟨gpu, pool', h', calls, hrun, hcalls, hgpu, hoff⟩
  · obtain ⟨gpu, pool', h', calls, heap, o, hrun, _, hcalls, hgpu, hoff, _, hrot, hreq⟩ :=
      UploadDirect_copies_one exampleEnv oneHeapPool fullHeap 7
        (by decide) (by decide) (by decide) (by decide) (by decide) (by decide)
    obtain ⟨ho, hretired, _, _⟩ := hrot (by decide)
    obtain ⟨hheap, _, hfirst⟩ := hreq (Or.inr (by decide))
    subst ho
    rw [hfirst, hheap] at hcalls hgpu
    exact ⟨gpu, pool', h', calls, hrun, hcalls, hgpu, hoff, hretired⟩

/-! ## Draining the retired queue -/

/-- C24: `RequestDescriptorHeap` moves from the retired queue of the category to its
available queue exactly the longest front part `moved` of the retired queue whose fence
values are all reported complete (every front part with complete fences is a front part
of `moved`); the heaps of `moved` are appended to the available queue in their queue
order, before the heap to return is taken from the front of that queue; the remaining
entries `rest` stay in the retired queue in their order, and the first of them, if any,
is not complete. Hence, when the queued fence values are non-decreasing and completion
is downward closed, no entry that remains in the retired queue is complete. -/
theorem RequestDescriptorHeap_drains_prefix (env : Collaborators) (pool : HeapPool)
    (HeapType : Nat) :
    ∃ moved rest,
      pool.sm_RetiredDescriptorHeaps (poolIndex HeapType) = moved ++ rest ∧
      (∀ e ∈ moved, env.IsFenceComplete e.1 = true) ∧
      (∀ front, front <+: pool.sm_RetiredDescriptorHeaps (poolIndex HeapType) →
        (∀ e ∈ front, env.IsFenceComplete e.1 = true) → front <+: moved) ∧
      (∀ e, rest.head? = some e → env.IsFenceComplete e.1 = false) ∧
      drainRetired env.IsFenceComplete (pool.sm_RetiredDescriptorHeaps (poolIndex HeapType))
          (pool.sm_AvailableDescriptorHeaps (poolIndex HeapType)) =
        (rest, pool.sm_AvailableDescriptorHeaps (poolIndex HeapType) ++ moved.map Prod.snd) ∧
      (RequestDescriptorHeap env pool HeapType).2.sm_RetiredDescriptorHeaps (poolIndex HeapType) =
        rest ∧
      (pool.sm_AvailableDescriptorHeaps (poolIndex HeapType) ++ moved.map Prod.snd = [] ∨
        pool.sm_AvailableDescriptorHeaps (poolIndex HeapType) ++ moved.map Prod.snd =
          (RequestDescriptorHeap env pool HeapType).1 ::
            (RequestDescriptorHeap env pool HeapType).2.sm_AvailableDescriptorHeaps
              (poolIndex HeapType)) ∧
      (((pool.sm_RetiredDescriptorHeaps (poolIndex HeapType)).map Prod.fst).Sorted (· ≤ ·) →
        (∀ f g, f ≤ g → env.IsFenceComplete g = true → env.IsFenceComplete f = true) →
        ∀ e ∈ (RequestDescriptorHeap env pool HeapType).2.sm_RetiredDescriptorHeaps
            (poolIndex HeapType),
          env.IsFenceComplete e.1 = false) := by
  obtain ⟨moved, rest, h1, h2, h3, h4⟩ := drainRetired_spec env.IsFenceComplete
    (pool.sm_RetiredDescriptorHeaps (poolIndex HeapType))
    (pool.sm_AvailableDescriptorHeaps (poolIndex HeapType))
  have hretired : (RequestDescriptorHeap env pool HeapType).2.sm_RetiredDescriptorHeaps
      (poolIndex HeapType) = rest := by
    unfold RequestDescriptorHeap
    simp only [h4, Function.update_same]
    split <;> simp
  refine ⟨moved, rest, h1, h2, ?_, h3, h4, hretired, ?_, ?_⟩
  · intro front hfront hall
    rw [h1] at hfront
    rcases List.prefix_or_prefix_of_prefix hfront (List.prefix_append moved rest) with h | h
    · exact h
    · obtain ⟨t, ht⟩ := h
      rw [← ht] at hfront hall ⊢
      have htrest : t <+: rest := (List.prefix_append_right_inj moved).1 hfront
      cases t with
      | nil => simp
      | cons e t' =>
        obtain ⟨u, hu⟩ := htrest
        have hhead : rest.head? = some e := by rw [← hu]; rfl
        have := h3 e hhead
        rw [hall e (by simp)] at this
        cases this
  · unfold RequestDescriptorHeap
    simp only [h4, Function.update_same]
    cases hq : pool.sm_AvailableDescriptorHeaps (poolIndex HeapType) ++ moved.map Prod.snd with
    | nil => left; rfl
    | cons x tail => right; simp
  · intro hsorted hdown e he
    rw [hretired] at he
    rw [h1, List.map_append] at hsorted
    have hrest : (rest.map Prod.fst).Sorted (· ≤ ·) := (List.pairwise_append.1 hsorted).2.1
    cases rest with
    | nil => cases he
    | cons e0 t =>
      have h0 : env.IsFenceComplete e0.1 = false := h3 e0 rfl
      rcases List.mem_cons.1 he with h | h
      · rw [h]; exact h0
      · rw [List.map_cons] at hrest
        have hle : e0.1 ≤ e.1 := (List.sorted_cons.1 hrest).1 e.1 (List.mem_map_of_mem _ h)
        by_contra hc
        rw [hdown e0.1 e.1 hle (by simpa using hc)] at h0
        cases h0

/-- C24 at a retired queue with fence values 5 and 9 where fences up to 5 are complete:
the entry with fence 5 is moved, its heap 0 is returned, and the entry with fence 9
remains. -/
theorem RequestDescriptorHeap_drains_prefix_witness :
    drainRetired exampleEnv.IsFenceComplete (retiredPool.sm_RetiredDescriptorHeaps 0)
        (retiredPool.sm_AvailableDescriptorHeaps 0) = ([(9, 1)], [0]) ∧
      (RequestDescriptorHeap exampleEnv retiredPool 0).1 = 0 ∧
      ∀ e ∈ (RequestDescriptorHeap exampleEnv retiredPool 0).2.sm_RetiredDescriptorHeaps
          (poolIndex 0),
        exampleEnv.IsFenceComplete e.1 = false := by
  obtain ⟨_, _, _, _, _, _, _, _, _, h⟩ := RequestDescriptorHeap_drains_prefix exampleEnv
    retiredPool 0
  refine ⟨rfl, rfl, h (by decide) ?_⟩
  intro f g hfg hg
  simp only [exampleEnv, decide_eq_true_eq] at hg ⊢
  omega

/-! ## The destination range of `CopyAndBindStaleTables` -/

/-- The writes and the bind calls of `CopyAndBindStaleTables` on a cache whose stale
tables pass its assertions and have runs of at most 16 assigned slots, when the byte
offsets fit their words. -/
theorem CopyAndBindStaleTables_trace (c : DescriptorHandleCache) (HeapType D : Nat)
    (dest : DescriptorHandle)
    (hstale : c.m_StaleRootParamsBitMap < 2 ^ 16)
    (htables : ∀ r, r < 32 → c.m_StaleRootParamsBitMap.testBit r = true →
      (c.m_RootDescriptorTable r).AssignedHandlesBitMap ≠ 0 ∧
      (c.m_RootDescriptorTable r).AssignedHandlesBitMap < 2 ^ 32 ∧
      RunsAtMost16 (c.m_RootDescriptorTable r).AssignedHandlesBitMap)
    (hstride : 32 * D < 2 ^ 31)
    (hfit : dest.m_CpuHandle + stagedSlots c * D < 2 ^ 64)
    (hfitg : dest.m_GpuHandle + stagedSlots c * D < 2 ^ 64) :
    ∃ b, CopyAndBindStaleTables c HeapType D dest =
        .ok ({ c with m_StaleRootParamsBitMap := 0 }, b) ∧
      b.overrun = false ∧
      traceWrites D b.calls =
        (setBits c.m_StaleRootParamsBitMap 32).flatMap (fun r =>
          (setBits (c.m_RootDescriptorTable r).AssignedHandlesBitMap 32).map
            (fun k => (dest.m_CpuHandle + slotsBefore c r * D + k * D,
              c.m_HandleCache ((c.m_RootDescriptorTable r).TableStart + k)))) ∧
      binds b.calls = (setBits c.m_StaleRootParamsBitMap 32).map
        (fun r => (r, dest.m_GpuHandle + D * slotsBefore c r)) := by
  have hne : ∀ r ∈ setBits c.m_StaleRootParamsBitMap 32,
      setBits (c.m_RootDescriptorTable r).AssignedHandlesBitMap 32 ≠ [] := by
    intro r hr
    obtain ⟨h1, h2⟩ := mem_setBits.1 hr
    exact setBits_ne_nil (htables r h1 h2).1 (htables r h1 h2).2.1
  have hword : ∀ r ∈ setBits c.m_StaleRootParamsBitMap 32,
      (c.m_RootDescriptorTable r).AssignedHandlesBitMap < 2 ^ 32 := by
    intro r hr
    obtain ⟨h1, h2⟩ := mem_setBits.1 hr
    exact (htables r h1 h2).2.1
  have hlen : (setBits c.m_StaleRootParamsBitMap 32).length ≤ kMaxNumDescriptorTables :=
    setBits_length_le_of_lt hstale (by decide)
  obtain ⟨b0, hloop, hrun⟩ := CopyAndBindStaleTables_returns c HeapType D dest hword hne hlen
  have hentries : ∀ e ∈ (setBits c.m_StaleRootParamsBitMap 32).zip
      ((setBits c.m_StaleRootParamsBitMap 32).map
        (fun r => highestSetBit (c.m_RootDescriptorTable r).AssignedHandlesBitMap + 1)),
      (c.m_RootDescriptorTable e.1).AssignedHandlesBitMap < 2 ^ 32 ∧
        RunsAtMost16 (c.m_RootDescriptorTable e.1).AssignedHandlesBitMap ∧
        e.2 = highestSetBit (c.m_RootDescriptorTable e.1).AssignedHandlesBitMap + 1 := by
    intro e he
    have hmem := (List.of_mem_zip he).1
    obtain ⟨q1, q2⟩ := mem_setBits.1 hmem
    exact ⟨(htables _ q1 q2).2.1, (htables _ q1 q2).2.2, mem_zip_map_self _ _ _ he⟩
  have hsnd : List.map (fun e => e.2) ((setBits c.m_StaleRootParamsBitMap 32).zip
      ((setBits c.m_StaleRootParamsBitMap 32).map
        (fun r => highestSetBit (c.m_RootDescriptorTable r).AssignedHandlesBitMap + 1))) =
      (setBits c.m_StaleRootParamsBitMap 32).map
        (fun r => highestSetBit (c.m_RootDescriptorTable r).AssignedHandlesBitMap + 1) := by
    rw [List.map_snd_zip]
    simp
  obtain ⟨b1, hb1, hinv, hw⟩ := CopyAndBindLoop_writes HeapType D
    { c with m_StaleRootParamsBitMap := 0 } hstride _ dest ⟨[], [], [], false⟩
    hentries ⟨rfl, by simp, by simp, rfl⟩ (by rw [hsnd]; exact hfit)
  obtain ⟨b2, hb2, hbinds⟩ := CopyAndBindLoop_binds HeapType D
    { c with m_StaleRootParamsBitMap := 0 } hstride
    ((setBits c.m_StaleRootParamsBitMap 32).zip ((setBits c.m_StaleRootParamsBitMap 32).map
      (fun r => highestSetBit (c.m_RootDescriptorTable r).AssignedHandlesBitMap + 1)))
    dest ⟨[], [], [], false⟩
    (by
      intro e he
      refine ⟨(hentries e he).1, ?_⟩
      rw [(hentries e he).2.2]
      have := highestSetBit_lt (c.m_RootDescriptorTable e.1).AssignedHandlesBitMap
      omega)
    (by rw [hsnd]; exact hfitg)
  rw [hloop] at hb1 hb2
  injection hb1 with hb1
  injection hb2 with hb2
  subst hb1
  subst hb2
  refine ⟨_, hrun, ?_, ?_, ?_⟩
  · exact hinv.1
  · have h1 : traceWrites D (b0.copyDescriptors HeapType).calls = allWrites D b0 := by
      simp [allWrites, CopyBatch.copyDescriptors, traceWrites_append, traceWrites, pendingWrites,
        copyWrites]
    have hfinal : traceWrites D (b0.copyDescriptors HeapType).calls =
        entryWrites D c.m_RootDescriptorTable c.m_HandleCache
          ((setBits c.m_StaleRootParamsBitMap 32).zip
            ((setBits c.m_StaleRootParamsBitMap 32).map
              (fun r => highestSetBit (c.m_RootDescriptorTable r).AssignedHandlesBitMap + 1)))
          dest.m_CpuHandle := by
      rw [h1, hw]
      simp [allWrites, traceWrites, pendingWrites]
    rw [hfinal, entryWrites_sorted _ _ _ _ _ (setBits_sorted _ _)]
    rfl
  · simp only [CopyBatch.copyDescriptors, binds_append, hbinds]
    rw [bindAddrs_sorted _ _ _ _ (setBits_sorted _ _)]
    simp [binds, slotsBefore]

/-- C26: for every cache state whose stale root indices are among 0..15 and whose stale
tables have a non-empty 32-bit assigned bitmap without a run longer than 16, and for
byte offsets that fit their words: the per-table sizes `TableSize[i]` computed by the
first loop of `CopyAndBindStaleTables` sum to the value `n` that `ComputeStagedSize`
returns on the same state (as does its `NeededSpace`); the operation binds table `r` at
the slot `slotsBefore c r` counted from `DestHandleStart`, the regions of `TableSize`
slots so assigned to the stale tables follow one another without overlap and end within
the first `n` slots; every write of a copy call goes to a slot of the region of its
table, and so lies at or after `DestHandleStart` and ends at or before
`DestHandleStart + n * DescriptorSize`. -/
theorem CopyAndBindStaleTables_agrees (c : DescriptorHandleCache) (HeapType DescriptorSize : Nat)
    (DestHandleStart : DescriptorHandle)
    (hstale : c.m_StaleRootParamsBitMap < 2 ^ 16)
    (htables : ∀ r, r < 32 → c.m_StaleRootParamsBitMap.testBit r = true →
      (c.m_RootDescriptorTable r).AssignedHandlesBitMap ≠ 0 ∧
      (c.m_RootDescriptorTable r).AssignedHandlesBitMap < 2 ^ 32 ∧
      RunsAtMost16 (c.m_RootDescriptorTable r).AssignedHandlesBitMap)
    (hstride : 32 * DescriptorSize < 2 ^ 31)
    (hfit : DestHandleStart.m_CpuHandle + stagedSlots c * DescriptorSize < 2 ^ 64)
    (hfitg : DestHandleStart.m_GpuHandle + stagedSlots c * DescriptorSize < 2 ^ 64) :
    ∃ (n : Nat) (b : CopyBatch) (RootIndices TableSize : List Nat) (NeededSpace : Nat),
      ComputeStagedSize c = .ok n ∧
      CollectStaleLoop c.m_RootDescriptorTable 33 c.m_StaleRootParamsBitMap [] [] 0 =
        .ok (RootIndices, TableSize, NeededSpace) ∧
      RootIndices = setBits c.m_StaleRootParamsBitMap 32 ∧
      TableSize = RootIndices.map
        (fun r => highestSetBit (c.m_RootDescriptorTable r).AssignedHandlesBitMap + 1) ∧
      TableSize.sum = n ∧ NeededSpace = n ∧
      CopyAndBindStaleTables c HeapType DescriptorSize DestHandleStart =
        .ok ({ c with m_StaleRootParamsBitMap := 0 }, b) ∧
      b.overrun = false ∧
      binds b.calls = RootIndices.map
        (fun r => (r, DestHandleStart.m_GpuHandle + DescriptorSize * slotsBefore c r)) ∧
      (∀ r ∈ RootIndices,
        slotsBefore c r + (highestSetBit (c.m_RootDescriptorTable r).AssignedHandlesBitMap + 1) ≤
          n) ∧
      (∀ r1 ∈ RootIndices, ∀ r2 ∈ RootIndices, r1 < r2 →
        slotsBefore c r1 +
            (highestSetBit (c.m_RootDescriptorTable r1).AssignedHandlesBitMap + 1) ≤
          slotsBefore c r2) ∧
      (∀ w ∈ traceWrites DescriptorSize b.calls, ∃ r k,
        r ∈ RootIndices ∧ (c.m_RootDescriptorTable r).AssignedHandlesBitMap.testBit k = true ∧
        k < highestSetBit (c.m_RootDescriptorTable r).AssignedHandlesBitMap + 1 ∧
        w.1 = DestHandleStart.m_CpuHandle + (slotsBefore c r + k) * DescriptorSize) ∧
      (∀ w ∈ traceWrites DescriptorSize b.calls,
        DestHandleStart.m_CpuHandle ≤ w.1 ∧
        w.1 + DescriptorSize ≤ DestHandleStart.m_CpuHandle + n * DescriptorSize) := by
  have hne : ∀ r ∈ setBits c.m_StaleRootParamsBitMap 32,
      setBits (c.m_RootDescriptorTable r).AssignedHandlesBitMap 32 ≠ [] := by
    intro r hr
    obtain ⟨h1, h2⟩ := mem_setBits.1 hr
    exact setBits_ne_nil (htables r h1 h2).1 (htables r h1 h2).2.1
  have hcollect := CollectStaleLoop_ok c.m_RootDescriptorTable 33 c.m_StaleRootParamsBitMap
    [] [] 0 (Nat.lt_succ_of_le (setBits_length_le _ _)) hne (by norm_num)
  simp only [List.nil_append, Nat.zero_add] at hcollect
  obtain ⟨b, hrun, hover, hwrites, hbinds⟩ := CopyAndBindStaleTables_trace c HeapType
    DescriptorSize DestHandleStart hstale htables hstride hfit hfitg
  have hsorted := setBits_sorted c.m_StaleRootParamsBitMap 32
  have hregion : ∀ r ∈ setBits c.m_StaleRootParamsBitMap 32,
      slotsBefore c r + (highestSetBit (c.m_RootDescriptorTable r).AssignedHandlesBitMap + 1) ≤
        stagedSlots c := fun r hr =>
    sum_filter_lt_le (fun r => highestSetBit (c.m_RootDescriptorTable r).AssignedHandlesBitMap + 1)
      _ r hsorted hr
  have hslot : ∀ w ∈ traceWrites DescriptorSize b.calls, ∃ r k,
      r ∈ setBits c.m_StaleRootParamsBitMap 32 ∧
      (c.m_RootDescriptorTable r).AssignedHandlesBitMap.testBit k = true ∧
      k < highestSetBit (c.m_RootDescriptorTable r).AssignedHandlesBitMap + 1 ∧
      w.1 = DestHandleStart.m_CpuHandle + (slotsBefore c r + k) * DescriptorSize := by
    intro w hw
    rw [hwrites, List.mem_flatMap] at hw
    obtain ⟨r, hr, hw⟩ := hw
    obtain ⟨k, hk, hwk⟩ := List.mem_map.1 hw
    refine ⟨r, k, hr, (mem_setBits.1 hk).2, Nat.lt_succ_of_le (le_highestSetBit hk), ?_⟩
    rw [← hwk]
    show DestHandleStart.m_CpuHandle + slotsBefore c r * DescriptorSize + k * DescriptorSize = _
    ring
  refine ⟨stagedSlots c, b, _, _, _, ComputeStagedSize_ok c hne, hcollect, rfl, rfl, rfl,
    Nat.mod_eq_of_lt (stagedSlots_lt c), hrun, hover, hbinds, hregion, ?_, hslot, ?_⟩
  · intro r1 hr1 r2 _ hlt
    exact sum_filter_lt_mono
      (fun r => highestSetBit (c.m_RootDescriptorTable r).AssignedHandlesBitMap + 1)
      _ r1 r2 hsorted hr1 hlt
  · intro w hw
    obtain ⟨r, k, hr, _, hk, hw1⟩ := hslot w hw
    have hreg := hregion r hr
    have hmul : (slotsBefore c r + k + 1) * DescriptorSize ≤ stagedSlots c * DescriptorSize :=
      Nat.mul_le_mul_right _ (by omega)
    have e : (slotsBefore c r + k + 1) * DescriptorSize =
        (slotsBefore c r + k) * DescriptorSize + DescriptorSize := by ring
    rw [hw1]
    constructor
    · exact Nat.le_add_right _ _
    · omega

/-- C26 at a cache with two stale tables, of 4 and 3 slots up to their highest assigned
slots: `ComputeStagedSize` returns 7, table 2 is bound 4 slots after table 0, and the
five writes lie between `DestHandleStart = 4096` and `4096 + 7 * 32`. -/
theorem CopyAndBindStaleTables_agrees_witness :
    ComputeStagedSize twoTableCache = .ok 7 ∧
      ∃ b, CopyAndBindStaleTables twoTableCache 0 32 ⟨4096, 8192⟩ =
          .ok ({ twoTableCache with m_StaleRootParamsBitMap := 0 }, b) ∧
        binds b.calls = [(0, 8192), (2, 8192 + 32 * 4)] ∧
        ∀ w ∈ traceWrites 32 b.calls, 4096 ≤ w.1 ∧ w.1 + 32 ≤ 4096 + 7 * 32 := by
  obtain ⟨n, b, R, T, N, hn, _, hR, _, _, _, hrun, _, hbinds, _, _, _, hw⟩ :=
    CopyAndBindStaleTables_agrees twoTableCache 0 32 ⟨4096, 8192⟩
      (by decide)
      (by
        intro r _ _
        by_cases h0 : r = 0
        · subst h0
          exact ⟨by decide, by decide, by unfold RunsAtMost16; decide⟩
        · have e : twoTableCache.m_RootDescriptorTable r = ⟨6, 8, 8, 0, 0⟩ := by
            simp [twoTableCache, h0]
          rw [e]
          exact ⟨by decide, by decide, by unfold RunsAtMost16; decide⟩)
      (by decide) (by decide) (by decide)
  have hn7 : n = 7 := by
    have e : ComputeStagedSize twoTableCache = .ok 7 := rfl
    rw [e] at hn
    injection hn with hn
    exact hn.symm
  subst hn7
  subst hR
  exact ⟨rfl, b, hrun, hbinds, hw⟩

/-- C4: when the stale root indices are among 0..15 and every stale table has a non-empty
32-bit assigned bitmap (so that the assertions of the operation pass) without a run of
more than 16 contiguously assigned slots (so that no store goes past the range arrays),
and the byte offsets fit their words, `CopyAndBindStaleTables` returns without having
stored past the range arrays, and its bind calls are exactly one call per stale root
index, in strictly increasing root-index order, the address bound for a stale table
being the GPU address of `DestHandleStart` plus `DescriptorSize` times the sum of
(highest assigned bit + 1) over the stale tables of smaller root index. -/
theorem CopyAndBindStaleTables_binds (c : DescriptorHandleCache) (HeapType DescriptorSize : Nat)
    (DestHandleStart : DescriptorHandle)
    (hstale : c.m_StaleRootParamsBitMap < 2 ^ 16)
    (hassigned : ∀ r, r < 32 → c.m_StaleRootParamsBitMap.testBit r = true →
      (c.m_RootDescriptorTable r).AssignedHandlesBitMap ≠ 0 ∧
      (c.m_RootDescriptorTable r).AssignedHandlesBitMap < 2 ^ 32 ∧
      RunsAtMost16 (c.m_RootDescriptorTable r).AssignedHandlesBitMap)
    (hstride : 32 * DescriptorSize < 2 ^ 31)
    (hfitc : DestHandleStart.m_CpuHandle + stagedSlots c * DescriptorSize < 2 ^ 64)
    (hfit : DestHandleStart.m_GpuHandle + stagedSlots c * DescriptorSize < 2 ^ 64) :
    ∃ c' b, CopyAndBindStaleTables c HeapType DescriptorSize DestHandleStart = .ok (c', b) ∧
      b.overrun = false ∧
      binds b.calls = (setBits c.m_StaleRootParamsBitMap 32).map
        (fun r => (r, DestHandleStart.m_GpuHandle + DescriptorSize * slotsBefore c r)) ∧
      ((binds b.calls).map Prod.fst).Sorted (· < ·) ∧
      (∀ r, r ∈ (binds b.calls).map Prod.fst ↔
        r < 32 ∧ c.m_StaleRootParamsBitMap.testBit r = true) := by
  obtain ⟨b, hrun, hover, _, hbinds⟩ := CopyAndBindStaleTables_trace c HeapType DescriptorSize
    DestHandleStart hstale hassigned hstride hfitc hfit
  have hfst : (binds b.calls).map Prod.fst = setBits c.m_StaleRootParamsBitMap 32 := by
    rw [hbinds, List.map_map]
    have : (Prod.fst ∘ fun r =>
        (r, DestHandleStart.m_GpuHandle + DescriptorSize * slotsBefore c r)) = id := rfl
    rw [this, List.map_id]
  refine ⟨_, b, hrun, hover, hbinds, ?_, ?_⟩
  · rw [hfst]
    exact setBits_sorted _ _
  · intro r
    rw [hfst]
    exact mem_setBits

/-- C4 at one stale table at root index 0: exactly one bind call, for index 0, at the
GPU address of `DestHandleStart`. -/
theorem CopyAndBindStaleTables_binds_witness :
    ∃ c' b, CopyAndBindStaleTables stagedExample 0 32 ⟨4096, 8192⟩ = .ok (c', b) ∧
      b.overrun = false ∧ binds b.calls = [(0, 8192)] := by
  obtain ⟨c', b, h1, h2, h3, _, _⟩ := CopyAndBindStaleTables_binds stagedExample 0 32 ⟨4096, 8192⟩
    (by decide)
    (by
      intro r _ hr
      have h0 : r = 0 := testBit_one_true hr
      subst h0
      exact ⟨by decide, by decide, by unfold RunsAtMost16; decide⟩)
    (by decide) (by decide) (by decide)
  exact ⟨c', b, h1, h2, by rw [h3]; decide⟩

/-! ## Invariants along the reachable cache states -/

theorem shiftRight_le_self (x k : Nat) : x >>> k ≤ x := by
  rw [Nat.shiftRight_eq_div_pow]
  exact Nat.div_le_self _ _

theorem shl32_lt (x n : Nat) : shl32 x n < 2 ^ 32 :=
  Nat.mod_lt _ (by norm_num)

theorem declared_of_guard {r bitmap : Nat} (hr : r < 32) (h : shl32 1 r &&& bitmap ≠ 0) :
    bitmap.testBit r = true := by
  by_contra hb
  exact h (shl32_and_eq_zero hr (by simpa using hb))

/-- The mask `((1 << NumHandles) - 1) << Offset` of between 1 and 31 handles has the bit
of the offset, taken modulo 32, set. -/
theorem stageMask_testBit_offset {off n : Nat} (h1 : 1 ≤ n) (h31 : n ≤ 31) :
    (shl32 (sub32 (shl32 1 n) 1) off).testBit (off % 32) = true := by
  have hn : n % 32 = n := Nat.mod_eq_of_lt (by omega)
  rw [shl32_one_mod, sub32_two_pow_one (Nat.mod_lt n (by norm_num)), hn]
  unfold shl32
  rw [Nat.testBit_mod_two_pow, Nat.testBit_shiftLeft, Nat.testBit_two_pow_sub_one]
  have := Nat.mod_lt off (by norm_num : 32 > 0)
  simp only [Bool.and_eq_true, decide_eq_true_eq, ge_iff_le]
  omega

theorem StageDescriptorHandles_sameLayout {c c' : DescriptorHandleCache} {r off n : Nat}
    {H : Nat → Nat} (h : StageDescriptorHandles c r off n H = .ok c') : SameLayout c c' := by
  obtain ⟨_, _, rfl⟩ := StageDescriptorHandles_eq h
  refine ⟨rfl, rfl, ?_⟩
  intro r'
  by_cases hr : r' = r
  · subst hr
    simp only [Function.update_same, and_self]
  · simp only [Function.update_noteq hr, and_self]

theorem SameLayout_trans {c1 c2 c3 : DescriptorHandleCache} (a : SameLayout c1 c2)
    (b : SameLayout c2 c3) : SameLayout c1 c3 := by
  refine ⟨b.1.trans a.1, b.2.1.trans a.2.1, ?_⟩
  intro r
  obtain ⟨a1, a2, a3, a4⟩ := a.2.2 r
  obtain ⟨b1, b2, b3, b4⟩ := b.2.2 r
  exact ⟨b1.trans a1, b2.trans a2, b3.trans a3, b4.trans a4⟩

theorem StageDescriptorHandles_wordSized {c c' : DescriptorHandleCache} {r off n : Nat}
    {H : Nat → Nat} (h : StageDescriptorHandles c r off n H = .ok c') (hc : WordSized c) :
    WordSized c' := by
  obtain ⟨_, _, rfl⟩ := StageDescriptorHandles_eq h
  intro r' hdecl
  have hdecl' : Declared c r' := hdecl
  by_cases hr : r' = r
  · subst hr
    simp only [Function.update_same]
    exact Nat.or_lt_two_pow (hc r' hdecl') (shl32_lt _ _)
  · simp only [Function.update_noteq hr]
    exact hc r' hdecl'

theorem StageDescriptorHandles_staleAssigned {c c' : DescriptorHandleCache} {r off n : Nat}
    {H : Nat → Nat} (h : StageDescriptorHandles c r off n H = .ok c') (hr : r < 32)
    (h1 : 1 ≤ n) (h31 : n ≤ 31) (hc : StaleAssigned c) : StaleAssigned c' := by
  obtain ⟨hguard, _, rfl⟩ := StageDescriptorHandles_eq h
  have hdeclr : Declared c r := ⟨hr, declared_of_guard hr hguard⟩
  have hnew : (c.m_RootDescriptorTable r).AssignedHandlesBitMap |||
      shl32 (sub32 (shl32 1 n) 1) off ≠ 0 := by
    intro h0
    have hbit := @stageMask_testBit_offset off n h1 h31
    have : ((c.m_RootDescriptorTable r).AssignedHandlesBitMap |||
        shl32 (sub32 (shl32 1 n) 1) off).testBit (off % 32) = true := by
      rw [Nat.testBit_lor, hbit, Bool.or_true]
    rw [h0, Nat.zero_testBit] at this
    cases this
  intro r' hr' hstale
  by_cases hrr : r' = r
  · subst hrr
    simp only [Function.update_same]
    exact ⟨hdeclr, hnew⟩
  · simp only [Function.update_noteq hrr]
    have hold : c.m_StaleRootParamsBitMap.testBit r' = true := by
      have hs : (c.m_StaleRootParamsBitMap ||| shl32 1 r).testBit r' = true := hstale
      rw [Nat.testBit_lor, shl32_one hr, Nat.testBit_two_pow] at hs
      have hne : ¬ r = r' := fun e => hrr e.symm
      simpa [hne] using hs
    exact hc r' hr' hold

/-- What `SetDefaults` preserves: every property of the cache that each of its staging
calls, of between 1 and 31 null handles at an offset below the declared size,
preserves. -/
theorem SetDefaultsFill_preserves (P : DescriptorHandleCache → Prop) (NullResource r : Nat)
    (hstep : ∀ c c' o u, P c → 1 ≤ u → u ≤ 31 → o < (c.m_RootDescriptorTable r).TableSize →
      StageDescriptorHandles c r o u (fun _ => NullResource) = .ok c' → P c') :
    ∀ (fuel S I o : Nat) (c c' : DescriptorHandleCache), S < 2 ^ 32 → I < 2 ^ 32 →
      SetDefaultsFill NullResource r fuel S I o c = .ok c' → P c → P c' := by
  intro fuel
  induction fuel with
  | zero => intro S I o c c' _ _ h; simp [SetDefaultsFill] at h
  | succ fuel ih =>
    intro S I o c c' hS hI h hc
    rw [SetDefaultsFill] at h
    cases hscan : _BitScanForward64 (S ^^^ I) with
    | none =>
      rw [hscan] at h
      injection h with h
      rw [← h]; exact hc
    | some u =>
      rw [hscan] at h
      simp only at h
      have hu : u < 32 := scan64_lt hscan (Nat.xor_lt_two_pow hS hI)
      have hS1 : S >>> u < 2 ^ 32 := Nat.lt_of_le_of_lt (shiftRight_le_self _ _) hS
      have hI1 : shr32 I u < 2 ^ 32 := Nat.lt_of_le_of_lt (shiftRight_le_self _ _) hI
      have hS2 : ∀ d, S >>> u >>> d < 2 ^ 32 := fun d =>
        Nat.lt_of_le_of_lt (shiftRight_le_self _ _) hS1
      have hI2 : ∀ d, shr32 (shr32 I u) d < 2 ^ 32 := fun d =>
        Nat.lt_of_le_of_lt (shiftRight_le_self _ _) hI1
      by_cases ho : o < (c.m_RootDescriptorTable r).TableSize
      · rw [if_neg (not_not.2 ho)] at h
        by_cases hpos : u > 0
        · simp only [if_pos hpos] at h
          cases hst : StageDescriptorHandles c r o u (fun _ => NullResource) with
          | error e => rw [hst] at h; cases h
          | ok c1 =>
            rw [hst] at h
            simp only at h
            have hc1 : P c1 := hstep c c1 o u hc hpos (by omega) ho hst
            split at h
            · exact ih _ _ _ _ _ (hS2 _) (hI2 _) h hc1
            · exact ih _ _ _ _ _ hS1 hI1 h hc1
        · simp only [if_neg hpos] at h
          split at h
          · exact ih _ _ _ _ _ (hS2 _) (hI2 _) h hc
          · exact ih _ _ _ _ _ hS1 hI1 h hc
      · rw [if_pos ho] at h
        injection h with h
        rw [← h]; exact hc

theorem not32_lt (x : Nat) : not32 x < 2 ^ 32 := by
  unfold not32
  have e : (2 : Nat) ^ 32 = 4294967296 := by norm_num
  rw [e]
  omega

theorem SetDefaultsLoop_preserves (P : DescriptorHandleCache → Prop) (res : DefaultResources)
    (hstep : ∀ r null c c' o u, r < 32 → P c → 1 ≤ u → u ≤ 31 →
      o < (c.m_RootDescriptorTable r).TableSize →
      StageDescriptorHandles c r o u (fun _ => null) = .ok c' → P c') :
    ∀ (fuel mask : Nat) (c c' : DescriptorHandleCache),
      (∀ c, P c → ∀ r ∈ setBits mask 32,
        (c.m_RootDescriptorTable r).AssignedHandlesBitMap < 2 ^ 32) →
      SetDefaultsLoop res fuel mask c = .ok c' → P c → P c' := by
  intro fuel
  induction fuel with
  | zero => intro mask c c' _ h; simp [SetDefaultsLoop] at h
  | succ fuel ih =>
    intro mask c c' hword h hc
    rw [SetDefaultsLoop] at h
    cases hscan : _BitScanForward mask with
    | none =>
      rw [hscan] at h
      injection h with h
      rw [← h]; exact hc
    | some r =>
      obtain ⟨hr, _, hset⟩ := setBits_of_scan hscan
      have hword' : ∀ c, P c → ∀ r' ∈ setBits (mask ^^^ shl32 1 r) 32,
          (c.m_RootDescriptorTable r').AssignedHandlesBitMap < 2 ^ 32 := by
        intro c hPc r' hr'
        exact hword c hPc r' (by rw [hset]; exact List.mem_cons_of_mem _ hr')
      rw [hscan] at h
      simp only at h
      split at h
      · exact ih _ _ _ hword' h hc
      · split at h
        · exact ih _ _ _ hword' h hc
        · split at h
          · exact ih _ _ _ hword' h hc
          · split at h
            · split at h
              · cases h
              · rename_i c1 hfill
                refine ih _ _ _ hword' h ?_
                exact SetDefaultsFill_preserves P _ r
                  (fun c c' o u hPc h1 h31 ho hst => hstep r _ c c' o u hr hPc h1 h31 ho hst)
                  _ _ _ _ _ _
                  (hword c hc r (by rw [hset]; exact List.mem_cons_self _ _))
                  (not32_lt _) hfill hc
            · exact ih _ _ _ hword' h hc

theorem setBits_sublist {s mask : Nat} (h : ∀ k, k < 32 → s.testBit k = true → mask.testBit k = true) :
    (setBits s 32).Sublist (setBits mask 32) := by
  have e : setBits s 32 = (setBits mask 32).filter (fun k => s.testBit k) := by
    unfold setBits
    rw [List.filter_filter]
    apply List.filter_congr
    intro k hk
    have hk32 : k < 32 := List.mem_range.1 hk
    cases hs : s.testBit k
    · simp
    · simp [h k hk32 hs]
  rw [e]
  exact List.filter_sublist _

/-- The invariants of the states reached from `cp`: the layout of `cp`, 32-bit assigned
bitmaps without a bit at or above the declared size, and, when every staging call has
between 1 and 31 handles, stale tables with a non-zero assigned bitmap. -/
theorem ReachableBy_invariants {calls : Nat → Nat → Prop} {cp c : DescriptorHandleCache}
    (h : ReachableBy calls cp c) (hw : WordSized cp) (hin : AssignedWithinSize cp) :
    SameLayout cp c ∧ WordSized c ∧ AssignedWithinSize c ∧
      ((∀ o n, calls o n → 1 ≤ n ∧ n ≤ 31) → StaleAssigned cp → StaleAssigned c) := by
  have hstepInv : ∀ r null c c' o u, r < 32 →
      (SameLayout cp c ∧ WordSized c ∧ AssignedWithinSize c) → 1 ≤ u → u ≤ 31 →
      o < (c.m_RootDescriptorTable r).TableSize →
      StageDescriptorHandles c r o u (fun _ => null) = .ok c' →
      (SameLayout cp c' ∧ WordSized c' ∧ AssignedWithinSize c') := by
    intro r null c c' o u _ hP _ h31 ho hst
    refine ⟨SameLayout_trans hP.1 (StageDescriptorHandles_sameLayout hst),
      StageDescriptorHandles_wordSized hst hP.2.1, ?_⟩
    refine StageDescriptorHandles_within hst ?_ hP.2.2
    obtain ⟨_, hguard, _⟩ := StageDescriptorHandles_eq hst
    by_cases h32 : 32 ≤ (c.m_RootDescriptorTable r).TableSize
    · exact Or.inr h32
    · left
      rw [Nat.mod_eq_of_lt (by
        have e : (2:Nat) ^ 32 = 4294967296 := by norm_num
        rw [e]; omega)] at hguard
      exact hguard
  induction h with
  | start =>
    exact ⟨⟨rfl, rfl, fun _ => ⟨rfl, rfl, rfl, rfl⟩⟩, hw, hin, fun _ hs => hs⟩
  | stage _ hdecl hsize hcall hst ih =>
    obtain ⟨i1, i2, i3, i4⟩ := ih
    refine ⟨SameLayout_trans i1 (StageDescriptorHandles_sameLayout hst),
      StageDescriptorHandles_wordSized hst i2,
      StageDescriptorHandles_within hst (Or.inl hsize) i3, ?_⟩
    intro hcalls hs
    exact StageDescriptorHandles_staleAssigned hst hdecl.1 (hcalls _ _ hcall).1
      (hcalls _ _ hcall).2 (i4 hcalls hs)
  | @setDefaults c c' res _ hsd ih =>
    obtain ⟨i1, i2, i3, i4⟩ := ih
    have hwordInv : ∀ d, (SameLayout cp d ∧ WordSized d ∧ AssignedWithinSize d) →
        ∀ r ∈ setBits c.m_RootDescriptorTablesBitMap 32,
          (d.m_RootDescriptorTable r).AssignedHandlesBitMap < 2 ^ 32 := by
      intro d hd r hr
      refine hd.2.1 r ?_
      obtain ⟨h1, h2⟩ := mem_setBits.1 hr
      exact ⟨h1, by rw [hd.1.1, ← i1.1]; exact h2⟩
    have hInv := SetDefaultsLoop_preserves
      (fun d => SameLayout cp d ∧ WordSized d ∧ AssignedWithinSize d) res hstepInv
      33 c.m_RootDescriptorTablesBitMap c c' hwordInv hsd ⟨i1, i2, i3⟩
    refine ⟨hInv.1, hInv.2.1, hInv.2.2, ?_⟩
    intro hcalls hs
    have hboth := SetDefaultsLoop_preserves
      (fun d => (SameLayout cp d ∧ WordSized d ∧ AssignedWithinSize d) ∧ StaleAssigned d) res
      (fun r null d d' o u hr hP h1 h31 ho hst =>
        ⟨hstepInv r null d d' o u hr hP.1 h1 h31 ho hst,
          StageDescriptorHandles_staleAssigned hst hr h1 h31 hP.2⟩)
      33 c.m_RootDescriptorTablesBitMap c c' (fun d hd => hwordInv d hd.1) hsd
      ⟨⟨i1, i2, i3⟩, i4 hcalls hs⟩
    exact hboth.2
  | @unbindAllValid c c' _ hu ih =>
    obtain ⟨i1, i2, i3, _⟩ := ih
    obtain ⟨s, hs, hbits⟩ := UnbindAllValid_returns c
    rw [hs] at hu
    injection hu with hu
    subst hu
    refine ⟨i1, i2, i3, ?_⟩
    intro _ _ r hr hstale
    have hb : s.testBit r = true := hstale
    rw [hbits r, Bool.and_eq_true, decide_eq_true_eq, decide_eq_true_eq] at hb
    exact ⟨mem_setBits.1 hb.1, hb.2⟩
  | copyAndBind _ hcb ih =>
    obtain ⟨i1, i2, i3, _⟩ := ih
    rw [CopyAndBindStaleTables_frame hcb]
    refine ⟨i1, i2, i3, ?_⟩
    intro _ _ r _ hstale
    have hb : (0 : Nat).testBit r = true := hstale
    rw [Nat.zero_testBit] at hb
    cases hb

/-- In a cache whose stale tables are declared and have a non-zero 32-bit assigned
bitmap without a bit at or above the declared size, every stale table has an assigned
slot, and the staged slots are at most the declared slots of the stale tables, which
are at most the declared slots of all declared tables. -/
theorem stagedSlots_le_declared (c : DescriptorHandleCache) (hs : StaleAssigned c)
    (hw : WordSized c) (hin : AssignedWithinSize c) :
    (∀ r ∈ setBits c.m_StaleRootParamsBitMap 32,
      setBits (c.m_RootDescriptorTable r).AssignedHandlesBitMap 32 ≠ []) ∧
    stagedSlots c ≤ declaredSlots c c.m_StaleRootParamsBitMap ∧
    declaredSlots c c.m_StaleRootParamsBitMap ≤ declaredSlots c c.m_RootDescriptorTablesBitMap := by
  have hne : ∀ r ∈ setBits c.m_StaleRootParamsBitMap 32,
      setBits (c.m_RootDescriptorTable r).AssignedHandlesBitMap 32 ≠ [] := by
    intro r hr
    obtain ⟨h1, h2⟩ := mem_setBits.1 hr
    obtain ⟨hd, h0⟩ := hs r h1 h2
    exact setBits_ne_nil h0 (hw r hd)
  refine ⟨hne, ?_, ?_⟩
  · unfold stagedSlots declaredSlots
    apply List.sum_le_sum
    intro r hr
    obtain ⟨h1, h2⟩ := mem_setBits.1 hr
    obtain ⟨hd, _⟩ := hs r h1 h2
    obtain ⟨m, hm⟩ := scanReverse_isSome (hne r hr)
    obtain ⟨_, hbit, hhigh⟩ := highestSetBit_of_scan hm
    rw [hhigh]
    by_contra hcon
    have := hin r hd m (by omega)
    rw [this] at hbit
    cases hbit
  · unfold declaredSlots
    have hsub := @setBits_sublist c.m_StaleRootParamsBitMap
      c.m_RootDescriptorTablesBitMap (fun k hk hbit => (hs k hk hbit).1.2)
    exact (hsub.map _).sum_le_sum (fun _ _ => Nat.zero_le _)

theorem ParseRootSignatureLoop_pos (RootSig : RootSignature) :
    ∀ (fuel mask : Nat) (tables : Nat → DescriptorTableCache) (off : Nat)
      (out : (Nat → DescriptorTableCache) × Nat),
      ParseRootSignatureLoop RootSig fuel mask tables off = .ok out →
      ∀ r ∈ setBits mask 32, 0 < RootSig.m_DescriptorTableSize r := by
  intro fuel
  induction fuel with
  | zero => intro mask tables off out h; simp [ParseRootSignatureLoop] at h
  | succ fuel ih =>
    intro mask tables off out h r hr
    rw [ParseRootSignatureLoop] at h
    cases hscan : _BitScanForward mask with
    | none =>
      rw [setBits_of_scan_none hscan] at hr
      cases hr
    | some i =>
      obtain ⟨_, _, hset⟩ := setBits_of_scan hscan
      rw [hscan] at h
      simp only at h
      by_cases hsz : RootSig.m_DescriptorTableSize i > 0
      · rw [if_neg (not_not.2 hsz)] at h
        rw [hset] at hr
        rcases List.mem_cons.1 hr with e | e
        · rw [e]; exact hsz
        · exact ih _ _ _ _ h r e
      · rw [if_pos hsz] at h
        cases h

/-- A call of `ParseRootSignature` that returns passed its assertions: at most 16
parameters and non-zero sizes of the tables of the category. -/
theorem ParseRootSignature_passed {kMax : Nat} {c0 cp : DescriptorHandleCache} {HeapType : Nat}
    {RootSig : RootSignature} (h : ParseRootSignature kMax c0 HeapType RootSig = .ok cp) :
    RootSig.m_NumParameters ≤ 16 ∧
    (∀ r ∈ setBits (if HeapType = D3D12_DESCRIPTOR_HEAP_TYPE_SAMPLER then
        RootSig.m_SamplerTableBitMap else RootSig.m_DescriptorTableBitMap) 32,
      0 < RootSig.m_DescriptorTableSize r) ∧
    cp.m_StaleRootParamsBitMap = 0 := by
  unfold ParseRootSignature at h
  by_cases hp : RootSig.m_NumParameters ≤ 16
  · rw [if_neg (not_not.2 hp)] at h
    simp only at h
    split at h
    · cases h
    · rename_i tables off hloop
      refine ⟨hp, ParseRootSignatureLoop_pos _ _ _ _ _ _ hloop, ?_⟩
      split at h
      · cases h
      · injection h with h
        rw [← h]
  · rw [if_pos hp] at h
    cases h

/-- The state a successful `ParseRootSignature` leaves, when the declared sizes sum below
`2 ^ 32`: the invariants hold, and the declared slots are `m_MaxCachedDescriptors`,
which is at most `kMaxNumDescriptors`. -/
theorem ParseRootSignature_validated {kMax : Nat} {c0 cp : DescriptorHandleCache}
    {HeapType : Nat} {RootSig : RootSignature}
    (h : ParseRootSignature kMax c0 HeapType RootSig = .ok cp)
    (hfit : declaredTotal RootSig HeapType < 2 ^ 32) :
    WordSized cp ∧ AssignedWithinSize cp ∧ StaleAssigned cp ∧
      declaredSlots cp cp.m_RootDescriptorTablesBitMap = cp.m_MaxCachedDescriptors ∧
      cp.m_MaxCachedDescriptors ≤ kMax := by
  obtain ⟨hparams, hpos, hstale⟩ := ParseRootSignature_passed h
  obtain ⟨hiff, _, hlayout⟩ := ParseRootSignature_layout kMax c0 HeapType RootSig hparams hpos hfit
  obtain ⟨hmax, _, hbitmap, htables, _⟩ := hlayout cp h
  have hzero := ParseRootSignature_assigned h
  refine ⟨?_, ?_, ?_, ?_, ?_⟩
  · intro r hd
    rw [hzero r hd]
    norm_num
  · intro r hd k _
    rw [hzero r hd, Nat.zero_testBit]
  · intro r _ hbit
    rw [hstale, Nat.zero_testBit] at hbit
    cases hbit
  · rw [hmax]
    unfold declaredSlots declaredTotal
    rw [hbitmap]
    congr 1
    apply List.map_congr_left
    intro r hr
    have hd : Declared cp r := by
      obtain ⟨h1, h2⟩ := mem_setBits.1 hr
      exact ⟨h1, by rw [hbitmap]; exact h2⟩
    exact (htables r hd).2.1
  · rw [hmax]
    by_contra hcon
    have := hiff.2 (Nat.lt_of_not_le hcon)
    rw [h] at this
    cases this

/-! ## The staged size and the declared layout -/

/-- C25 (amended): in every cache state reached from a successful `ParseRootSignature` of
a root signature whose declared sizes sum below `2 ^ 32`, by calls of
`StageDescriptorHandles` that satisfy its preconditions and stage between 1 and 31
handles at slots below 32, of `SetDefaults`, of `UnbindAllValid` and of
`CopyAndBindStaleTables`, `ComputeStagedSize` returns (its assertion does not fire) a
value that is at most the sum of the declared sizes of the stale tables, which is at
most `m_MaxCachedDescriptors`, which is at most `kMaxNumDescriptors`; so the staged size
fits an empty heap whose capacity is at least `kMaxNumDescriptors`. -/
theorem ComputeStagedSize_bounded (kMaxNumDescriptors : Nat) (c0 cp c : DescriptorHandleCache)
    (HeapType : Nat) (RootSig : RootSignature)
    (hparse : ParseRootSignature kMaxNumDescriptors c0 HeapType RootSig = .ok cp)
    (hfit : declaredTotal RootSig HeapType < 2 ^ 32)
    (hreach : ReachableBy InWord cp c) :
    ∃ n, ComputeStagedSize c = .ok n ∧
      n ≤ declaredSlots c c.m_StaleRootParamsBitMap ∧
      declaredSlots c c.m_StaleRootParamsBitMap ≤ c.m_MaxCachedDescriptors ∧
      c.m_MaxCachedDescriptors ≤ kMaxNumDescriptors ∧
      ∀ capacity, kMaxNumDescriptors ≤ capacity → n ≤ capacity := by
  obtain ⟨hw, hin, hs, htotal, hmax⟩ := ParseRootSignature_validated hparse hfit
  obtain ⟨hlayout, hwc, hinc, hsc⟩ := ReachableBy_invariants hreach hw hin
  have hstale : StaleAssigned c := hsc (fun _ _ hcall => ⟨hcall.1, hcall.2.1⟩) hs
  obtain ⟨hne, h1, h2⟩ := stagedSlots_le_declared c hstale hwc hinc
  have hdecl : declaredSlots c c.m_RootDescriptorTablesBitMap = c.m_MaxCachedDescriptors := by
    rw [hlayout.2.1, ← htotal, hlayout.1]
    unfold declaredSlots
    congr 1
    apply List.map_congr_left
    intro r _
    exact (hlayout.2.2 r).2.1
  have hmaxc : c.m_MaxCachedDescriptors ≤ kMaxNumDescriptors := by
    rw [hlayout.2.1]
    exact hmax
  refine ⟨stagedSlots c, ComputeStagedSize_ok c hne, h1, by rw [← hdecl]; exact h2, hmaxc, ?_⟩
  intro capacity hcap
  rw [hdecl] at h2
  omega

/-- The state with slots 0..4 of the table of 8 slots staged is reached by one staging
call of 5 handles. -/
theorem stagedExample_inWord : ReachableBy InWord parsedExample stagedExample :=
  @ReachableBy.stage InWord parsedExample parsedExample stagedExample 0 0 5 someHandles
    ReachableBy.start ⟨by decide, by decide⟩ (by decide)
    ⟨by decide, by decide, by decide⟩ rfl

/-- C25 (amended) at the table of 8 slots with slots 0..4 staged: the staged size is 5,
the declared size of the stale table is 8, as is `m_MaxCachedDescriptors`. -/
theorem ComputeStagedSize_bounded_witness :
    ComputeStagedSize stagedExample = .ok 5 ∧
      declaredSlots stagedExample stagedExample.m_StaleRootParamsBitMap = 8 ∧
      stagedExample.m_MaxCachedDescriptors = 8 ∧
      ∃ n, ComputeStagedSize stagedExample = .ok n ∧ n ≤ 1024 := by
  obtain ⟨n, h1, _, _, _, h5⟩ := ComputeStagedSize_bounded 256 blankCache parsedExample
    stagedExample 0 (tableSignature 8) rfl (by decide) stagedExample_inWord
  exact ⟨rfl, rfl, rfl, n, h1, h5 1024 (by decide)⟩

/-- C25 fails as stated: on a declared table of 64 slots the valid call that stages 32
handles at offset 32 leaves the assigned bitmap 0 and marks the table stale, so the
assertion of `ComputeStagedSize` fires; and after the successful `ParseRootSignature` of
the signature with tables of `0xFFFFFFFF`, 1 and 5 descriptors, the valid call that
stages 31 handles into table 0 gives the staged size 31 and a stale table of declared
size `0xFFFFFFFF`, both above `m_MaxCachedDescriptors = 5`. -/
theorem ComputeStagedSize_unbounded :
    (∃ c c', ParseRootSignature 256 blankCache 0 (tableSignature 64) = .ok c ∧
      Declared c 0 ∧ 32 + 32 ≤ (c.m_RootDescriptorTable 0).TableSize ∧ 1 ≤ 32 ∧
      StageDescriptorHandles c 0 32 32 someHandles = .ok c' ∧
      c'.m_StaleRootParamsBitMap = 1 ∧ (c'.m_RootDescriptorTable 0).AssignedHandlesBitMap = 0 ∧
      ComputeStagedSize c' = .error Fault.assertion) ∧
    (∃ c c', ParseRootSignature 256 blankCache 0 wrapSignature = .ok c ∧
      Declared c 0 ∧ 0 + 31 ≤ (c.m_RootDescriptorTable 0).TableSize ∧ 1 ≤ 31 ∧
      StageDescriptorHandles c 0 0 31 someHandles = .ok c' ∧
      ComputeStagedSize c' = .ok 31 ∧
      declaredSlots c' c'.m_StaleRootParamsBitMap = 4294967295 ∧
      c'.m_MaxCachedDescriptors = 5) :=
  ⟨⟨_, _, rfl, ⟨by decide, by decide⟩, by decide, by decide, rfl, rfl, rfl, rfl⟩,
    ⟨_, _, rfl, ⟨by decide, by decide⟩, by decide, by decide, rfl, rfl, rfl, rfl⟩⟩

/-! ## The write offset and the heap capacity -/

/-- The steps of a call of `CopyAndBindStagedTables` that returns: the needed size `n`,
the instance `h1` and the needed size `n1` after the rotation (or `h` and `n` when the
heap has room), the heap pointer, and the call of `CopyAndBindStaleTables` on the range
`Allocate` returned. -/
theorem CopyAndBindStagedTables_steps {env : Collaborators} {pool pool' : HeapPool}
    {h h' : DynamicDescriptorHeap} {graphics : Bool} {calls : List DeviceCall}
    (hrun : CopyAndBindStagedTables env pool h graphics = .ok (pool', h', calls)) :
    ∃ (n : Nat) (h1 : DynamicDescriptorHeap) (n1 heap : Nat) (h2 : DynamicDescriptorHeap)
      (c : DescriptorHandleCache) (b : CopyBatch),
      ComputeStagedSize (h.cache graphics) = .ok n ∧
      ((HasSpace env h n = true ∧ h1 = h ∧ n1 = n) ∨
        (HasSpace env h n = false ∧ ∃ h0, RetireCurrentHeap h = .ok h0 ∧
          h0.UnbindAllValid = .ok h1 ∧ ComputeStagedSize (h1.cache graphics) = .ok n1)) ∧
      GetHeapPointer env pool h1 = .ok (heap, pool', h2) ∧
      CopyAndBindStaleTables ((Allocate h2 n1).2.cache graphics)
        (Allocate h2 n1).2.m_DescriptorType (Allocate h2 n1).2.m_DescriptorSize
        (Allocate h2 n1).1 = .ok (c, b) ∧
      h' = (Allocate h2 n1).2.setCache graphics c ∧
      calls = DeviceCall.SetDescriptorHeap (Allocate h2 n1).2.m_DescriptorType heap :: b.calls := by
  have hfinish : ∀ (h1 : DynamicDescriptorHeap) (n1 : Nat),
      (match GetHeapPointer env pool h1 with
        | Except.error e => Except.error e
        | Except.ok (HeapPtr, pool, h) =>
          match CopyAndBindStaleTables ((Allocate h n1).2.cache graphics)
              (Allocate h n1).2.m_DescriptorType (Allocate h n1).2.m_DescriptorSize
              (Allocate h n1).1 with
          | Except.error e => Except.error e
          | Except.ok (c, b) =>
            (Except.ok (pool, (Allocate h n1).2.setCache graphics c,
              DeviceCall.SetDescriptorHeap (Allocate h n1).2.m_DescriptorType HeapPtr :: b.calls) :
              Except Fault (HeapPool × DynamicDescriptorHeap × List DeviceCall))) =
        .ok (pool', h', calls) →
      ∃ (heap : Nat) (h2 : DynamicDescriptorHeap) (c : DescriptorHandleCache) (b : CopyBatch),
        GetHeapPointer env pool h1 = .ok (heap, pool', h2) ∧
        CopyAndBindStaleTables ((Allocate h2 n1).2.cache graphics)
          (Allocate h2 n1).2.m_DescriptorType (Allocate h2 n1).2.m_DescriptorSize
          (Allocate h2 n1).1 = .ok (c, b) ∧
        h' = (Allocate h2 n1).2.setCache graphics c ∧
        calls = DeviceCall.SetDescriptorHeap (Allocate h2 n1).2.m_DescriptorType heap ::
          b.calls := by
    intro h1 n1 hm
    cases hg : GetHeapPointer env pool h1 with
    | error e => rw [hg] at hm; cases hm
    | ok out =>
      obtain ⟨heap, p2, h2⟩ := out
      rw [hg] at hm
      simp only at hm
      cases hcb : CopyAndBindStaleTables ((Allocate h2 n1).2.cache graphics)
          (Allocate h2 n1).2.m_DescriptorType (Allocate h2 n1).2.m_DescriptorSize
          (Allocate h2 n1).1 with
      | error e => rw [hcb] at hm; cases hm
      | ok out3 =>
        obtain ⟨c3, b3⟩ := out3
        rw [hcb] at hm
        simp only [Except.ok.injEq, Prod.mk.injEq] at hm
        obtain ⟨e1, e2, e3⟩ := hm
        subst e1
        exact ⟨heap, h2, c3, b3, rfl, hcb, e2.symm, e3.symm⟩
  unfold CopyAndBindStagedTables at hrun
  cases hn : ComputeStagedSize (h.cache graphics) with
  | error e => rw [hn] at hrun; cases hrun
  | ok n =>
    rw [hn] at hrun
    simp only at hrun
    by_cases hs : HasSpace env h n = true
    · simp only [hs, not_true_eq_false, if_false] at hrun
      obtain ⟨heap, h2, c, b, q1, q2, q3, q4⟩ := hfinish h n hrun
      exact ⟨n, h, n, heap, h2, c, b, rfl, Or.inl ⟨hs, rfl, rfl⟩, q1, q2, q3, q4⟩
    · have hs' : HasSpace env h n = false := by simpa using hs
      simp only [hs', Bool.false_eq_true, not_false_eq_true, if_true] at hrun
      cases hr : RetireCurrentHeap h with
      | error e => rw [hr] at hrun; cases hrun
      | ok h0 =>
        rw [hr] at hrun
        simp only at hrun
        cases hu : h0.UnbindAllValid with
        | error e => rw [hu] at hrun; cases hrun
        | ok h1 =>
          rw [hu] at hrun
          simp only at hrun
          cases hc : ComputeStagedSize (h1.cache graphics) with
          | error e => rw [hc] at hrun; cases hrun
          | ok n1 =>
            rw [hc] at hrun
            simp only at hrun
            obtain ⟨heap, h2, c, b, q1, q2, q3, q4⟩ := hfinish h1 n1 hrun
            exact ⟨n, h1, n1, heap, h2, c, b, rfl, Or.inr ⟨hs', h0, rfl, hu, hc⟩, q1, q2, q3, q4⟩

/-- Every table `UnbindAllValid` marks stale is declared and has a non-zero assigned
bitmap. -/
theorem UnbindAllValid_staleAssigned {c c' : DescriptorHandleCache}
    (hu : c.UnbindAllValid = .ok c') : StaleAssigned c' := by
  obtain ⟨s, hs, hbits⟩ := UnbindAllValid_returns c
  rw [hs] at hu
  injection hu with hu
  subst hu
  intro r _ hstale
  have hb : s.testBit r = true := hstale
  rw [hbits r, Bool.and_eq_true, decide_eq_true_eq, decide_eq_true_eq] at hb
  exact ⟨mem_setBits.1 hb.1, hb.2⟩

/-- After `UnbindAllValid` on a cache reached from a successful `ParseRootSignature`
whose declared sizes sum below `2 ^ 32`, the staged slots are at most
`kMaxNumDescriptors`. -/
theorem stagedSlots_unbound_le {calls : Nat → Nat → Prop} {kMaxNumDescriptors : Nat}
    {c0 cp c c' : DescriptorHandleCache} {HeapType : Nat} {RootSig : RootSignature}
    (hparse : ParseRootSignature kMaxNumDescriptors c0 HeapType RootSig = .ok cp)
    (hfit : declaredTotal RootSig HeapType < 2 ^ 32)
    (hreach : ReachableBy calls cp c) (hu : c.UnbindAllValid = .ok c') :
    stagedSlots c' ≤ kMaxNumDescriptors := by
  obtain ⟨hw, hin, _, htotal, hmax⟩ := ParseRootSignature_validated hparse hfit
  obtain ⟨hlayout, hwc, hinc, _⟩ :=
    ReachableBy_invariants (ReachableBy.unbindAllValid hreach hu) hw hin
  obtain ⟨_, h1, h2⟩ := stagedSlots_le_declared c' (UnbindAllValid_staleAssigned hu) hwc hinc
  have hdecl : declaredSlots c' c'.m_RootDescriptorTablesBitMap = cp.m_MaxCachedDescriptors := by
    rw [← htotal, hlayout.1]
    unfold declaredSlots
    congr 1
    apply List.map_congr_left
    intro r _
    exact (hlayout.2.2 r).2.1
  rw [hdecl] at h2
  omega

/-! ## An instance without a current heap has the write offset 0 -/

/-- A successful `UploadDirect` leaves a current heap. -/
theorem UploadDirect_heap {env : Collaborators} {pool pool' : HeapPool}
    {h h' : DynamicDescriptorHeap} {Handle gpu : Nat} {calls : List DeviceCall}
    (hrun : UploadDirect env pool h Handle = .ok (gpu, pool', h', calls)) :
    ∃ heap, h'.m_CurrentHeapPtr = some heap := by
  by_cases hs : HasSpace env h 1 = true
  · cases hg : GetHeapPointer env pool h with
    | error e =>
      unfold UploadDirect at hrun
      simp only [hs, not_true_eq_false, if_false, hg] at hrun
      cases hrun
    | ok out =>
      obtain ⟨heap, p2, h2⟩ := out
      rw [UploadDirect_keep env pool h Handle hs hg] at hrun
      simp only [Except.ok.injEq, Prod.mk.injEq] at hrun
      obtain ⟨_, _, e, _⟩ := hrun
      subst e
      exact ⟨heap, (GetHeapPointer_moves hg).2.1⟩
  · have hs' : HasSpace env h 1 = false := by simpa using hs
    cases hr : RetireCurrentHeap h with
    | error e =>
      unfold UploadDirect at hrun
      simp only [hs', Bool.false_eq_true, not_false_eq_true, if_true, hr] at hrun
      cases hrun
    | ok h0 =>
      obtain ⟨h1, hu⟩ := UnbindAllValid_total h0
      cases hg : GetHeapPointer env pool h1 with
      | error e =>
        unfold UploadDirect at hrun
        simp only [hs', Bool.false_eq_true, not_false_eq_true, if_true, hr, hu, hg] at hrun
        cases hrun
      | ok out =>
        obtain ⟨heap, p2, h2⟩ := out
        rw [UploadDirect_rotate env pool h Handle hs' hr hu hg] at hrun
        simp only [Except.ok.injEq, Prod.mk.injEq] at hrun
        obtain ⟨_, _, e, _⟩ := hrun
        subst e
        exact ⟨heap, (GetHeapPointer_moves hg).2.1⟩

/-- A successful `CopyAndBindStagedTables` leaves a current heap. -/
theorem CopyAndBindStagedTables_heap {env : Collaborators} {pool pool' : HeapPool}
    {h h' : DynamicDescriptorHeap} {graphics : Bool} {calls : List DeviceCall}
    (hrun : CopyAndBindStagedTables env pool h graphics = .ok (pool', h', calls)) :
    ∃ heap, h'.m_CurrentHeapPtr = some heap := by
  obtain ⟨n, h1, n1, heap, h2, c, b, _, _, hg, _, hh', _⟩ := CopyAndBindStagedTables_steps hrun
  refine ⟨heap, ?_⟩
  rw [hh']
  have hptr := (GetHeapPointer_moves hg).2.1
  unfold DynamicDescriptorHeap.setCache Allocate
  cases graphics <;> exact hptr

/-- A successful `CleanupUsedHeaps` leaves no current heap and the write offset 0. -/
theorem CleanupUsedHeaps_heap {pool pool' : HeapPool} {h h' : DynamicDescriptorHeap}
    {fenceValue : Nat} (hrun : CleanupUsedHeaps pool h fenceValue = .ok (pool', h')) :
    h'.m_CurrentHeapPtr = none ∧ h'.m_CurrentOffset = 0 := by
  cases hr : RetireCurrentHeap h with
  | error e =>
    unfold CleanupUsedHeaps at hrun
    rw [hr] at hrun
    cases hrun
  | ok h0 =>
    rw [CleanupUsedHeaps_of_retire fenceValue hr] at hrun
    simp only [Except.ok.injEq, Prod.mk.injEq] at hrun
    obtain ⟨_, e⟩ := hrun
    subst e
    obtain ⟨_, hptr, hoff, _⟩ := RetireCurrentHeap_heaps hr
    exact ⟨hptr, hoff⟩

/-- Every operation of a context keeps the write offset at 0 in the instances without a
current heap. -/
theorem Step_offset {w w' : World} (hs : Step w w')
    (hw : ∀ d ∈ w.contexts, d.m_CurrentHeapPtr = none → d.m_CurrentOffset = 0) :
    ∀ d ∈ w'.contexts, d.m_CurrentHeapPtr = none → d.m_CurrentOffset = 0 := by
  have hset : ∀ (i : Nat) (d' : DynamicDescriptorHeap),
      (d'.m_CurrentHeapPtr = none → d'.m_CurrentOffset = 0) →
      ∀ d ∈ w.contexts.set i d', d.m_CurrentHeapPtr = none → d.m_CurrentOffset = 0 := by
    intro i d' hd' d hd
    rcases List.mem_or_eq_of_mem_set hd with hmem | heq
    · exact hw d hmem
    · rw [heq]
      exact hd'
  have hold : ∀ (i : Nat) (d : DynamicDescriptorHeap), w.contexts[i]? = some d →
      d.m_CurrentHeapPtr = none → d.m_CurrentOffset = 0 := by
    intro i d hi
    exact hw d (List.getElem?_mem hi)
  cases hs with
  | construct _ HeapType DescriptorSize first graphics compute =>
    intro d hd
    rcases List.mem_append.1 hd with hmem | hnew
    · exact hw d hmem
    · rw [List.mem_singleton.1 hnew]
      intro _
      rfl
  | cacheOp _ i d graphics compute hi => exact hset i _ (fun hnone => hold i d hi hnone)
  | getHeapPointer env _ i d d' ptr pool' hi h =>
    refine hset i d' ?_
    intro hnone
    rw [(GetHeapPointer_moves h).2.1] at hnone
    cases hnone
  | retireCurrentHeap _ i d d' hi h =>
    refine hset i d' ?_
    intro _
    exact (RetireCurrentHeap_heaps h).2.2.1
  | retireUsedHeaps _ i d fence hi => exact hset i _ (fun hnone => hold i d hi hnone)
  | cleanupUsedHeaps _ i d d' fence pool' hi h =>
    refine hset i d' ?_
    intro _
    exact (CleanupUsedHeaps_heap h).2
  | uploadDirect env _ i d d' Handle gpu pool' calls hi h =>
    refine hset i d' ?_
    intro hnone
    obtain ⟨heap, hheap⟩ := UploadDirect_heap h
    rw [hheap] at hnone
    cases hnone
  | copyAndBindStagedTables env _ i d d' graphics pool' calls hi h =>
    refine hset i d' ?_
    intro hnone
    obtain ⟨heap, hheap⟩ := CopyAndBindStagedTables_heap h
    rw [hheap] at hnone
    cases hnone

/-- In every state the operations reach from a world without contexts, whose instances
are therefore made by the constructor, an instance without a current heap has the write
offset 0. -/
theorem offset_zero_without_heap {pool : HeapPool} {w : World}
    (h : Relation.ReflTransGen Step ⟨pool, []⟩ w) :
    ∀ d ∈ w.contexts, d.m_CurrentHeapPtr = none → d.m_CurrentOffset = 0 := by
  induction h with
  | refl =>
    intro d hd
    cases hd
  | tail _ hs ih => exact Step_offset hs ih

/-! ## The needed size after the rotation -/

end MiniEngine
